import Mathlib

/-!
Verification of the Course-Genius generation pipeline.

This file shallowly embeds the orchestration core of the repository:
the retry/backoff executor, the token-limit policy, the structured-output
codec (`cleanJson` / `safeJsonParse`), the source extraction from grounding
metadata, and the three `generateCourseStream` variants (the Gemini adapter
in `services/geminiService.ts`, the OpenRouter adapter in
`services/openRouterService.ts`, and the earlier Gemini variant kept in the
repository, here called `legacy`).  Upstream network calls are modelled by
oracles: functions from attempt number / module index / prompt to the
`Except`-value the call would settle with.  An async generator becomes a
function producing the list of yielded updates together with the error, if
any, that terminated the stream.
-/

namespace CourseGenius

/-! ## Data model (`types.ts`) -/

inductive GenerationStep where
  | Idle
  | Outlining
  | GeneratingModules
  | GeneratingImages
  | Done
deriving DecidableEq, Repr, BEq

structure Source where
  title : String
  url : String
deriving DecidableEq, Repr, BEq

structure Lesson where
  title : String
  content : String
  videoScript : Option String := none
  imagePrompt : Option String := none
  imageBase64 : Option String := none
deriving DecidableEq, Repr, BEq

structure Question where
  questionText : String
  options : List String
  correctAnswer : String
  explanation : String
deriving DecidableEq, Repr, BEq

structure Quiz where
  title : String
  questions : List Question
deriving DecidableEq, Repr, BEq

structure Worksheet where
  title : String
  content : String
deriving DecidableEq, Repr, BEq

structure ResourceSheet where
  title : String
  content : String
deriving DecidableEq, Repr, BEq

structure CModule where
  title : String
  description : String
  lessons : List Lesson
  quiz : Option Quiz := none
  worksheet : Option Worksheet := none
  resourceSheet : Option ResourceSheet := none
deriving DecidableEq, Repr, BEq

structure CourseOutline where
  title : String
  description : String
  learningObjectives : List String
  moduleTitles : List String
  sources : Option (List Source) := none
deriving DecidableEq, Repr, BEq

/-- The `payload?: any` field of a `GenerationUpdate` only ever carries a
finished `CourseOutline` or a finished module. -/
inductive Payload where
  | outline (o : CourseOutline)
  | mod (m : CModule)
deriving DecidableEq, Repr, BEq

structure GenerationUpdate where
  step : GenerationStep
  message : String
  payload : Option Payload := none
deriving DecidableEq, Repr, BEq

/-- The observable outcome of consuming one `generateCourseStream` run to its
end: the updates yielded, and the error (if any) that terminated the stream. -/
structure RunResult where
  updates : List GenerationUpdate
  error : Option String
deriving DecidableEq, Repr, BEq

/-- JS `String.prototype.trim` modelled executably over the character list
(ASCII whitespace; `String.trim` of Lean core does not reduce in the kernel). -/
def isJsWhitespace (c : Char) : Bool :=
  c = ' ' || c = '\t' || c = '\n' || c = '\r' || c = '\x0b' || c = '\x0c'

def trimChars (cs : List Char) : List Char :=
  ((cs.dropWhile isJsWhitespace).reverse.dropWhile isJsWhitespace).reverse

def jsTrim (s : String) : String := String.mk (trimChars s.data)

/-- Concrete-value helper: build a `CourseOutline` without optional sources. -/
def mkOutline (title description : String) (objs moduleTitles : List String) :
    CourseOutline :=
  { title := title, description := description, learningObjectives := objs,
    moduleTitles := moduleTitles }

/-- Concrete-value helper: build a `Lesson` with an optional image prompt. -/
def mkLesson (title content : String) (prompt : Option String) : Lesson :=
  { title := title, content := content, imagePrompt := prompt }

/-- Concrete-value helper: a `Lesson` carrying an `imageBase64` payload. -/
def mkLessonImg (title content : String) (prompt : Option String) (img : Option String) :
    Lesson :=
  { title := title, content := content, imagePrompt := prompt, imageBase64 := img }

/-- Concrete-value helper: build a bare `CModule`. -/
def mkModule (title description : String) (lessons : List Lesson) : CModule :=
  { title := title, description := description, lessons := lessons }

/-- The completed-module payloads of an update sequence: payloads of updates
whose step is `GENERATING_MODULES`. -/
def completedModules (us : List GenerationUpdate) : List CModule :=
  us.filterMap fun u =>
    if u.step == GenerationStep.GeneratingModules then
      match u.payload with
      | some (Payload.mod m) => some m
      | _ => none
    else none

/-- Boolean test for an Outlining-completed update (step `OUTLINING` with a
payload). -/
def isOutliningDone (u : GenerationUpdate) : Bool :=
  u.step == GenerationStep.Outlining && u.payload.isSome

theorem completedModules_nil : completedModules [] = [] := rfl

/-- The per-update selector underlying `completedModules`. -/
def completedOf (u : GenerationUpdate) : Option CModule :=
  if u.step == GenerationStep.GeneratingModules then
    match u.payload with
    | some (Payload.mod m) => some m
    | _ => none
  else none

theorem completedModules_eq_filterMap (us : List GenerationUpdate) :
    completedModules us = us.filterMap completedOf := rfl

theorem completedModules_cons (u : GenerationUpdate) (us : List GenerationUpdate) :
    completedModules (u :: us) = (completedOf u).toList ++ completedModules us := by
  rw [completedModules_eq_filterMap, completedModules_eq_filterMap, List.filterMap_cons]
  cases h : completedOf u <;> simp [h]

theorem completedModules_append (a b : List GenerationUpdate) :
    completedModules (a ++ b) = completedModules a ++ completedModules b := by
  simp [completedModules_eq_filterMap, List.filterMap_append]

theorem completedOf_none_payload (s : GenerationStep) (msg : String) :
    completedOf { step := s, message := msg, payload := none } = none := by
  unfold completedOf
  cases s <;> rfl

theorem completedOf_GM_mod (msg : String) (m : CModule) :
    completedOf
      { step := GenerationStep.GeneratingModules, message := msg, payload := some (Payload.mod m) }
      = some m := rfl

theorem completedOf_GI (msg : String) (p : Option Payload) :
    completedOf { step := GenerationStep.GeneratingImages, message := msg, payload := p } =
      none := rfl

theorem completedOf_Outlining (msg : String) (p : Option Payload) :
    completedOf { step := GenerationStep.Outlining, message := msg, payload := p } = none := rfl

/-! ## Retry/backoff executor (`openRouterService.ts`, `retryApiCall`)

The TS loop runs `attempt = 1 .. maxRetries`; a successful attempt returns
immediately, a failed attempt sleeps `baseDelay * 2^(attempt-1)` ms when more
attempts remain, and after the loop the last error is rethrown.  The model
returns the result, the number of invocations, and the list of inter-attempt
delays.  When `maxRetries = 0` the TS code throws the undefined `lastError`,
modelled by `Except.error none`. -/

def retryFrom (op : Nat → Except ε α) (maxRetries baseDelay : Nat) :
    Nat → Nat → Option ε → Except (Option ε) α × Nat × List Nat
  | 0, _, last => (Except.error last, 0, [])
  | rem + 1, attempt, _ =>
    match op attempt with
    | Except.ok a => (Except.ok a, 1, [])
    | Except.error e =>
      if attempt < maxRetries then
        ((retryFrom op maxRetries baseDelay rem (attempt + 1) (some e)).1,
         (retryFrom op maxRetries baseDelay rem (attempt + 1) (some e)).2.1 + 1,
         baseDelay * 2 ^ (attempt - 1) ::
           (retryFrom op maxRetries baseDelay rem (attempt + 1) (some e)).2.2)
      else (Except.error (some e), 1, [])

def retryApiCall (op : Nat → Except ε α) (maxRetries : Nat := 3)
    (baseDelay : Nat := 1000) : Except (Option ε) α × Nat × List Nat :=
  retryFrom op maxRetries baseDelay maxRetries 1 none

theorem retryFrom_allFail {ε α : Type} (op : Nat → Except ε α) (errs : Nat → ε)
    (hfail : ∀ i, op i = Except.error (errs i)) (maxRetries baseDelay : Nat) :
    ∀ rem attempt last, 1 ≤ rem → 1 ≤ attempt → attempt + rem = maxRetries + 1 →
      retryFrom op maxRetries baseDelay rem attempt last =
        (Except.error (some (errs maxRetries)), rem,
          (List.range (rem - 1)).map (fun k => baseDelay * 2 ^ (attempt - 1 + k))) := by
  intro rem
  induction rem with
  | zero => intro attempt last h; omega
  | succ n ih =>
    intro attempt last _ hat1 hsum
    by_cases hn : n = 0
    · subst hn
      have hat : attempt = maxRetries := by omega
      subst hat
      simp [retryFrom, hfail attempt]
    · have hlt : attempt < maxRetries := by omega
      have hrec := ih (attempt + 1) (some (errs attempt)) (by omega) (by omega) (by omega)
      have hfun : (fun k => baseDelay * 2 ^ (attempt + 1 - 1 + k)) =
          ((fun k => baseDelay * 2 ^ (attempt - 1 + k)) ∘ Nat.succ) := by
        funext k
        simp only [Function.comp_apply]
        have hexp : attempt + 1 - 1 + k = attempt - 1 + Nat.succ k := by omega
        rw [hexp]
      have h3 : (List.range (n + 1 - 1)).map (fun k => baseDelay * 2 ^ (attempt - 1 + k)) =
          baseDelay * 2 ^ (attempt - 1) ::
            (List.range (n - 1)).map (fun k => baseDelay * 2 ^ (attempt + 1 - 1 + k)) := by
        rw [show n + 1 - 1 = (n - 1) + 1 from by omega, List.range_succ_eq_map,
          List.map_cons, List.map_map, hfun]
        simp
      simp only [retryFrom, hfail attempt, if_pos hlt, hrec, h3]

/-- With an operation failing on every attempt, `retryApiCall` makes exactly
`maxRetries` invocations and propagates the last attempt's error, sleeping
`baseDelay * 2^(attempt-1)` between consecutive attempts. -/
theorem retryApiCall_allFail {ε α : Type} (op : Nat → Except ε α) (errs : Nat → ε)
    (hfail : ∀ i, op i = Except.error (errs i)) (maxRetries baseDelay : Nat)
    (hpos : 1 ≤ maxRetries) :
    retryApiCall op maxRetries baseDelay =
      (Except.error (some (errs maxRetries)), maxRetries,
        (List.range (maxRetries - 1)).map (fun k => baseDelay * 2 ^ k)) := by
  have h := retryFrom_allFail op errs hfail maxRetries baseDelay maxRetries 1 none hpos
    (by omega) (by omega)
  simpa using h

theorem retryFrom_ok_exists {ε α : Type} (op : Nat → Except ε α)
    (maxRetries baseDelay : Nat) (a : α) :
    ∀ rem attempt last, (retryFrom op maxRetries baseDelay rem attempt last).1 = Except.ok a →
      ∃ i, op i = Except.ok a := by
  intro rem
  induction rem with
  | zero => intro attempt last h; simp [retryFrom] at h
  | succ n ih =>
    intro attempt last h
    simp only [retryFrom] at h
    cases hop : op attempt with
    | ok b =>
      rw [hop] at h
      simp at h
      exact ⟨attempt, by rw [hop, h]⟩
    | error e =>
      rw [hop] at h
      by_cases hlt : attempt < maxRetries
      · simp only [if_pos hlt] at h
        exact ih (attempt + 1) (some e) h
      · simp [if_neg hlt] at h

/-- A successful `retryApiCall` result is the result of one of the attempts. -/
theorem retryApiCall_ok_exists {ε α : Type} (op : Nat → Except ε α)
    (maxRetries baseDelay : Nat) (a : α)
    (h : (retryApiCall op maxRetries baseDelay).1 = Except.ok a) :
    ∃ i, op i = Except.ok a :=
  retryFrom_ok_exists op maxRetries baseDelay a maxRetries 1 none h

/-! ## Capability descriptor (`openRouterService.ts`)

`getMaxOutputTokens` looks up a static table of per-model output limits, then
falls back on model-family substring heuristics, then on a clamped fraction of
the context length.  `getTokenLimit` picks the per-request `max_tokens`:
outline requests get `min(4000, maxOutputTokens * 0.5)`, module requests get
`max(8192, maxOutputTokens - min(2048, maxOutputTokens * 0.1))`.  JS
`Math.floor(n * 0.5)` and `Math.floor(n * 0.1)` agree with natural division
by 2 and by 10 on the integer ranges involved. -/

/-- JS `String.prototype.includes`. -/
def strIncludes (s sub : String) : Bool :=
  (s.splitOn sub).length ≥ 2

/-- The static per-model output-token table of `getMaxOutputTokens`. -/
def modelLimits : List (String × Nat) :=
  [("anthropic/claude-3.5-sonnet", 8192),
   ("anthropic/claude-3-sonnet", 4096),
   ("anthropic/claude-3-haiku", 4096),
   ("anthropic/claude-3-opus", 4096),
   ("anthropic/claude-opus-4.1", 32000),
   ("openai/gpt-4o", 16384),
   ("openai/gpt-4o-mini", 16384),
   ("openai/gpt-4-turbo", 4096),
   ("openai/gpt-4", 8192),
   ("openai/gpt-5", 128000),
   ("google/gemini-pro-1.5", 65535),
   ("google/gemini-2.5-flash-lite", 65535),
   ("google/gemini-exp-1121", 65535),
   ("meta-llama/llama-3.1-405b", 32768),
   ("meta-llama/llama-3.1-70b", 32768),
   ("meta-llama/llama-3.1-8b", 32768),
   ("mistralai/mistral-large", 32768),
   ("mistralai/codestral-2508", 32768),
   ("qwen/qwen-3-next-80b", 32768),
   ("deepseek/deepseek-chat", 16384)]

def getMaxOutputTokens (modelId : String) (contextLength : Nat) : Nat :=
  match modelLimits.lookup modelId with
  | some n => n
  | none =>
    if strIncludes modelId "claude" then
      if strIncludes modelId "3.5" then 8192 else 4096
    else if strIncludes modelId "gpt-4o" || strIncludes modelId "gpt-5" then 16384
    else if strIncludes modelId "gpt-4" then 8192
    else if strIncludes modelId "gemini" then 32768
    else if strIncludes modelId "llama" then 32768
    else if strIncludes modelId "mistral" then 32768
    else min 32768 (max 8192 (contextLength / 4))

/-- `getTokenLimit` of `openRouterService.ts` (the `modelId` parameter is
unused by the computation, as in the source). -/
def getTokenLimit (_modelId : String) (maxOutputTokens : Nat) (isOutline : Bool) : Nat :=
  if isOutline then
    min 4000 (maxOutputTokens / 2)
  else
    max 8192 (maxOutputTokens - min 2048 (maxOutputTokens / 10))

/-! ## Source extraction from grounding metadata
(`geminiService.ts`, `callGeminiForJsonWithSearch`)

Every grounding chunk with a truthy `web.uri` contributes one `Source`; the
title falls back to the uri when `web.title` is falsy.  There is no
deduplication in the source. -/

structure WebInfo where
  uri : Option String
  title : Option String
deriving DecidableEq, Repr, BEq

structure GroundingChunk where
  web : Option WebInfo
deriving DecidableEq, Repr, BEq

def chunkSource (c : GroundingChunk) : Option Source :=
  match c.web with
  | some w =>
    match w.uri with
    | some u =>
      if u ≠ "" then
        some { title := match w.title with
                        | some t => if t ≠ "" then t else u
                        | none => u,
               url := u }
      else none
    | none => none
  | none => none

def extractSources (chunks : List GroundingChunk) : List Source :=
  chunks.filterMap chunkSource

/-! ## The Gemini adapter stream (`geminiService.ts`, `generateCourseStream`)

Oracles: `outlineResult` is the settled value of the search-grounded outline
call (parsed outline plus the raw grounding chunks of the response);
`moduleResult i` the settled value of the module call for index `i`;
`imageResult p` the settled value of `generateImage p`.  Errors of the
outline or module calls escape the generator (are not caught); image errors
are caught in the per-lesson loop. -/

/-- The per-lesson body of the image loop: yields one `GeneratingImages`
update for each lesson with a truthy, non-blank `imagePrompt`, sets
`imageBase64` when the call succeeds and leaves the lesson unchanged when it
fails. Returns the updated lessons and the image-stage updates. -/
def processLessonImages (imageResult : String → Except String String) :
    List Lesson → List Lesson × List GenerationUpdate
  | [] => ([], [])
  | l :: ls =>
    let rest := processLessonImages imageResult ls
    match l.imagePrompt with
    | some p =>
      if jsTrim p ≠ "" then
        let u : GenerationUpdate :=
          { step := GenerationStep.GeneratingImages,
            message := "Creating image for: \"" ++ l.title ++ "\"" }
        match imageResult p with
        | Except.ok img => ({ l with imageBase64 := some img } :: rest.1, u :: rest.2)
        | Except.error _ => (l :: rest.1, u :: rest.2)
      else (l :: rest.1, rest.2)
    | none => (l :: rest.1, rest.2)

/-- The effect of the Gemini image loop on a single lesson. -/
def geminiApplyImage (imageResult : String → Except String String) (l : Lesson) : Lesson :=
  match l.imagePrompt with
  | some p =>
    if jsTrim p ≠ "" then
      match imageResult p with
      | Except.ok img => { l with imageBase64 := some img }
      | Except.error _ => l
    else l
  | none => l

theorem processLessonImages_fst (imageResult : String → Except String String)
    (ls : List Lesson) :
    (processLessonImages imageResult ls).1 = ls.map (geminiApplyImage imageResult) := by
  induction ls with
  | nil => rfl
  | cons l ls ih =>
    simp only [processLessonImages, geminiApplyImage, List.map_cons]
    cases l.imagePrompt with
    | none => simpa using ih
    | some p =>
      by_cases hp : jsTrim p ≠ ""
      · simp only [if_pos hp]
        cases imageResult p <;> simpa using ih
      · simpa [if_neg hp] using ih

theorem processLessonImages_snd_steps (imageResult : String → Except String String)
    (ls : List Lesson) :
    ∀ u ∈ (processLessonImages imageResult ls).2,
      u.step = GenerationStep.GeneratingImages ∧ u.payload = none := by
  induction ls with
  | nil => intro u hu; simp [processLessonImages] at hu
  | cons l ls ih =>
    simp only [processLessonImages]
    cases l.imagePrompt with
    | none => exact ih
    | some p =>
      by_cases hp : jsTrim p ≠ ""
      · simp only [if_pos hp]
        cases himg : imageResult p <;> intro u hu <;>
          rcases List.mem_cons.mp hu with h | h
        · exact h ▸ ⟨rfl, rfl⟩
        · exact ih u h
        · exact h ▸ ⟨rfl, rfl⟩
        · exact ih u h
      · simp only [if_neg hp]
        exact ih

/-- The module loop of the Gemini adapter.  For each title: a starting
`GeneratingModules` update; on module-call failure the error escapes and ends
the stream; on success, if `includeImages`, the per-lesson image loop runs
(its failures swallowed); finally the completed update carries the module —
with the title exactly as the model returned it (not forced to the outline
title). -/
def geminiModules (includeImages : Bool) (moduleResult : Nat → Except String CModule)
    (imageResult : String → Except String String) (idx : Nat) :
    List String → List GenerationUpdate × Option String
  | [] => ([], none)
  | t :: ts =>
    let start : GenerationUpdate :=
      { step := GenerationStep.GeneratingModules,
        message := "Generating module: \"" ++ t ++ "\"..." }
    match moduleResult idx with
    | Except.error e => ([start], some e)
    | Except.ok m =>
      let proc := if includeImages then processLessonImages imageResult m.lessons
                  else (m.lessons, [])
      let m' : CModule := { m with lessons := proc.1 }
      let done : GenerationUpdate :=
        { step := GenerationStep.GeneratingModules,
          message := "Completed module: " ++ m'.title,
          payload := some (Payload.mod m') }
      let rest := geminiModules includeImages moduleResult imageResult (idx + 1) ts
      (start :: (proc.2 ++ done :: rest.1), rest.2)

/-- `generateCourseStream` of `geminiService.ts`: outline stage (search
grounded, sources attached, no validation of `moduleTitles`), then the module
loop.  An outline-call error escapes after the starting update. -/
def geminiRun (_topic : String) (includeImages : Bool) (_difficulty : String)
    (outlineResult : Except String (CourseOutline × List GroundingChunk))
    (moduleResult : Nat → Except String CModule)
    (imageResult : String → Except String String) : RunResult :=
  let start : GenerationUpdate :=
    { step := GenerationStep.Outlining, message := "Designing course curriculum..." }
  match outlineResult with
  | Except.error e => { updates := [start], error := some e }
  | Except.ok (outline, chunks) =>
    let outline' := { outline with sources := some (extractSources chunks) }
    let done : GenerationUpdate :=
      { step := GenerationStep.Outlining, message := "Curriculum designed.",
        payload := some (Payload.outline outline') }
    let r := geminiModules includeImages moduleResult imageResult 0 outline'.moduleTitles
    { updates := start :: done :: r.1, error := r.2 }

/-! ## The legacy Gemini variant (`unnamed/part_001`)

`callApi` catches any upstream error and rethrows a fixed message;
`generateImage` catches its own errors and returns `""`; the orchestrator
validates `moduleTitles` non-empty, forces `module.title := moduleTitle`, and
unconditionally assigns `lesson.imageBase64` (possibly `""`) for every lesson
with a non-blank `imagePrompt`. -/

def callApiErrorMessage : String :=
  "Failed to generate content from the AI. The service may be busy or the request may be too complex. Please try again."

def callApi (r : Except String α) : Except String α :=
  match r with
  | Except.ok a => Except.ok a
  | Except.error _ => Except.error callApiErrorMessage

/-- `generateImage` of `part_001`: a failure is caught and yields `""`. -/
def legacyGenerateImage (imageResult : String → Except String String) (p : String) : String :=
  match imageResult p with
  | Except.ok s => s
  | Except.error _ => ""

def lessonWantsImage (l : Lesson) : Bool :=
  match l.imagePrompt with
  | some p => decide (jsTrim p ≠ "")
  | none => false

/-- The `Promise.all` image fan-out of `part_001` applied to one lesson. -/
def legacyApplyImage (imageResult : String → Except String String) (l : Lesson) : Lesson :=
  match l.imagePrompt with
  | some p =>
    if jsTrim p ≠ "" then { l with imageBase64 := some (legacyGenerateImage imageResult p) }
    else l
  | none => l

def legacyModules (moduleResult : Nat → Except String CModule)
    (imageResult : String → Except String String) (total : Nat) (idx : Nat) :
    List String → List GenerationUpdate × Option String
  | [] => ([], none)
  | t :: ts =>
    let start : GenerationUpdate :=
      { step := GenerationStep.GeneratingModules,
        message := "Generating Module " ++ toString (idx + 1) ++ "/" ++ toString total
          ++ ": " ++ t }
    match callApi (moduleResult idx) with
    | Except.error e => ([start], some e)
    | Except.ok m =>
      let m1 : CModule := { m with title := t }
      let imgUps : List GenerationUpdate :=
        if m1.lessons.any lessonWantsImage then
          [{ step := GenerationStep.GeneratingImages,
             message := "Creating visual aids for Module " ++ toString (idx + 1) ++ "..." }]
        else []
      let m2 : CModule := { m1 with lessons := m1.lessons.map (legacyApplyImage imageResult) }
      let done : GenerationUpdate :=
        { step := GenerationStep.GeneratingModules,
          message := "Completed Module " ++ toString (idx + 1) ++ "/" ++ toString total,
          payload := some (Payload.mod m2) }
      let rest := legacyModules moduleResult imageResult total (idx + 1) ts
      (start :: (imgUps ++ done :: rest.1), rest.2)

/-- `generateCourseStream` of `unnamed/part_001`: validates that the outline
has at least one module title and fails the whole run (before yielding the
outline-completed update) when it does not. -/
def legacyRun (_topic : String)
    (outlineResult : Except String CourseOutline)
    (moduleResult : Nat → Except String CModule)
    (imageResult : String → Except String String) : RunResult :=
  let start : GenerationUpdate :=
    { step := GenerationStep.Outlining,
      message := "Researching topic & designing curriculum..." }
  match callApi outlineResult with
  | Except.error e => { updates := [start], error := some e }
  | Except.ok outline =>
    if outline.moduleTitles.isEmpty then
      { updates := [start],
        error := some "Failed to generate a valid course outline with modules." }
    else
      let done : GenerationUpdate :=
        { step := GenerationStep.Outlining, message := "Curriculum designed successfully.",
          payload := some (Payload.outline outline) }
      let r := legacyModules moduleResult imageResult outline.moduleTitles.length 0
        outline.moduleTitles
      { updates := start :: done :: r.1, error := r.2 }

/-! ## The OpenRouter adapter stream
(`openRouterService.ts`, `generateCourseStream`)

Each phase wraps its model call in `retryApiCall` (3 attempts; base delay
1000 ms for the outline, 2000 ms for modules).  `result.sources = []` is
forced on the outline.  No image stage exists; the `generateImages` flag is
ignored; module payloads are passed through exactly as parsed. -/

def orSupportsImages : Bool := false

def orSupportsSearch : Bool := false

def orModules (moduleAttempt : Nat → Nat → Except String CModule) (total : Nat)
    (idx : Nat) : List String → List GenerationUpdate × Option String
  | [] => ([], none)
  | t :: ts =>
    let start : GenerationUpdate :=
      { step := GenerationStep.GeneratingModules,
        message := "Phase 2: Generating module " ++ toString (idx + 1) ++ "/"
          ++ toString total ++ ": " ++ t }
    match (retryApiCall (moduleAttempt idx) 3 2000).1 with
    | Except.error _ =>
      ([start], some ("Failed to generate content for module: " ++ t ++ " after 3 attempts."))
    | Except.ok m =>
      let done : GenerationUpdate :=
        { step := GenerationStep.GeneratingModules,
          message := "Module " ++ toString (idx + 1) ++ " complete.",
          payload := some (Payload.mod m) }
      let rest := orModules moduleAttempt total (idx + 1) ts
      (start :: done :: rest.1, rest.2)

def openRouterRun (_topic : String) (_generateImages : Bool) (_difficulty : String)
    (_courseFormat : String)
    (outlineAttempt : Nat → Except String CourseOutline)
    (moduleAttempt : Nat → Nat → Except String CModule) : RunResult :=
  let start : GenerationUpdate :=
    { step := GenerationStep.Outlining, message := "Phase 1: Generating course outline..." }
  match (retryApiCall outlineAttempt 3 1000).1 with
  | Except.error _ =>
    { updates := [start],
      error := some "Failed to generate the course outline after 3 attempts. The model response was invalid." }
  | Except.ok outline =>
    let outline' := { outline with sources := some [] }
    let done : GenerationUpdate :=
      { step := GenerationStep.Outlining, message := "Course outline complete.",
        payload := some (Payload.outline outline') }
    let r := orModules moduleAttempt outline'.moduleTitles.length 0 outline'.moduleTitles
    { updates := start :: done :: r.1, error := r.2 }

/-! ## Characterization lemmas for the three module loops -/

/-- The transformation the Gemini adapter applies to a parsed module before
yielding it: the image loop may update lessons; everything else (including
the title) is passed through from the model output. -/
def geminiProcessModule (includeImages : Bool) (imageResult : String → Except String String)
    (m : CModule) : CModule :=
  { m with lessons := (if includeImages then processLessonImages imageResult m.lessons
                       else (m.lessons, [])).1 }

theorem geminiProcessModule_title (includeImages : Bool)
    (imageResult : String → Except String String) (m : CModule) :
    (geminiProcessModule includeImages imageResult m).title = m.title := rfl

theorem geminiProcessModule_lessons (imageResult : String → Except String String)
    (m : CModule) :
    (geminiProcessModule true imageResult m).lessons =
      m.lessons.map (geminiApplyImage imageResult) := by
  simp [geminiProcessModule, processLessonImages_fst]

theorem geminiModules_steps (inc : Bool) (mr : Nat → Except String CModule)
    (ir : String → Except String String) :
    ∀ ts idx, ∀ u ∈ (geminiModules inc mr ir idx ts).1,
      u.step = GenerationStep.GeneratingModules ∨ u.step = GenerationStep.GeneratingImages := by
  intro ts
  induction ts with
  | nil => intro idx u hu; simp [geminiModules] at hu
  | cons t ts ih =>
    intro idx u hu
    simp only [geminiModules] at hu
    cases hmr : mr idx with
    | error e =>
      rw [hmr] at hu
      simp at hu
      subst hu
      exact Or.inl rfl
    | ok m =>
      rw [hmr] at hu
      simp only [List.mem_cons, List.mem_append] at hu
      rcases hu with hu | hu | hu | hu
      · subst hu; exact Or.inl rfl
      · rcases inc with _ | _
        · simp at hu
        · exact Or.inr (processLessonImages_snd_steps ir m.lessons u hu).1
      · subst hu; exact Or.inl rfl
      · exact ih (idx + 1) u hu

theorem geminiModules_head (inc : Bool) (mr : Nat → Except String CModule)
    (ir : String → Except String String) (ts : List String) (idx : Nat) :
    (geminiModules inc mr ir idx ts).1 = [] ∨
      ∃ msg rest, (geminiModules inc mr ir idx ts).1 =
        { step := GenerationStep.GeneratingModules, message := msg, payload := none } :: rest := by
  cases ts with
  | nil => exact Or.inl rfl
  | cons t ts =>
    simp only [geminiModules]
    cases mr idx with
    | error e => exact Or.inr ⟨_, _, rfl⟩
    | ok m => exact Or.inr ⟨_, _, rfl⟩

theorem geminiModules_ok (inc : Bool) (mr : Nat → Except String CModule)
    (ir : String → Except String String) (ms : Nat → CModule) :
    ∀ ts idx, (∀ j, j < ts.length → mr (idx + j) = Except.ok (ms (idx + j))) →
      (geminiModules inc mr ir idx ts).2 = none ∧
      completedModules (geminiModules inc mr ir idx ts).1 =
        (List.range ts.length).map (fun j => geminiProcessModule inc ir (ms (idx + j))) := by
  intro ts
  induction ts with
  | nil => intro idx _; exact ⟨rfl, rfl⟩
  | cons t ts ih =>
    intro idx hok
    have h0 : mr idx = Except.ok (ms idx) := by
      have := hok 0 (by simp)
      simpa using this
    have hrest := ih (idx + 1) (fun j hj => by
      have := hok (j + 1) (by simpa using Nat.succ_lt_succ hj)
      rwa [show idx + (j + 1) = idx + 1 + j from by omega] at this)
    simp only [geminiModules, h0]
    constructor
    · exact hrest.1
    · have himg : completedModules (if inc then processLessonImages ir
          ((ms idx)).lessons else ((ms idx).lessons, [])).2 = [] := by
        cases inc with
        | false => rfl
        | true =>
          rw [completedModules_eq_filterMap]
          apply List.filterMap_eq_nil_iff.mpr
          intro u hu
          have hstep := (processLessonImages_snd_steps ir (ms idx).lessons u hu).1
          unfold completedOf
          rw [hstep]
          rfl
      have hs : (List.range (ts.length + 1)).map
          (fun j => geminiProcessModule inc ir (ms (idx + j))) =
          geminiProcessModule inc ir (ms idx) ::
            (List.range ts.length).map (fun j => geminiProcessModule inc ir (ms (idx + 1 + j))) := by
        rw [List.range_succ_eq_map, List.map_cons, List.map_map]
        refine congrArg₂ List.cons (by rw [Nat.add_zero]) (List.map_congr_left ?_)
        intro j _
        simp only [Function.comp_apply]
        rw [show idx + (j + 1) = idx + 1 + j from by omega]
      rw [completedModules_cons, completedModules_append, himg, completedModules_cons,
        List.length_cons, hs, hrest.2]
      rfl

theorem legacyModules_ok (mr : Nat → Except String CModule)
    (ir : String → Except String String) (ms : Nat → CModule) (total : Nat) :
    ∀ ts idx, (∀ j, j < ts.length → mr (idx + j) = Except.ok (ms (idx + j))) →
      (legacyModules mr ir total idx ts).2 = none ∧
      (completedModules (legacyModules mr ir total idx ts).1).map CModule.title = ts := by
  intro ts
  induction ts with
  | nil => intro idx _; exact ⟨rfl, rfl⟩
  | cons t ts ih =>
    intro idx hok
    have h0 : mr idx = Except.ok (ms idx) := by
      have := hok 0 (by simp)
      simpa using this
    have hrest := ih (idx + 1) (fun j hj => by
      have := hok (j + 1) (by simpa using Nat.succ_lt_succ hj)
      rwa [show idx + (j + 1) = idx + 1 + j from by omega] at this)
    simp only [legacyModules, h0, callApi]
    refine ⟨hrest.1, ?_⟩
    have himg : completedModules (if ((ms idx).lessons.any lessonWantsImage) = true then
        [({ step := GenerationStep.GeneratingImages,
            message := "Creating visual aids for Module " ++ toString (idx + 1) ++ "...",
            payload := none } : GenerationUpdate)] else []) = [] := by
      split <;> rfl
    rw [completedModules_cons, completedModules_append, himg, completedModules_cons]
    simp only [completedOf_none_payload, completedOf_GM_mod, Option.toList_some,
      Option.toList_none, List.nil_append, List.singleton_append, List.map_cons]
    rw [hrest.2]

theorem orModules_steps (ma : Nat → Nat → Except String CModule) (total : Nat) :
    ∀ ts idx, ∀ u ∈ (orModules ma total idx ts).1,
      u.step = GenerationStep.GeneratingModules := by
  intro ts
  induction ts with
  | nil => intro idx u hu; simp [orModules] at hu
  | cons t ts ih =>
    intro idx u hu
    simp only [orModules] at hu
    cases hr : (retryApiCall (ma idx) 3 2000).1 with
    | error e =>
      rw [hr] at hu
      simp at hu
      subst hu
      rfl
    | ok m =>
      rw [hr] at hu
      rcases List.mem_cons.mp hu with hu | hu
      · subst hu; rfl
      · rcases List.mem_cons.mp hu with hu | hu
        · subst hu; rfl
        · exact ih (idx + 1) u hu

theorem orModules_head (ma : Nat → Nat → Except String CModule) (total : Nat)
    (ts : List String) (idx : Nat) :
    (orModules ma total idx ts).1 = [] ∨
      ∃ msg rest, (orModules ma total idx ts).1 =
        { step := GenerationStep.GeneratingModules, message := msg, payload := none } :: rest := by
  cases ts with
  | nil => exact Or.inl rfl
  | cons t ts =>
    simp only [orModules]
    cases (retryApiCall (ma idx) 3 2000).1 with
    | error e => exact Or.inr ⟨_, _, rfl⟩
    | ok m => exact Or.inr ⟨_, _, rfl⟩

theorem orModules_payload (ma : Nat → Nat → Except String CModule) (total : Nat) :
    ∀ ts idx, ∀ u ∈ (orModules ma total idx ts).1, ∀ m,
      u.payload = some (Payload.mod m) → ∃ i a, ma i a = Except.ok m := by
  intro ts
  induction ts with
  | nil => intro idx u hu; simp [orModules] at hu
  | cons t ts ih =>
    intro idx u hu m hm
    simp only [orModules] at hu
    cases hr : (retryApiCall (ma idx) 3 2000).1 with
    | error e =>
      rw [hr] at hu
      simp at hu
      subst hu
      simp at hm
    | ok m' =>
      rw [hr] at hu
      rcases List.mem_cons.mp hu with hu | hu
      · subst hu; simp at hm
      · rcases List.mem_cons.mp hu with hu | hu
        · subst hu
          simp at hm
          obtain ⟨i, hi⟩ := retryApiCall_ok_exists (ma idx) 3 2000 m' hr
          exact ⟨idx, i, by rw [hi, hm]⟩
        · exact ih (idx + 1) u hu m hm

/-- Generic length-of-filterMap identity used for the source-extraction claim. -/
theorem filterMap_length_countP {α β : Type} (f : α → Option β) (l : List α) :
    (l.filterMap f).length = l.countP (fun a => (f a).isSome) := by
  induction l with
  | nil => rfl
  | cons a l ih =>
    rw [List.filterMap_cons, List.countP_cons]
    cases h : f a <;> simp [h, ih]

theorem takeWhile_cons_pos' (p : GenerationUpdate → Bool) (a : GenerationUpdate)
    (l : List GenerationUpdate) (h : p a = true) :
    (a :: l).takeWhile p = a :: l.takeWhile p :=
  List.takeWhile_cons_of_pos h

theorem takeWhile_cons_neg' (p : GenerationUpdate → Bool) (a : GenerationUpdate)
    (l : List GenerationUpdate) (h : ¬ p a = true) :
    (a :: l).takeWhile p = [] :=
  List.takeWhile_cons_of_neg h

/-- A stream of the shape `start :: done :: tail` where only `done` is an
Outlining-completed update and `tail` starts (if nonempty) with a
`GeneratingModules` update carries exactly one Outlining-completed update,
and that update precedes every `GeneratingModules` update. -/
theorem run_counts (start done : GenerationUpdate) (tail : List GenerationUpdate)
    (hstart : isOutliningDone start = false)
    (hstartKeep : (!(start.step == GenerationStep.GeneratingModules)) = true)
    (hdone : isOutliningDone done = true)
    (hdoneKeep : (!(done.step == GenerationStep.GeneratingModules)) = true)
    (htail : ∀ u ∈ tail, ¬ (isOutliningDone u = true))
    (hhead : tail = [] ∨ ∃ u rest, tail = u :: rest ∧
      u.step = GenerationStep.GeneratingModules) :
    (start :: done :: tail).countP isOutliningDone = 1 ∧
    ((start :: done :: tail).takeWhile
        (fun u => !(u.step == GenerationStep.GeneratingModules))).countP isOutliningDone = 1 := by
  constructor
  · rw [List.countP_cons, List.countP_cons, List.countP_eq_zero.mpr htail, hstart, hdone]
    simp
  · rw [takeWhile_cons_pos' (fun u => !(u.step == GenerationStep.GeneratingModules))
        start (done :: tail) hstartKeep,
      takeWhile_cons_pos' (fun u => !(u.step == GenerationStep.GeneratingModules))
        done tail hdoneKeep]
    rcases hhead with h | ⟨u, rest, hrest, hstep⟩
    · subst h
      rw [List.takeWhile_nil, List.countP_cons, List.countP_cons, List.countP_nil,
        hstart, hdone]
      simp
    · subst hrest
      have hneg : ¬ ((fun u => !(u.step == GenerationStep.GeneratingModules)) u = true) := by
        simp only [hstep]
        decide
      rw [takeWhile_cons_neg' (fun u => !(u.step == GenerationStep.GeneratingModules))
          u rest hneg,
        List.countP_cons, List.countP_cons, List.countP_nil, hstart, hdone]
      simp

/-! ## Prompt construction

`geminiService.ts` builds the module prompt from the full ordered title list
(global context) and a `contextInstruction` quoting exactly the titles before
the current index (`moduleTitles.slice(0, index)`); the OpenRouter adapter's
module prompt (lines 414-449) embeds only topic, outline description,
learning objectives, difficulty, format and the module's own title. -/

/-- JS `Array.prototype.join(sep)`. -/
def joinSep (sep : String) : List String → String
  | [] => ""
  | [x] => x
  | x :: y :: xs => x ++ sep ++ joinSep sep (y :: xs)

/-- JSON.stringify of a string array as used for `learningObjectives` (the
strings used in this development need no escaping). -/
def jsonStringifyStrings (xs : List String) : String :=
  "[" ++ joinSep "," (xs.map (fun s => "\"" ++ s ++ "\"")) ++ "]"

/-- `outline.moduleTitles.slice(0, index)` of `geminiService.ts`. -/
def previousModuleTitles (moduleTitles : List String) (index : Nat) : List String :=
  moduleTitles.take index

def ctxPrefix : String :=
  "This module must build upon concepts from the previous modules: \""

def ctxSuffix : String := "\". Do NOT repeat information already covered."

def ctxFirst : String :=
  "This is the first module, so it should introduce the foundational concepts of the course."

/-- The `contextInstruction` of `geminiService.ts`. -/
def contextInstruction (moduleTitles : List String) (index : Nat) : String :=
  let previous := previousModuleTitles moduleTitles index
  if 0 < previous.length then ctxPrefix ++ joinSep "\", \"" previous ++ ctxSuffix
  else ctxFirst

def geminiPrompt1 : String :=
  "You are an expert instructional designer building a course about \""

def geminiPrompt2 : String := "\" for a **"

def geminiPrompt3 : String :=
  "** audience.\nThe entire course is structured into these modules, in this order: \""

def geminiPrompt4 : String :=
  "\".\nYour current task is to generate the content for the module titled: \""

def geminiPrompt5 : String :=
  "\".\n\n**Primary Knowledge Base:** You MUST use Google Search to find relevant, up-to-date information to create the module and lesson content. Synthesize, expand, and structure this information into high-quality educational content.\n\n**CRITICAL Directives:**\n1.  **Progressive Learning:** "

def geminiPrompt6 : String :=
  " Introduce new, more advanced topics specific to this module.\n2.  **Unique Content:** Ensure the lessons within this module are distinct, valuable, and do not regurgitate information from earlier in the course.\n3.  **Required Output:** For this module, provide a brief description and a series of detailed lessons. For each lesson, you must generate:\n    a. A lesson title.\n    b. Comprehensive lesson content (at least 250 words, formatted with markdown).\n    c. A detailed video script that corresponds to the lesson content.\n4.  **Module Quiz:** After the lessons, create a quiz with 3-5 multiple-choice questions to assess the key learning objectives of this module. Each question must have 4 options, a clearly identified correct answer, and a brief explanation for the answer.\n5.  **Value-Add Assets (Optional but Recommended):** At your expert discretion, generate the following if they add significant value to a **"

def geminiPrompt7 : String :=
  "** learner for this specific module topic:\n    a. **Hands-on Worksheet:** A practical worksheet with activities, problems, or thought exercises.\n    b. **Resource Sheet:** A list of key vocabulary, external links, or recommended further reading.\n    If you determine these are not valuable for this particular module, omit them from the output.\n"

def geminiPromptImg : String :=
  "    d. A descriptive prompt for an AI to generate a relevant visual aid. If no image is needed, return an empty string for the prompt."

/-- The module prompt of `geminiService.ts` (lines 200-227). -/
def geminiModulePrompt (topic difficulty : String) (moduleTitles : List String)
    (index : Nat) (moduleTitle : String) (includeImages : Bool) : String :=
  geminiPrompt1 ++ topic ++ geminiPrompt2 ++ difficulty ++ geminiPrompt3 ++
  joinSep "\", \"" moduleTitles ++ geminiPrompt4 ++ moduleTitle ++ geminiPrompt5 ++
  contextInstruction moduleTitles index ++ geminiPrompt6 ++ difficulty ++ geminiPrompt7 ++
  (if includeImages then geminiPromptImg else "")

def orPrompt1 : String :=
  "You are an expert instructional designer creating content for a single module of a larger course.\n\nCourse Topic: \""

def orPrompt2 : String := "\"\nCourse Description: \""

def orPrompt3 : String := "\"\nCourse Learning Objectives: "

def orPrompt4 : String :=
  "\n\nYou are now generating content for this specific module:\nModule Title: \""

def orPrompt5 : String :=
  "\"\n\nBased on the overall course context, please generate the complete content for this module.\nThe module content must be comprehensive and align with the specified difficulty: \""

def orPrompt6 : String := "\" and format: \""

def orPrompt7 : String :=
  "\".\n\nIMPORTANT: Your response must be ONLY a single, valid JSON object. Follow these strict formatting rules:\n1. Start your response with \x7b and end with \x7d\n2. Use double quotes for all strings\n3. Escape any quotes within strings with \\\"\n4. Do not include trailing commas\n5. Do not include any markdown formatting, explanations, or other text outside the JSON\n\nThe JSON object should include:\n1. 'title': The module title (should be the same as provided)\n2. 'description': A brief description of what this module covers\n3. 'lessons': An array of lesson objects. Each lesson must have:\n   - 'title': The lesson title\n   - 'content': The detailed lesson content in Markdown format (minimum 500 words)\n   - 'videoScript': (Optional but encouraged) A short, engaging video script for the lesson that could be used for video creation. Should be conversational and educational.\n   - 'imagePrompt': (Optional) A simple, descriptive prompt for an AI image generator to create a relevant visual for the lesson. Focus on clear, concrete subjects and actions.\n4. 'quiz': (Optional but encouraged) A quiz object with a title and an array of multiple-choice questions to test understanding of the module. Each question needs:\n   - 'questionText': The question text\n   - 'options': Array of possible answers\n   - 'correctAnswer': The correct answer (must match one of the options exactly)\n   - 'explanation': An explanation of why this is the correct answer\n5. 'worksheet': (Optional but encouraged) A worksheet object with a title and content (in Markdown) that includes practical exercises, assignments, or hands-on activities for the learner to apply what they've learned.\n6. 'resourceSheet': (Optional but encouraged) A resource sheet object with a title and content (in Markdown) listing further reading, useful links, tools, or additional materials related to the module.\n\nEnsure all text content, especially lesson content, worksheets, and resource sheets, is formatted using Markdown for clear presentation. Video scripts should be engaging and suitable for educational content creation."

/-- The module prompt of `openRouterService.ts` (lines 414-449). -/
def openRouterModulePrompt (topic : String) (courseOutline : CourseOutline)
    (difficulty courseFormat moduleTitle : String) : String :=
  orPrompt1 ++ topic ++ orPrompt2 ++ courseOutline.description ++ orPrompt3 ++
  jsonStringifyStrings courseOutline.learningObjectives ++ orPrompt4 ++ moduleTitle ++
  orPrompt5 ++ difficulty ++ orPrompt6 ++ courseFormat ++ orPrompt7

theorem mem_joinSep_data (sep : String) (l : List String) (t : String) (ht : t ∈ l) :
    ∃ a b, (joinSep sep l).data = a ++ t.data ++ b := by
  induction l with
  | nil => simp at ht
  | cons x xs ih =>
    cases xs with
    | nil =>
      rcases List.mem_singleton.mp ht with h
      subst h
      exact ⟨[], [], by simp [joinSep]⟩
    | cons y ys =>
      rcases List.mem_cons.mp ht with h | h
      · subst h
        exact ⟨[], (sep ++ joinSep sep (y :: ys)).data,
          by simp [joinSep, String.data_append, List.append_assoc]⟩
      · obtain ⟨a, b, hab⟩ := ih h
        exact ⟨x.data ++ sep.data ++ a, b,
          by simp [joinSep, String.data_append, hab, List.append_assoc]⟩

/-! ## Claims -/

/-- Claim C2: for `retryApiCall` with `maxRetries = 3`, an operation failing on
attempts 1 and 2 and succeeding on attempt 3 yields the attempt-3 result
after exactly 3 sequential invocations, with inter-attempt delays
`baseDelay * 2^(attempt-1)` that are strictly increasing; an operation failing
on every attempt is invoked exactly `maxRetries` times and the last attempt's
error is what propagates. -/
theorem claim2_retry {α β : Type} (op : Nat → Except String α) (e1 e2 : String) (a : α)
    (baseDelay : Nat) (hbase : 0 < baseDelay)
    (h1 : op 1 = Except.error e1) (h2 : op 2 = Except.error e2) (h3 : op 3 = Except.ok a)
    (op2 : Nat → Except String β) (errs : Nat → String) (n : Nat) (hn : 1 ≤ n)
    (hfail : ∀ i, op2 i = Except.error (errs i)) :
    retryApiCall op 3 baseDelay = (Except.ok a, 3, [baseDelay * 2 ^ 0, baseDelay * 2 ^ 1])
    ∧ baseDelay * 2 ^ 0 < baseDelay * 2 ^ 1
    ∧ retryApiCall op2 n baseDelay =
        (Except.error (some (errs n)), n,
          (List.range (n - 1)).map (fun k => baseDelay * 2 ^ k)) := by
  refine ⟨?_, ?_, retryApiCall_allFail op2 errs hfail n baseDelay hn⟩
  · simp [retryApiCall, retryFrom, h1, h2, h3]
  · simp only [pow_zero, pow_one, mul_one]
    omega

/-- Claim C2 witness: a concrete operation failing twice then succeeding, and a
concrete always-failing operation. -/
theorem claim2_retry_witness :
    retryApiCall (fun i => if i = 3 then Except.ok 7 else Except.error "e") 3 1000 =
      (Except.ok 7, 3, [1000 * 2 ^ 0, 1000 * 2 ^ 1])
    ∧ 1000 * 2 ^ 0 < 1000 * 2 ^ 1
    ∧ retryApiCall (fun _ => (Except.error "x" : Except String Nat)) 2 1000 =
        (Except.error (some "x"), 2, (List.range (2 - 1)).map (fun k => 1000 * 2 ^ k)) :=
  claim2_retry (fun i => if i = 3 then Except.ok 7 else Except.error "e") "e" "e" 7 1000
    (by decide) rfl rfl rfl (fun _ => Except.error "x") (fun _ => "x") 2 (by decide)
    (fun _ => rfl)

/-- Claim C1 counterexample: in `geminiService.ts` the completed module payload
keeps the title the model returned ("X"), not the originating outline module
title ("A"): the adapter does not force payload titles to `moduleTitles[i]`. -/
theorem claim1_counterexample :
    (completedModules (geminiRun "t" false "Beginner"
        (Except.ok (mkOutline "ct" "d" [] ["A"], []))
        (fun _ => Except.ok (mkModule "X" "md" []))
        (fun _ => Except.error "img")).updates).map CModule.title = ["X"]
    ∧ ("X" : String) ≠ "A" :=
  ⟨rfl, by decide⟩

/-- Claim C1 (amended): every variant yields exactly k GeneratingModules-completed
updates, in outline order; the legacy `part_001` variant forces each payload's
title to `moduleTitles[i]`, while `geminiService.ts` passes the model-returned
title through unchanged. -/
theorem claim1_amended (topic difficulty : String) (inc : Bool)
    (outline : CourseOutline) (chunks : List GroundingChunk)
    (mr : Nat → Except String CModule) (ir : String → Except String String)
    (ms : Nat → CModule)
    (hne : outline.moduleTitles ≠ [])
    (hok : ∀ j, j < outline.moduleTitles.length → mr j = Except.ok (ms j)) :
    (legacyRun topic (Except.ok outline) mr ir).error = none
    ∧ (completedModules (legacyRun topic (Except.ok outline) mr ir).updates).map
        CModule.title = outline.moduleTitles
    ∧ (geminiRun topic inc difficulty (Except.ok (outline, chunks)) mr ir).error = none
    ∧ completedModules (geminiRun topic inc difficulty
          (Except.ok (outline, chunks)) mr ir).updates =
        (List.range outline.moduleTitles.length).map
          (fun j => geminiProcessModule inc ir (ms j))
    ∧ (completedModules (geminiRun topic inc difficulty
          (Except.ok (outline, chunks)) mr ir).updates).map CModule.title =
        (List.range outline.moduleTitles.length).map (fun j => (ms j).title)
    ∧ (completedModules (geminiRun topic inc difficulty
          (Except.ok (outline, chunks)) mr ir).updates).length =
        outline.moduleTitles.length := by
  have hok0 : ∀ j, j < outline.moduleTitles.length →
      mr (0 + j) = Except.ok (ms (0 + j)) := by
    intro j hj
    simpa using hok j hj
  have hempty : outline.moduleTitles.isEmpty = false := by
    cases h : outline.moduleTitles with
    | nil => exact absurd h hne
    | cons a l => rfl
  have hleg := legacyModules_ok mr ir ms outline.moduleTitles.length
    outline.moduleTitles 0 hok0
  have hlegRun : legacyRun topic (Except.ok outline) mr ir =
      { updates :=
          { step := GenerationStep.Outlining,
            message := "Researching topic & designing curriculum...", payload := none } ::
          { step := GenerationStep.Outlining,
            message := "Curriculum designed successfully.",
            payload := some (Payload.outline outline) } ::
          (legacyModules mr ir outline.moduleTitles.length 0 outline.moduleTitles).1,
        error :=
          (legacyModules mr ir outline.moduleTitles.length 0 outline.moduleTitles).2 } := by
    simp [legacyRun, callApi, hempty]
  have hgem := geminiModules_ok inc mr ir ms outline.moduleTitles 0 hok0
  have hgemRun : geminiRun topic inc difficulty (Except.ok (outline, chunks)) mr ir =
      { updates :=
          { step := GenerationStep.Outlining,
            message := "Designing course curriculum...", payload := none } ::
          { step := GenerationStep.Outlining, message := "Curriculum designed.",
            payload := some (Payload.outline
              { outline with sources := some (extractSources chunks) }) } ::
          (geminiModules inc mr ir 0 outline.moduleTitles).1,
        error := (geminiModules inc mr ir 0 outline.moduleTitles).2 } := rfl
  have hgemComp : completedModules (geminiRun topic inc difficulty
      (Except.ok (outline, chunks)) mr ir).updates =
      (List.range outline.moduleTitles.length).map
        (fun j => geminiProcessModule inc ir (ms (0 + j))) := by
    rw [hgemRun]
    show completedModules (_ :: _ :: _) = _
    rw [completedModules_cons, completedModules_cons, completedOf_Outlining,
      completedOf_Outlining, hgem.2]
    rfl
  have hzero : (List.range outline.moduleTitles.length).map
      (fun j => geminiProcessModule inc ir (ms (0 + j))) =
      (List.range outline.moduleTitles.length).map
        (fun j => geminiProcessModule inc ir (ms j)) := by
    refine List.map_congr_left ?_
    intro j _
    rw [Nat.zero_add]
  refine ⟨?_, ?_, ?_, ?_, ?_, ?_⟩
  · rw [hlegRun]
    exact hleg.1
  · rw [hlegRun]
    show (completedModules (_ :: _ :: _)).map CModule.title = _
    rw [completedModules_cons, completedModules_cons, completedOf_Outlining,
      completedOf_Outlining]
    simpa using hleg.2
  · rw [hgemRun]
    exact hgem.1
  · rw [hgemComp, hzero]
  · rw [hgemComp, hzero, List.map_map]
    exact List.map_congr_left (fun j _ => rfl)
  · rw [hgemComp, List.length_map, List.length_range]

/-- Claim C1 witness: a two-module outline; the legacy variant yields payload
titles `["A", "B"]` as forced, the Gemini variant yields the model titles. -/
theorem claim1_witness :
    (completedModules (legacyRun "t" (Except.ok (mkOutline "ct" "d" [] ["A", "B"]))
      (fun _ => Except.ok (mkModule "X" "md" []))
      (fun _ => Except.error "img")).updates).map CModule.title = ["A", "B"]
    ∧ (completedModules (geminiRun "t" false "B"
        (Except.ok (mkOutline "ct" "d" [] ["A", "B"], []))
      (fun _ => Except.ok (mkModule "X" "md" []))
      (fun _ => Except.error "img")).updates).map CModule.title = ["X", "X"] := by
  have h := claim1_amended "t" "B" false (mkOutline "ct" "d" [] ["A", "B"]) []
    (fun _ => Except.ok (mkModule "X" "md" []))
    (fun _ => Except.error "img")
    (fun _ => mkModule "X" "md" [])
    (by decide) (fun _ _ => rfl)
  exact ⟨h.2.1, h.2.2.2.2.1⟩

/-- Claim C4 counterexample: `geminiService.ts` performs no non-emptiness
validation of `moduleTitles`: with an empty-module outline the run yields the
Outlining-completed update and ends without any error. -/
theorem claim4_counterexample :
    geminiRun "t" false "B" (Except.ok (mkOutline "ct" "d" [] [], []))
      (fun _ => Except.error "m") (fun _ => Except.error "i") =
    { updates :=
        [{ step := GenerationStep.Outlining,
           message := "Designing course curriculum...", payload := none },
         { step := GenerationStep.Outlining, message := "Curriculum designed.",
           payload := some (Payload.outline
             { mkOutline "ct" "d" [] [] with sources := some [] }) }],
      error := none } := rfl

/-- Claim C4 (amended): only the legacy `part_001` variant validates
`moduleTitles` non-emptiness and fails the run (before yielding any completed
update); `geminiService.ts` yields the outline-completed update for an empty
outline and ends without error and without module updates.  An outline-call
failure is fatal in both `geminiService.ts` (the exception propagates) and the
OpenRouter adapter (retry exhaustion fails the run after the starting update,
with no module updates). -/
theorem claim4_amended (topic difficulty courseFormat : String) (inc g : Bool)
    (outline : CourseOutline) (chunks : List GroundingChunk)
    (mr : Nat → Except String CModule) (ir : String → Except String String)
    (e : String) (oa : Nat → Except String CourseOutline)
    (ma : Nat → Nat → Except String CModule) (err : Option String)
    (hempty : outline.moduleTitles = [])
    (hoafail : (retryApiCall oa 3 1000).1 = Except.error err) :
    legacyRun topic (Except.ok outline) mr ir =
      { updates :=
          [{ step := GenerationStep.Outlining,
             message := "Researching topic & designing curriculum...", payload := none }],
        error := some "Failed to generate a valid course outline with modules." }
    ∧ (geminiRun topic inc difficulty (Except.ok (outline, chunks)) mr ir).error = none
    ∧ completedModules (geminiRun topic inc difficulty
        (Except.ok (outline, chunks)) mr ir).updates = []
    ∧ (geminiRun topic inc difficulty (Except.ok (outline, chunks)) mr ir).updates.length = 2
    ∧ geminiRun topic inc difficulty (Except.error e) mr ir =
      { updates :=
          [{ step := GenerationStep.Outlining,
             message := "Designing course curriculum...", payload := none }],
        error := some e }
    ∧ openRouterRun topic g difficulty courseFormat oa ma =
      { updates :=
          [{ step := GenerationStep.Outlining,
             message := "Phase 1: Generating course outline...", payload := none }],
        error := some "Failed to generate the course outline after 3 attempts. The model response was invalid." } := by
  have hisEmpty : outline.moduleTitles.isEmpty = true := by
    rw [hempty]
    rfl
  have hmods : geminiModules inc mr ir 0 outline.moduleTitles = ([], none) := by
    rw [hempty]
    rfl
  have hgemRun : geminiRun topic inc difficulty (Except.ok (outline, chunks)) mr ir =
      { updates :=
          { step := GenerationStep.Outlining,
            message := "Designing course curriculum...", payload := none } ::
          { step := GenerationStep.Outlining, message := "Curriculum designed.",
            payload := some (Payload.outline
              { outline with sources := some (extractSources chunks) }) } ::
          (geminiModules inc mr ir 0 outline.moduleTitles).1,
        error := (geminiModules inc mr ir 0 outline.moduleTitles).2 } := rfl
  refine ⟨?_, ?_, ?_, ?_, rfl, ?_⟩
  · simp [legacyRun, callApi, hisEmpty]
  · rw [hgemRun, hmods]
  · rw [hgemRun, hmods]
    rfl
  · rw [hgemRun, hmods]
    rfl
  · simp [openRouterRun, hoafail]

/-- Claim C4 witness: concrete empty outline and a concrete always-failing
OpenRouter outline oracle. -/
theorem claim4_witness :
    legacyRun "t" (Except.ok (mkOutline "ct" "d" [] []))
      (fun _ => Except.error "m") (fun _ => Except.error "i") =
      { updates :=
          [{ step := GenerationStep.Outlining,
             message := "Researching topic & designing curriculum...", payload := none }],
        error := some "Failed to generate a valid course outline with modules." }
    ∧ openRouterRun "t" false "B" "Standard Course"
        (fun _ => Except.error "bad") (fun _ _ => Except.error "m") =
      { updates :=
          [{ step := GenerationStep.Outlining,
             message := "Phase 1: Generating course outline...", payload := none }],
        error := some "Failed to generate the course outline after 3 attempts. The model response was invalid." } := by
  have h := claim4_amended "t" "B" "Standard Course" false false
    (mkOutline "ct" "d" [] [])
    [] (fun _ => Except.error "m") (fun _ => Except.error "i") "e"
    (fun _ => Except.error "bad") (fun _ _ => Except.error "m") (some "bad")
    rfl rfl
  exact ⟨h.1, h.2.2.2.2.2⟩

/-- Claim C6 counterexample: in the legacy `part_001` variant a failed image
call does not leave the lesson without `imageBase64`: `generateImage` catches
the failure and returns `""`, so the lesson's `imageBase64` is set to
`some ""` rather than being absent. -/
theorem claim6_counterexample :
    (completedModules (legacyRun "t"
        (Except.ok (mkOutline "ct" "d" [] ["A"]))
        (fun _ => Except.ok (mkModule "A" "md" [mkLesson "l1" "c" (some "p1")]))
        (fun _ => Except.error "imgfail")).updates).map
      (fun m => m.lessons.map Lesson.imageBase64) = [[some ""]]
    ∧ (some "" : Option String) ≠ none :=
  ⟨rfl, by decide⟩

/-- Claim C6 (amended): in `geminiService.ts` a single lesson's image failure
is caught in the orchestrator loop: the run still completes every module with
no error, lessons whose image call succeeded carry `imageBase64`, and a lesson
whose image call failed is passed through unchanged (no `imageBase64`).  In
the legacy `part_001` variant the failure is caught inside `generateImage`
instead, which returns `""`, so the failed lesson's `imageBase64` is set to
`some ""` rather than left absent. -/
theorem claim6_amended (topic difficulty : String) (outline : CourseOutline)
    (chunks : List GroundingChunk) (mr : Nat → Except String CModule)
    (ir : String → Except String String) (ms : Nat → CModule)
    (hok : ∀ j, j < outline.moduleTitles.length → mr j = Except.ok (ms j)) :
    (geminiRun topic true difficulty (Except.ok (outline, chunks)) mr ir).error = none
    ∧ completedModules (geminiRun topic true difficulty
        (Except.ok (outline, chunks)) mr ir).updates =
      (List.range outline.moduleTitles.length).map
        (fun j => geminiProcessModule true ir (ms j))
    ∧ (∀ m : CModule, (geminiProcessModule true ir m).lessons =
        m.lessons.map (geminiApplyImage ir))
    ∧ (∀ (l : Lesson) (p img : String), l.imagePrompt = some p → jsTrim p ≠ "" →
        ir p = Except.ok img → geminiApplyImage ir l = { l with imageBase64 := some img })
    ∧ (∀ (l : Lesson) (p e : String), l.imagePrompt = some p →
        ir p = Except.error e → geminiApplyImage ir l = l)
    ∧ (∀ (ir2 : String → Except String String) (l : Lesson) (p e : String),
        l.imagePrompt = some p → jsTrim p ≠ "" → ir2 p = Except.error e →
        legacyApplyImage ir2 l = { l with imageBase64 := some "" }) := by
  have hok0 : ∀ j, j < outline.moduleTitles.length →
      mr (0 + j) = Except.ok (ms (0 + j)) := by
    intro j hj
    simpa using hok j hj
  have hgem := geminiModules_ok true mr ir ms outline.moduleTitles 0 hok0
  have hgemRun : geminiRun topic true difficulty (Except.ok (outline, chunks)) mr ir =
      { updates :=
          { step := GenerationStep.Outlining,
            message := "Designing course curriculum...", payload := none } ::
          { step := GenerationStep.Outlining, message := "Curriculum designed.",
            payload := some (Payload.outline
              { outline with sources := some (extractSources chunks) }) } ::
          (geminiModules true mr ir 0 outline.moduleTitles).1,
        error := (geminiModules true mr ir 0 outline.moduleTitles).2 } := rfl
  refine ⟨?_, ?_, geminiProcessModule_lessons ir, ?_, ?_, ?_⟩
  · rw [hgemRun]
    exact hgem.1
  · rw [hgemRun]
    show completedModules (_ :: _ :: _) = _
    rw [completedModules_cons, completedModules_cons, completedOf_Outlining,
      completedOf_Outlining, hgem.2]
    show (List.range _).map _ = _
    refine List.map_congr_left ?_
    intro j _
    rw [Nat.zero_add]
  · intro l p img hip htrim himg
    simp [geminiApplyImage, hip, htrim, himg]
  · intro l p e hip herr
    by_cases htrim : jsTrim p ≠ ""
    · simp [geminiApplyImage, hip, htrim, herr]
    · simp [geminiApplyImage, hip, htrim]
  · intro ir2 l p e hip htrim herr
    simp [legacyApplyImage, legacyGenerateImage, hip, htrim, herr]

/-- Claim C6 witness: the specification scenario — a module with three lessons
carrying image prompts whose middle image call always fails: the module still
completes, lessons 1 and 3 carry `imageBase64`, lesson 2 is unchanged. -/
theorem claim6_witness :
    (geminiRun "t" true "B" (Except.ok (mkOutline "ct" "d" [] ["A"], []))
      (fun _ => Except.ok (mkModule "A" "md"
        [mkLesson "l1" "c" (some "p1"), mkLesson "l2" "c" (some "p2"),
         mkLesson "l3" "c" (some "p3")]))
      (fun p => if p = "p2" then Except.error "f"
                else Except.ok ("img" ++ p))).error = none
    ∧ completedModules (geminiRun "t" true "B" (Except.ok (mkOutline "ct" "d" [] ["A"], []))
      (fun _ => Except.ok (mkModule "A" "md"
        [mkLesson "l1" "c" (some "p1"), mkLesson "l2" "c" (some "p2"),
         mkLesson "l3" "c" (some "p3")]))
      (fun p => if p = "p2" then Except.error "f"
                else Except.ok ("img" ++ p))).updates =
      [mkModule "A" "md"
        [mkLessonImg "l1" "c" (some "p1") (some "imgp1"),
         mkLesson "l2" "c" (some "p2"),
         mkLessonImg "l3" "c" (some "p3") (some "imgp3")]] := by
  have h := claim6_amended "t" "B" (mkOutline "ct" "d" [] ["A"]) []
    (fun _ => Except.ok (mkModule "A" "md"
      [mkLesson "l1" "c" (some "p1"), mkLesson "l2" "c" (some "p2"),
       mkLesson "l3" "c" (some "p3")]))
    (fun p => if p = "p2" then Except.error "f" else Except.ok ("img" ++ p))
    (fun _ => mkModule "A" "md"
      [mkLesson "l1" "c" (some "p1"), mkLesson "l2" "c" (some "p2"),
       mkLesson "l3" "c" (some "p3")])
    (fun _ _ => rfl)
  exact ⟨h.1, h.2.1⟩

/-- Claim C8 counterexample: two grounding chunks citing the same url both
contribute a `Source`; the outline's merged `sources` keeps both entries, so
the collection does not hold at most one entry per distinct url. -/
theorem claim8_counterexample :
    extractSources [{ web := some { uri := some "https://u", title := some "t" } },
                    { web := some { uri := some "https://u", title := some "t" } }] =
      [{ title := "t", url := "https://u" }, { title := "t", url := "https://u" }]
    ∧ ¬ ((extractSources [{ web := some { uri := some "https://u", title := some "t" } },
                          { web := some { uri := some "https://u", title := some "t" } }]).countP
          (fun s => s.url == "https://u") ≤ 1)
    ∧ ((geminiRun "t" false "B"
        (Except.ok (mkOutline "ct" "d" [] [],
          [{ web := some { uri := some "https://u", title := some "t" } },
           { web := some { uri := some "https://u", title := some "t" } }]))
        (fun _ => Except.error "m") (fun _ => Except.error "i")).updates.drop 1).head? =
      some { step := GenerationStep.Outlining, message := "Curriculum designed.",
             payload := some (Payload.outline
               { mkOutline "ct" "d" [] [] with
                 sources := some [{ title := "t", url := "https://u" },
                                  { title := "t", url := "https://u" }] }) } :=
  ⟨rfl, by decide, rfl⟩

/-- Claim C8 (amended): the sources merged into the outline are exactly one
`Source` per grounding chunk with a truthy `web.uri`, in chunk order, with
duplicate urls preserved — there is no deduplication by url. -/
theorem claim8_amended (topic difficulty : String) (inc : Bool)
    (outline : CourseOutline) (chunks : List GroundingChunk)
    (mr : Nat → Except String CModule) (ir : String → Except String String) :
    ((geminiRun topic inc difficulty (Except.ok (outline, chunks)) mr ir).updates.drop 1).head? =
      some { step := GenerationStep.Outlining, message := "Curriculum designed.",
             payload := some (Payload.outline
               { outline with sources := some (extractSources chunks) }) }
    ∧ extractSources chunks = chunks.filterMap chunkSource
    ∧ (extractSources chunks).length = chunks.countP (fun c => (chunkSource c).isSome) :=
  ⟨rfl, rfl, filterMap_length_countP chunkSource chunks⟩

/-- Claim C9: with a successful outline stage, both the Gemini and the
OpenRouter streams contain exactly one Outlining-completed update (step
`OUTLINING` with a payload), and it occurs before every `GeneratingModules`
update. -/
theorem claim9_outline_once (topic difficulty courseFormat : String) (inc g : Bool)
    (outline : CourseOutline) (chunks : List GroundingChunk)
    (mr : Nat → Except String CModule) (ir : String → Except String String)
    (oa : Nat → Except String CourseOutline) (ma : Nat → Nat → Except String CModule)
    (o : CourseOutline) (hoa : (retryApiCall oa 3 1000).1 = Except.ok o) :
    ((geminiRun topic inc difficulty (Except.ok (outline, chunks)) mr ir).updates.countP
        isOutliningDone = 1
    ∧ ((geminiRun topic inc difficulty (Except.ok (outline, chunks)) mr ir).updates.takeWhile
        (fun u => !(u.step == GenerationStep.GeneratingModules))).countP isOutliningDone = 1)
    ∧ ((openRouterRun topic g difficulty courseFormat oa ma).updates.countP
        isOutliningDone = 1
    ∧ ((openRouterRun topic g difficulty courseFormat oa ma).updates.takeWhile
        (fun u => !(u.step == GenerationStep.GeneratingModules))).countP
        isOutliningDone = 1) := by
  constructor
  · have hupd : (geminiRun topic inc difficulty (Except.ok (outline, chunks)) mr ir).updates =
        { step := GenerationStep.Outlining,
          message := "Designing course curriculum...", payload := none } ::
        { step := GenerationStep.Outlining, message := "Curriculum designed.",
          payload := some (Payload.outline
            { outline with sources := some (extractSources chunks) }) } ::
        (geminiModules inc mr ir 0 outline.moduleTitles).1 := rfl
    rw [hupd]
    refine run_counts _ _ _ rfl rfl rfl rfl ?_ ?_
    · intro u hu
      rcases geminiModules_steps inc mr ir outline.moduleTitles 0 u hu with h | h <;>
        simp [isOutliningDone, h,
          show (GenerationStep.GeneratingModules == GenerationStep.Outlining) = false from rfl,
          show (GenerationStep.GeneratingImages == GenerationStep.Outlining) = false from rfl]
    · rcases geminiModules_head inc mr ir outline.moduleTitles 0 with h | ⟨msg, rest, h⟩
      · exact Or.inl h
      · exact Or.inr ⟨_, rest, h, rfl⟩
  · have hupd : (openRouterRun topic g difficulty courseFormat oa ma).updates =
        { step := GenerationStep.Outlining,
          message := "Phase 1: Generating course outline...", payload := none } ::
        { step := GenerationStep.Outlining, message := "Course outline complete.",
          payload := some (Payload.outline { o with sources := some [] }) } ::
        (orModules ma (o.moduleTitles.length) 0 o.moduleTitles).1 := by
      simp [openRouterRun, hoa]
    rw [hupd]
    refine run_counts _ _ _ rfl rfl rfl rfl ?_ ?_
    · intro u hu
      have h := orModules_steps ma o.moduleTitles.length o.moduleTitles 0 u hu
      simp [isOutliningDone, h,
        show (GenerationStep.GeneratingModules == GenerationStep.Outlining) = false from rfl]
    · rcases orModules_head ma o.moduleTitles.length o.moduleTitles 0 with h | ⟨msg, rest, h⟩
      · exact Or.inl h
      · exact Or.inr ⟨_, rest, h, rfl⟩

/-- Claim C9 witness: concrete single-module runs through both adapters. -/
theorem claim9_witness :
    ((geminiRun "t" false "B" (Except.ok (mkOutline "ct" "d" [] ["A"], []))
      (fun _ => Except.ok (mkModule "A" "md" []))
      (fun _ => Except.error "i")).updates.countP isOutliningDone = 1)
    ∧ ((openRouterRun "t" false "B" "Standard Course"
        (fun _ => Except.ok (mkOutline "ct" "d" [] ["A"]))
        (fun _ _ => Except.ok (mkModule "A" "md" []))).updates.countP
        isOutliningDone = 1) := by
  have h := claim9_outline_once "t" "B" "Standard Course" false false
    (mkOutline "ct" "d" [] ["A"]) []
    (fun _ => Except.ok (mkModule "A" "md" []))
    (fun _ => Except.error "i")
    (fun _ => Except.ok (mkOutline "ct" "d" [] ["A"]))
    (fun _ _ => Except.ok (mkModule "A" "md" []))
    (mkOutline "ct" "d" [] ["A"])
    rfl
  exact ⟨h.1.1, h.2.1⟩

/-- Claim C10: the OpenRouter stream never yields a `GeneratingImages` update,
never sets `imageBase64` on any lesson (module payloads are exactly the parsed
model output), produces output independent of the `generateImages` flag, and
`supportsImages()` is `false`. -/
theorem claim10_or_no_images (topic difficulty courseFormat : String) (g g' : Bool)
    (oa : Nat → Except String CourseOutline) (ma : Nat → Nat → Except String CModule)
    (himg : ∀ i a m, ma i a = Except.ok m → ∀ l ∈ m.lessons, l.imageBase64 = none) :
    openRouterRun topic g difficulty courseFormat oa ma =
      openRouterRun topic g' difficulty courseFormat oa ma
    ∧ (∀ u ∈ (openRouterRun topic g difficulty courseFormat oa ma).updates,
        u.step ≠ GenerationStep.GeneratingImages)
    ∧ (∀ u ∈ (openRouterRun topic g difficulty courseFormat oa ma).updates,
        ∀ m, u.payload = some (Payload.mod m) → ∀ l ∈ m.lessons, l.imageBase64 = none)
    ∧ orSupportsImages = false := by
  refine ⟨rfl, ?_, ?_, rfl⟩
  · intro u hu
    cases hr : (retryApiCall oa 3 1000).1 with
    | error e =>
      simp only [openRouterRun, hr] at hu
      simp at hu
      subst hu
      exact fun hc => GenerationStep.noConfusion hc
    | ok outline =>
      simp only [openRouterRun, hr] at hu
      rcases List.mem_cons.mp hu with h | h
      · subst h; exact fun hc => GenerationStep.noConfusion hc
      · rcases List.mem_cons.mp h with h | h
        · subst h; exact fun hc => GenerationStep.noConfusion hc
        · have := orModules_steps ma outline.moduleTitles.length outline.moduleTitles 0 u h
          rw [this]
          exact fun hc => GenerationStep.noConfusion hc
  · intro u hu m hm
    cases hr : (retryApiCall oa 3 1000).1 with
    | error e =>
      simp only [openRouterRun, hr] at hu
      simp at hu
      subst hu
      simp at hm
    | ok outline =>
      simp only [openRouterRun, hr] at hu
      rcases List.mem_cons.mp hu with h | h
      · subst h; simp at hm
      · rcases List.mem_cons.mp h with h | h
        · subst h; simp at hm
        · obtain ⟨i, a, hia⟩ := orModules_payload ma outline.moduleTitles.length
            outline.moduleTitles 0 u h m hm
          exact himg i a m hia

/-- Claim C10 witness: a concrete run; changing the `generateImages` flag
leaves the stream unchanged, and `supportsImages` is `false`. -/
theorem claim10_witness :
    openRouterRun "t" true "B" "Standard Course"
      (fun _ => Except.ok (mkOutline "ct" "d" [] ["A"]))
      (fun _ _ => Except.ok (mkModule "A" "md" [mkLesson "l1" "c" none])) =
    openRouterRun "t" false "B" "Standard Course"
      (fun _ => Except.ok (mkOutline "ct" "d" [] ["A"]))
      (fun _ _ => Except.ok (mkModule "A" "md" [mkLesson "l1" "c" none]))
    ∧ orSupportsImages = false := by
  have h := claim10_or_no_images "t" "B" "Standard Course" true false
    (fun _ => Except.ok (mkOutline "ct" "d" [] ["A"]))
    (fun _ _ => Except.ok (mkModule "A" "md" [mkLesson "l1" "c" none]))
    (fun i a m hm => by
      cases hm
      intro l hl
      simp only [mkModule, mkLesson, List.mem_singleton] at hl
      subst hl
      rfl)
  exact ⟨h.1, h.2.2.2⟩

/-- Claim C7 counterexample: for `anthropic/claude-3-haiku` the capability
table gives a hard maximum of 4096 output tokens, yet the module-stage token
limit is `max(8192, ...) = 8192`, which is not strictly below the hard
maximum — the 8192 floor overrides the safety buffer. -/
theorem claim7_counterexample :
    getMaxOutputTokens "anthropic/claude-3-haiku" 200000 = 4096
    ∧ getTokenLimit "anthropic/claude-3-haiku" 4096 false = 8192
    ∧ ¬ (getTokenLimit "anthropic/claude-3-haiku" 4096 false < 4096) :=
  ⟨rfl, rfl, by decide⟩

/-- Claim C7 (amended): the outline-stage limit is always
`min(4000, ⌊maxOutputTokens/2⌋)` (so at most 4000 and at most half the hard
maximum); the module-stage limit is strictly below the hard maximum exactly
when `maxOutputTokens > 8192` — for smaller budgets the `max(8192, ...)` floor
makes the request limit equal or exceed the hard maximum. -/
theorem claim7_amended (modelId : String) (maxOutputTokens : Nat) :
    (getTokenLimit modelId maxOutputTokens false < maxOutputTokens ↔ 8192 < maxOutputTokens)
    ∧ getTokenLimit modelId maxOutputTokens true = min 4000 (maxOutputTokens / 2)
    ∧ getTokenLimit modelId maxOutputTokens true ≤ 4000
    ∧ 2 * getTokenLimit modelId maxOutputTokens true ≤ maxOutputTokens := by
  refine ⟨?_, ?_, ?_, ?_⟩ <;> simp only [getTokenLimit, Bool.false_eq_true, if_false,
    if_true, ite_true, ite_false, reduceIte] <;> omega

set_option maxRecDepth 20000 in
/-- Claim C5 counterexample: the OpenRouter adapter's prompt for module index 1
of moduleTitles = ["α", "β", "γ"] (module "β") embeds neither the prior title
"α" nor the later title "γ" — neither character occurs anywhere in the prompt —
so it does not embed the titles before index 1 as prior context, nor the full
ordered title list. -/
theorem claim5_counterexample :
    (mkOutline "ct" "d" [] ["α", "β", "γ"]).moduleTitles.take 1 = ["α"]
    ∧ ('α' ∉ (openRouterModulePrompt "t" (mkOutline "ct" "d" [] ["α", "β", "γ"])
        "B" "F" "β").toList)
    ∧ ('γ' ∉ (openRouterModulePrompt "t" (mkOutline "ct" "d" [] ["α", "β", "γ"])
        "B" "F" "β").toList) :=
  ⟨rfl, by decide, by decide⟩

/-- Claim C5 (amended): in the Gemini adapter the prior "do not repeat" context
for module i quotes exactly `moduleTitles.slice(0, i)` (so for
["A","B","C"], module "B"'s context instruction contains "A" and not "C"),
and the module prompt embeds both that instruction and the full ordered title
list; the OpenRouter adapter's module prompt depends only on topic,
description, learning objectives, difficulty, format and the module's own
title — it embeds neither the prior titles nor the title list. -/
theorem claim5_amended (titles : List String) (i : Nat)
    (topic difficulty courseFormat mt : String) (inc : Bool)
    (o : CourseOutline) (xs : List String)
    (hne : titles.take i ≠ []) :
    previousModuleTitles titles i = titles.take i
    ∧ contextInstruction titles i =
        ctxPrefix ++ joinSep "\", \"" (titles.take i) ++ ctxSuffix
    ∧ (∀ t ∈ titles.take i, ∃ a b, (contextInstruction titles i).data = a ++ t.data ++ b)
    ∧ (∃ a b, (geminiModulePrompt topic difficulty titles i mt inc).data =
        a ++ (contextInstruction titles i).data ++ b)
    ∧ (∃ a b, (geminiModulePrompt topic difficulty titles i mt inc).data =
        a ++ (joinSep "\", \"" titles).data ++ b)
    ∧ openRouterModulePrompt topic { o with moduleTitles := xs } difficulty courseFormat mt =
        openRouterModulePrompt topic o difficulty courseFormat mt
    ∧ ('A' ∈ (contextInstruction ["A", "B", "C"] 1).toList)
    ∧ ('C' ∉ (contextInstruction ["A", "B", "C"] 1).toList) := by
  have hpos : 0 < (titles.take i).length := List.length_pos.mpr hne
  have hctx : contextInstruction titles i =
      ctxPrefix ++ joinSep "\", \"" (titles.take i) ++ ctxSuffix := by
    simp only [contextInstruction, previousModuleTitles]
    rw [if_pos hpos]
  refine ⟨rfl, hctx, ?_, ?_, ?_, rfl, by decide, by decide⟩
  · intro t ht
    obtain ⟨a, b, hab⟩ := mem_joinSep_data "\", \"" (titles.take i) t ht
    exact ⟨ctxPrefix.data ++ a, b ++ ctxSuffix.data,
      by simp [hctx, String.data_append, hab, List.append_assoc]⟩
  · exact ⟨(geminiPrompt1 ++ topic ++ geminiPrompt2 ++ difficulty ++ geminiPrompt3 ++
        joinSep "\", \"" titles ++ geminiPrompt4 ++ mt ++ geminiPrompt5).data,
      (geminiPrompt6 ++ difficulty ++ geminiPrompt7 ++
        (if inc then geminiPromptImg else "")).data,
      by simp [geminiModulePrompt, String.data_append, List.append_assoc]⟩
  · exact ⟨(geminiPrompt1 ++ topic ++ geminiPrompt2 ++ difficulty ++ geminiPrompt3).data,
      (geminiPrompt4 ++ mt ++ geminiPrompt5 ++ contextInstruction titles i ++
        geminiPrompt6 ++ difficulty ++ geminiPrompt7 ++
        (if inc then geminiPromptImg else "")).data,
      by simp [geminiModulePrompt, String.data_append, List.append_assoc]⟩

/-- Claim C5 witness: the ["A","B","C"] scenario at module index 1. -/
theorem claim5_witness :
    previousModuleTitles ["A", "B", "C"] 1 = ["A"]
    ∧ contextInstruction ["A", "B", "C"] 1 =
        ctxPrefix ++ joinSep "\", \"" ["A"] ++ ctxSuffix
    ∧ ('A' ∈ (contextInstruction ["A", "B", "C"] 1).toList)
    ∧ ('C' ∉ (contextInstruction ["A", "B", "C"] 1).toList) := by
  have h := claim5_amended ["A", "B", "C"] 1 "t" "B" "F" "B" false
    (mkOutline "ct" "d" [] ["A", "B", "C"]) [] (by decide)
  exact ⟨h.1, h.2.1, h.2.2.2.2.2.2.1, h.2.2.2.2.2.2.2⟩

/-! ## The structured-output codec
(`openRouterService.ts`, `cleanJson` lines 177-243, `safeJsonParse` lines
245-269)

The codec is modelled at the character-list level.  `JSON.parse` /
`JSON.stringify` are modelled by `jsonParse` / `serializeL` over a `Json`
value type whose numbers are integers (fractions and exponents are rejected by
the model parser; no input in this development uses them).  Each regex of the
source is modelled by a single left-to-right scan with the match semantics of
the JS regexes (documented at each definition). -/

inductive Json where
  | null
  | bool (b : Bool)
  | num (n : Int)
  | str (s : List Char)
  | arr (xs : List Json)
  | obj (kvs : List (List Char × Json))

def Json.isObj : Json → Bool
  | Json.obj _ => true
  | _ => false

/-- Digit characters. -/
def isDigitC (c : Char) : Bool := 48 ≤ c.toNat && c.toNat ≤ 57

/-- The character set of the amended claim's "safe" strings: ASCII letters,
digits and the space. -/
def safeChar (c : Char) : Bool :=
  (48 ≤ c.toNat && c.toNat ≤ 57) || (65 ≤ c.toNat && c.toNat ≤ 90) ||
  (97 ≤ c.toNat && c.toNat ≤ 122) || c = ' '

def safeStr (s : List Char) : Bool := s.all safeChar

mutual
def safeJson : Json → Bool
  | Json.null => true
  | Json.bool _ => true
  | Json.num _ => true
  | Json.str s => safeStr s
  | Json.arr xs => safeArr xs
  | Json.obj kvs => safeObj kvs
def safeArr : List Json → Bool
  | [] => true
  | x :: xs => safeJson x && safeArr xs
def safeObj : List (List Char × Json) → Bool
  | [] => true
  | (k, v) :: kvs => safeStr k && safeJson v && safeObj kvs
end

/-- One character of JSON.stringify string escaping. -/
def escapeChar (c : Char) : List Char :=
  if c = '"' then ['\\', '"']
  else if c = '\\' then ['\\', '\\']
  else if c = '\n' then ['\\', 'n']
  else if c = '\r' then ['\\', 'r']
  else if c = '\t' then ['\\', 't']
  else if c = '\x08' then ['\\', 'b']
  else if c = '\x0c' then ['\\', 'f']
  else [c]

def jsonEscape (s : List Char) : List Char := (s.map escapeChar).flatten

def digitChar (d : Nat) : Char := Char.ofNat (48 + d)

def natDigitsGo : Nat → List Char → List Char
  | 0, acc => acc
  | n + 1, acc => natDigitsGo ((n + 1) / 10) (digitChar ((n + 1) % 10) :: acc)
decreasing_by exact Nat.div_lt_self (Nat.succ_pos n) (by decide)

def natChars (n : Nat) : List Char := if n = 0 then ['0'] else natDigitsGo n []

def intChars (n : Int) : List Char :=
  if n < 0 then '-' :: natChars n.natAbs else natChars n.toNat

mutual
/-- JSON.stringify (no spacing). -/
def serializeL : Json → List Char
  | Json.null => ['n', 'u', 'l', 'l']
  | Json.bool true => ['t', 'r', 'u', 'e']
  | Json.bool false => ['f', 'a', 'l', 's', 'e']
  | Json.num n => intChars n
  | Json.str s => '"' :: jsonEscape s ++ ['"']
  | Json.arr [] => ['[', ']']
  | Json.arr (x :: xs) => '[' :: serializeElemsL x xs ++ [']']
  | Json.obj [] => ['\x7b', '\x7d']
  | Json.obj (kv :: kvs) => '\x7b' :: serializeMembersL kv kvs ++ ['\x7d']
termination_by j => sizeOf j
def serializeElemsL : Json → List Json → List Char
  | x, [] => serializeL x
  | x, y :: xs => serializeL x ++ ',' :: serializeElemsL y xs
termination_by x xs => 1 + sizeOf x + sizeOf xs
def serializeMembersL : (List Char × Json) → List (List Char × Json) → List Char
  | (k, v), [] => '"' :: jsonEscape k ++ '"' :: ':' :: serializeL v
  | (k, v), kv :: kvs =>
    ('"' :: jsonEscape k ++ '"' :: ':' :: serializeL v) ++ ',' :: serializeMembersL kv kvs
termination_by kv kvs => 1 + sizeOf kv + sizeOf kvs
end

mutual
/-- The serialization with a trailing comma inserted before the closing
bracket of every nonempty object and array ("trailing commas inserted before
closing brackets"). -/
def serTC : Json → List Char
  | Json.null => ['n', 'u', 'l', 'l']
  | Json.bool true => ['t', 'r', 'u', 'e']
  | Json.bool false => ['f', 'a', 'l', 's', 'e']
  | Json.num n => intChars n
  | Json.str s => '"' :: jsonEscape s ++ ['"']
  | Json.arr [] => ['[', ']']
  | Json.arr (x :: xs) => '[' :: serTCElemsL x xs ++ [',', ']']
  | Json.obj [] => ['\x7b', '\x7d']
  | Json.obj (kv :: kvs) => '\x7b' :: serTCMembersL kv kvs ++ [',', '\x7d']
termination_by j => sizeOf j
def serTCElemsL : Json → List Json → List Char
  | x, [] => serTC x
  | x, y :: xs => serTC x ++ ',' :: serTCElemsL y xs
termination_by x xs => 1 + sizeOf x + sizeOf xs
def serTCMembersL : (List Char × Json) → List (List Char × Json) → List Char
  | (k, v), [] => '"' :: jsonEscape k ++ '"' :: ':' :: serTC v
  | (k, v), kv :: kvs =>
    ('"' :: jsonEscape k ++ '"' :: ':' :: serTC v) ++ ',' :: serTCMembersL kv kvs
termination_by kv kvs => 1 + sizeOf kv + sizeOf kvs
end

/-! ### The JSON parser (model of `JSON.parse`) -/

def isJsonWs (c : Char) : Bool := c = ' ' || c = '\t' || c = '\n' || c = '\r'

def skipJsonWs (cs : List Char) : List Char := cs.dropWhile isJsonWs

def hexVal (c : Char) : Option Nat :=
  if 48 ≤ c.toNat ∧ c.toNat ≤ 57 then some (c.toNat - 48)
  else if 97 ≤ c.toNat ∧ c.toNat ≤ 102 then some (c.toNat - 87)
  else if 65 ≤ c.toNat ∧ c.toNat ≤ 70 then some (c.toNat - 55)
  else none

def escDecode (c : Char) : Option Char :=
  if c = '"' then some '"'
  else if c = '\\' then some '\\'
  else if c = '/' then some '/'
  else if c = 'b' then some '\x08'
  else if c = 'f' then some '\x0c'
  else if c = 'n' then some '\n'
  else if c = 'r' then some '\r'
  else if c = 't' then some '\t'
  else none

/-- Parse the body of a JSON string (after the opening quote), returning the
decoded content and the remainder after the closing quote. -/
def parseStringBody : List Char → Option (List Char × List Char)
  | [] => none
  | c :: rest =>
    if c = '"' then some ([], rest)
    else if c = '\\' then
      match rest with
      | [] => none
      | e :: rest2 =>
        if e = 'u' then
          match rest2 with
          | a :: b :: c2 :: d :: rest3 =>
            match hexVal a, hexVal b, hexVal c2, hexVal d with
            | some x, some y, some z, some w =>
              (parseStringBody rest3).map
                (fun pr => (Char.ofNat (((x * 16 + y) * 16 + z) * 16 + w) :: pr.1, pr.2))
            | _, _, _, _ => none
          | _ => none
        else
          match escDecode e with
          | some ch => (parseStringBody rest2).map (fun pr => (ch :: pr.1, pr.2))
          | none => none
    else if c.toNat < 32 then none
    else (parseStringBody rest).map (fun pr => (c :: pr.1, pr.2))

def digsToNat (ds : List Char) : Nat := ds.foldl (fun acc c => acc * 10 + (c.toNat - 48)) 0

/-- Parse a natural-number literal; fractions and exponents are rejected
(model restriction: `Json.num` carries integers). -/
def parseNatNum (cs : List Char) : Option (Nat × List Char) :=
  let digs := cs.takeWhile isDigitC
  if digs.isEmpty then none
  else
    match cs.drop digs.length with
    | c :: rest2 =>
      if c = '.' || c = 'e' || c = 'E' then none else some (digsToNat digs, c :: rest2)
    | [] => some (digsToNat digs, [])

def parseNumber (cs : List Char) : Option (Json × List Char) :=
  match cs with
  | '-' :: rest => (parseNatNum rest).map (fun pr => (Json.num (-(pr.1 : Int)), pr.2))
  | _ => (parseNatNum cs).map (fun pr => (Json.num (pr.1 : Int), pr.2))

mutual
def parseValue : Nat → List Char → Option (Json × List Char)
  | 0, _ => none
  | f + 1, cs =>
    match skipJsonWs cs with
    | [] => none
    | c :: rest =>
      if c = 'n' then
        if ['u', 'l', 'l'].isPrefixOf rest then some (Json.null, rest.drop 3) else none
      else if c = 't' then
        if ['r', 'u', 'e'].isPrefixOf rest then some (Json.bool true, rest.drop 3) else none
      else if c = 'f' then
        if ['a', 'l', 's', 'e'].isPrefixOf rest then some (Json.bool false, rest.drop 4)
        else none
      else if c = '"' then
        match parseStringBody rest with
        | some (s, rest2) => some (Json.str s, rest2)
        | none => none
      else if c = '\x7b' then
        match skipJsonWs rest with
        | '\x7d' :: rest2 => some (Json.obj [], rest2)
        | _ =>
          match parseMembers f rest with
          | some (kvs, rest2) => some (Json.obj kvs, rest2)
          | none => none
      else if c = '[' then
        match skipJsonWs rest with
        | ']' :: rest2 => some (Json.arr [], rest2)
        | _ =>
          match parseElements f rest with
          | some (xs, rest2) => some (Json.arr xs, rest2)
          | none => none
      else parseNumber (c :: rest)
def parseMembers : Nat → List Char → Option (List (List Char × Json) × List Char)
  | 0, _ => none
  | f + 1, cs =>
    match skipJsonWs cs with
    | '"' :: rest =>
      match parseStringBody rest with
      | some (k, rest2) =>
        match skipJsonWs rest2 with
        | ':' :: rest3 =>
          match parseValue f rest3 with
          | some (v, rest4) =>
            match skipJsonWs rest4 with
            | ',' :: rest5 =>
              match parseMembers f rest5 with
              | some (kvs, rest6) => some ((k, v) :: kvs, rest6)
              | none => none
            | '\x7d' :: rest5 => some ([(k, v)], rest5)
            | _ => none
          | none => none
        | _ => none
      | none => none
    | _ => none
def parseElements : Nat → List Char → Option (List Json × List Char)
  | 0, _ => none
  | f + 1, cs =>
    match parseValue f cs with
    | some (v, rest) =>
      match skipJsonWs rest with
      | ',' :: rest2 =>
        match parseElements f rest2 with
        | some (vs, rest3) => some (v :: vs, rest3)
        | none => none
      | ']' :: rest2 => some ([v], rest2)
      | _ => none
    | none => none
end

/-- `JSON.parse`: parse a complete value, allowing surrounding whitespace. -/
def jsonParse (cs : List Char) : Option Json :=
  match parseValue (cs.length + 1) cs with
  | some (v, rest) => if (skipJsonWs rest).isEmpty then some v else none
  | none => none

/-! ### `cleanJson` -/

def fencePat : List Char := "```json".data

def ticks : List Char := "```".data

/-- Index of the first occurrence of `pat` (nonempty) as a contiguous
subsequence. -/
def findSub (pat : List Char) : List Char → Option Nat
  | [] => none
  | c :: cs => if pat.isPrefixOf (c :: cs) then some 0 else (findSub pat cs).map (· + 1)

/-- The fence-extraction regex `/```json\s*([\s\S]*?)\s*```/` of `cleanJson`:
the capture runs from the first "```json" (leading whitespace skipped) to the
first following "```", trailing whitespace stripped; `cleanJson` uses it only
when the capture (`match[1]`) is truthy, i.e. nonempty. -/
def extractFence (text : List Char) : Option (List Char) :=
  match findSub fencePat text with
  | none => none
  | some i =>
    let after := (text.drop (i + fencePat.length)).dropWhile isJsWhitespace
    match findSub ticks after with
    | none => none
    | some p =>
      let cap := trimChars (after.take p)
      if cap.isEmpty then none else some cap

/-- The brace scan of `cleanJson` (lines 190-225): track depth, in-string and
escape state from the first `{`; the matching close brace ends the span.  The
scan is entered with the first character `{`, so the depth stays positive
until the span closes (`Nat` depth is faithful on such inputs). -/
def scanBody : List Char → Nat → Bool → Bool → Option (List Char)
  | [], _, _, _ => none
  | c :: rest, depth, inString, escaped =>
    if escaped then (scanBody rest depth inString false).map (c :: ·)
    else if c = '\\' then (scanBody rest depth inString true).map (c :: ·)
    else if c = '"' then (scanBody rest depth (!inString) false).map (c :: ·)
    else if !inString && c = '\x7b' then (scanBody rest (depth + 1) inString false).map (c :: ·)
    else if !inString && c = '\x7d' then
      if depth = 1 then some [c]
      else (scanBody rest (depth - 1) inString false).map (c :: ·)
    else (scanBody rest depth inString false).map (c :: ·)

/-- The trailing-comma repair regex `/,(\s*[}\]])/g` replaced by `$1`: a
single left-to-right pass; each match consumes the comma, the whitespace run
and the bracket, emits the whitespace and bracket, and resumes after them. -/
def removeTrailingCommas : List Char → List Char
  | [] => []
  | c :: rest =>
    if c = ',' then
      let ws := rest.takeWhile isJsWhitespace
      match rest.drop ws.length with
      | b :: _ =>
        if b = '\x7d' || b = ']' then
          ws ++ b :: removeTrailingCommas (rest.drop (ws.length + 1))
        else c :: removeTrailingCommas rest
      | [] => c :: removeTrailingCommas rest
    else c :: removeTrailingCommas rest
termination_by cs => cs.length
decreasing_by
  all_goals simp only [List.length_cons, List.length_drop]
  all_goals omega

def isQF (c : Char) : Bool :=
  !(c = '"' || c = ',' || c = ':' || c = '\x7d' || c = ']')

/-- Matcher for the tail of the quote-repair regex
`/([^\\])"([^",:}\]]+)"([^",:}\]]+)"/g` after its first character: expects a
quote, a nonempty run of characters outside the class, a quote, another such
run, and a final quote; returns the two runs and the consumed length. -/
def qfMatch (cs : List Char) : Option (List Char × List Char × Nat) :=
  match cs with
  | '"' :: rest =>
    let r1 := rest.takeWhile isQF
    if r1.isEmpty then none
    else
      match rest.drop r1.length with
      | '"' :: rest2 =>
        let r2 := rest2.takeWhile isQF
        if r2.isEmpty then none
        else
          match rest2.drop r2.length with
          | '"' :: _ => some (r1, r2, 1 + r1.length + 1 + r2.length + 1)
          | _ => none
      | _ => none
  | _ => none

/-- The quote-repair regex of `cleanJson`, replaced by `$1"$2\"$3"`: single
left-to-right pass, resuming after each match. -/
def quoteFix : List Char → List Char
  | [] => []
  | c :: rest =>
    if c = '\\' then c :: quoteFix rest
    else
      match qfMatch rest with
      | some (r1, r2, n) =>
        c :: '"' :: (r1 ++ '\\' :: '"' :: r2 ++ ['"']) ++ quoteFix (rest.drop n)
      | none => c :: quoteFix rest
termination_by cs => cs.length
decreasing_by
  all_goals simp only [List.length_cons, List.length_drop]
  all_goals omega

/-- `cleanJson` (lines 177-243). -/
def cleanJsonL (text0 : List Char) : List Char :=
  let text := match extractFence text0 with
    | some cap => cap
    | none => text0
  let fromBrace := text.dropWhile (fun c => c ≠ '\x7b')
  match fromBrace with
  | [] => trimChars text
  | _ :: _ =>
    match scanBody fromBrace 0 false false with
    | some jsonStr => trimChars (quoteFix (removeTrailingCommas jsonStr))
    | none => trimChars text

/-! ### The aggressive second cleaning pass of `safeJsonParse` -/

/-- Global replacement of `/```json\s*/g` by the empty string. -/
def removeFenceJson : List Char → List Char
  | [] => []
  | c :: rest =>
    if fencePat.isPrefixOf (c :: rest) then
      removeFenceJson ((rest.drop 6).dropWhile isJsWhitespace)
    else c :: removeFenceJson rest
termination_by cs => cs.length
decreasing_by
  · exact Nat.lt_succ_of_le (le_trans (List.Sublist.length_le (List.dropWhile_sublist _))
      (List.Sublist.length_le (List.drop_sublist _ _)))
  · simp

/-- Global replacement of `/```\s*/g` by the empty string. -/
def removeFence : List Char → List Char
  | [] => []
  | c :: rest =>
    if ticks.isPrefixOf (c :: rest) then
      removeFence ((rest.drop 2).dropWhile isJsWhitespace)
    else c :: removeFence rest
termination_by cs => cs.length
decreasing_by
  · exact Nat.lt_succ_of_le (le_trans (List.Sublist.length_le (List.dropWhile_sublist _))
      (List.Sublist.length_le (List.drop_sublist _ _)))
  · simp

/-- The span-extraction regex `/^[^{]*({.*})[^}]*$/s` replaced by `$1`: when
the text has a `{` and a later `}`, keep the span from the first `{` to the
last `}`; otherwise leave the text unchanged. -/
def extractBraceSpan (cs : List Char) : List Char :=
  let fromBrace := cs.dropWhile (fun c => c ≠ '\x7b')
  if fromBrace.isEmpty then cs
  else
    let tailLen := (fromBrace.reverse.takeWhile (fun c => c ≠ '\x7d')).length
    if tailLen = fromBrace.length then cs
    else fromBrace.take (fromBrace.length - tailLen)

def isQuoteJs (c : Char) : Bool := c = '"' || c = '\''

/-- Split a run at its last newline. -/
def lastNewlineSplit (run : List Char) : Option (List Char × List Char) :=
  let tail := run.reverse.takeWhile (fun c => c ≠ '\n')
  if tail.length = run.length then none
  else some (run.take (run.length - tail.length - 1), tail.reverse)

/-- Matcher for the newline-repair regex
`/(['"])\s*:\s*(['"][^'"]*)\n([^'"]*['"])/g` after its leading quote: returns
the replacement (after `$1`) and the consumed length. -/
def nlfMatch (rest : List Char) : Option (List Char × Nat) :=
  let w1 := rest.takeWhile isJsWhitespace
  match rest.drop w1.length with
  | ':' :: rest3 =>
    let w2 := rest3.takeWhile isJsWhitespace
    match rest3.drop w2.length with
    | q2 :: rest5 =>
      if isQuoteJs q2 then
        let run := rest5.takeWhile (fun c => !(isQuoteJs c))
        match rest5.drop run.length with
        | q3 :: _ =>
          match lastNewlineSplit run with
          | some (runA, runB) =>
            some (':' :: ' ' :: q2 :: (runA ++ runB ++ [q3]),
                  w1.length + 1 + w2.length + 1 + run.length + 1)
          | none => none
        | [] => none
      else none
    | [] => none
  | _ => none

/-- The newline-repair regex of the aggressive pass, replaced by
`$1: $2$3`. -/
def newlineFix : List Char → List Char
  | [] => []
  | c :: rest =>
    if isQuoteJs c then
      match nlfMatch rest with
      | some (repl, n) => c :: repl ++ newlineFix (rest.drop n)
      | none => c :: newlineFix rest
    else c :: newlineFix rest
termination_by cs => cs.length
decreasing_by
  all_goals simp only [List.length_cons, List.length_drop]
  all_goals omega

/-- The aggressive cleaning chain of `safeJsonParse`'s catch branch. -/
def aggressiveClean (cs : List Char) : List Char :=
  trimChars (newlineFix (removeTrailingCommas (extractBraceSpan
    (removeFence (removeFenceJson cs)))))

/-- `safeJsonParse` (lines 245-269): parse the cleaned text; on failure try
the aggressive cleaning; a second failure throws (`none`). -/
def safeJsonParseL (text : List Char) : Option Json :=
  match jsonParse (cleanJsonL text) with
  | some v => some v
  | none => jsonParse (aggressiveClean text)

def safeJsonParse (s : String) : Option Json := safeJsonParseL s.data

/-! ### Character facts for safe strings -/

theorem safeChar_ne {c x : Char} (hc : safeChar c = true) (hx : safeChar x = false) :
    c ≠ x := by
  intro h
  rw [h] at hc
  rw [hc] at hx
  exact Bool.noConfusion hx

theorem safeChar_isQF {c : Char} (hc : safeChar c = true) : isQF c = true := by
  have h1 : c ≠ '"' := safeChar_ne hc (by decide)
  have h2 : c ≠ ',' := safeChar_ne hc (by decide)
  have h3 : c ≠ ':' := safeChar_ne hc (by decide)
  have h4 : c ≠ '\x7d' := safeChar_ne hc (by decide)
  have h5 : c ≠ ']' := safeChar_ne hc (by decide)
  simp [isQF, h1, h2, h3, h4, h5]

theorem safeChar_escape {c : Char} (hc : safeChar c = true) : escapeChar c = [c] := by
  have h1 : c ≠ '"' := safeChar_ne hc (by decide)
  have h2 : c ≠ '\\' := safeChar_ne hc (by decide)
  have h3 : c ≠ '\n' := safeChar_ne hc (by decide)
  have h4 : c ≠ '\r' := safeChar_ne hc (by decide)
  have h5 : c ≠ '\t' := safeChar_ne hc (by decide)
  have h6 : c ≠ '\x08' := safeChar_ne hc (by decide)
  have h7 : c ≠ '\x0c' := safeChar_ne hc (by decide)
  rw [escapeChar, if_neg h1, if_neg h2, if_neg h3, if_neg h4, if_neg h5, if_neg h6,
    if_neg h7]

theorem jsonEscape_safe : ∀ {s : List Char}, safeStr s = true → jsonEscape s = s := by
  intro s
  induction s with
  | nil => intro _; rfl
  | cons c cs ih =>
    intro hs
    simp only [safeStr, List.all_cons, Bool.and_eq_true] at hs
    simp only [jsonEscape, List.map_cons, List.flatten_cons, safeChar_escape hs.1]
    have hih := ih (by simpa [safeStr] using hs.2)
    simp only [safeStr] at hih ⊢
    rw [show (List.map escapeChar cs).flatten = jsonEscape cs from rfl, hih]
    rfl

/-! ### The decimal printer produces nonempty digit strings -/

theorem digitChar_digit {d : Nat} (hd : d < 10) : isDigitC (digitChar d) = true := by
  interval_cases d <;> decide

theorem natDigitsGo_all : ∀ (n : Nat) (acc : List Char),
    acc.all isDigitC = true → (natDigitsGo n acc).all isDigitC = true := by
  intro n
  induction n using Nat.strong_induction_on with
  | _ n ih =>
    intro acc hacc
    match n with
    | 0 => simpa [natDigitsGo] using hacc
    | m + 1 =>
      rw [natDigitsGo]
      refine ih ((m + 1) / 10) (Nat.div_lt_self (Nat.succ_pos m) (by decide)) _ ?_
      simp only [List.all_cons, Bool.and_eq_true]
      exact ⟨digitChar_digit (Nat.mod_lt _ (by decide)), hacc⟩

theorem natDigitsGo_ne_nil : ∀ (n : Nat) (acc : List Char),
    acc ≠ [] → natDigitsGo n acc ≠ [] := by
  intro n
  induction n using Nat.strong_induction_on with
  | _ n ih =>
    intro acc hacc
    match n with
    | 0 => simpa [natDigitsGo] using hacc
    | m + 1 =>
      rw [natDigitsGo]
      exact ih ((m + 1) / 10) (Nat.div_lt_self (Nat.succ_pos m) (by decide)) _ (by simp)

theorem natChars_shape (m : Nat) : ∃ d t, natChars m = d :: t ∧ isDigitC d = true := by
  unfold natChars
  split
  · exact ⟨'0', [], rfl, by decide⟩
  · rename_i hm
    match m, hm with
    | m + 1, _ =>
      have hall := natDigitsGo_all (m + 1) [] (by simp)
      have hne := natDigitsGo_ne_nil ((m + 1) / 10) [digitChar ((m + 1) % 10)] (by simp)
      rw [natDigitsGo]
      match hh : natDigitsGo ((m + 1) / 10) [digitChar ((m + 1) % 10)] with
      | [] => exact absurd hh hne
      | d :: t =>
        refine ⟨d, t, rfl, ?_⟩
        have := natDigitsGo_all ((m + 1) / 10) [digitChar ((m + 1) % 10)]
          (by simp [digitChar_digit (Nat.mod_lt _ (show 0 < 10 by decide))])
        rw [hh] at this
        simp only [List.all_cons, Bool.and_eq_true] at this
        exact this.1

theorem isDigitC_facts {d : Char} (hd : isDigitC d = true) :
    isJsWhitespace d = false ∧ d ≠ '\x7d' ∧ d ≠ ']' ∧ d ≠ ',' := by
  refine ⟨?_, ?_, ?_, ?_⟩
  · by_contra hw
    rw [Bool.not_eq_false] at hw
    have hor : d = ' ' ∨ d = '\t' ∨ d = '\n' ∨ d = '\x0d' ∨ d = '\x0b' ∨ d = '\x0c' := by
      simpa [isJsWhitespace, or_assoc] using hw
    rcases hor with h | h | h | h | h | h <;> rw [h] at hd <;> exact Bool.noConfusion hd
  · intro h
    rw [h] at hd
    exact Bool.noConfusion hd
  · intro h
    rw [h] at hd
    exact Bool.noConfusion hd
  · intro h
    rw [h] at hd
    exact Bool.noConfusion hd

/-- Every serialized-with-trailing-commas value starts with a character that is
not whitespace, not a closing bracket and not a comma. -/
theorem serTC_head (v : Json) : ∃ c t, serTC v = c :: t ∧ isJsWhitespace c = false
    ∧ c ≠ '\x7d' ∧ c ≠ ']' ∧ c ≠ ',' := by
  match v with
  | Json.null => exact ⟨'n', _, by rw [serTC], by decide, by decide, by decide, by decide⟩
  | Json.bool true => exact ⟨'t', _, by rw [serTC], by decide, by decide, by decide, by decide⟩
  | Json.bool false => exact ⟨'f', _, by rw [serTC], by decide, by decide, by decide, by decide⟩
  | Json.num n =>
    rw [show serTC (Json.num n) = intChars n from by rw [serTC]]
    unfold intChars
    split
    · exact ⟨'-', _, rfl, by decide, by decide, by decide, by decide⟩
    · obtain ⟨d, t, hdt, hd⟩ := natChars_shape n.toNat
      obtain ⟨f1, f2, f3, f4⟩ := isDigitC_facts hd
      exact ⟨d, t, hdt, f1, f2, f3, f4⟩
  | Json.str s =>
    exact ⟨'"', jsonEscape s ++ ['"'], by rw [serTC, List.cons_append], by decide,
      by decide, by decide, by decide⟩
  | Json.arr [] => exact ⟨'[', [']'], by rw [serTC], by decide, by decide, by decide,
      by decide⟩
  | Json.arr (x :: xs) =>
    exact ⟨'[', serTCElemsL x xs ++ [',', ']'], by rw [serTC, List.cons_append],
      by decide, by decide, by decide, by decide⟩
  | Json.obj [] =>
    exact ⟨'\x7b', ['\x7d'], by rw [serTC], by decide, by decide, by decide, by decide⟩
  | Json.obj (kv :: kvs) =>
    exact ⟨'\x7b', serTCMembersL kv kvs ++ [',', '\x7d'],
      by rw [serTC, List.cons_append], by decide, by decide, by decide, by decide⟩

/-! ### Stepping lemmas for the trailing-comma pass -/

theorem rTC_cons_ne {c : Char} (hc : c ≠ ',') (rest : List Char) :
    removeTrailingCommas (c :: rest) = c :: removeTrailingCommas rest := by
  rw [removeTrailingCommas]
  rw [if_neg hc]

theorem rTC_comma_keep {d : Char} (h1 : isJsWhitespace d = false) (h2 : d ≠ '\x7d')
    (h3 : d ≠ ']') (rest : List Char) :
    removeTrailingCommas (',' :: d :: rest) = ',' :: removeTrailingCommas (d :: rest) := by
  have hw : ¬ isJsWhitespace d = true := by rw [h1]; exact Bool.noConfusion
  rw [removeTrailingCommas]
  rw [if_pos rfl]
  simp only [List.takeWhile_cons_of_neg hw, List.length_nil, List.drop_zero,
    decide_eq_false h2, decide_eq_false h3, Bool.or_false, Bool.false_eq_true, if_false]

theorem rTC_comma_drop {d : Char} (hd : d = '\x7d' ∨ d = ']') (rest : List Char) :
    removeTrailingCommas (',' :: d :: rest) = d :: removeTrailingCommas rest := by
  have h1 : isJsWhitespace d = false := by rcases hd with h | h <;> rw [h] <;> decide
  have hw : ¬ isJsWhitespace d = true := by rw [h1]; exact Bool.noConfusion
  have hbr : (decide (d = '\x7d') || decide (d = ']')) = true := by
    rcases hd with h | h <;> simp [h]
  rw [removeTrailingCommas]
  rw [if_pos rfl]
  simp only [List.takeWhile_cons_of_neg hw, List.length_nil, List.drop_zero, hbr,
    if_true, Nat.zero_add, List.drop_succ_cons, List.nil_append]

/-! ### The trailing-comma pass maps `serTC` to `serializeL` -/

theorem rTC_safe_prefix : ∀ (cs : List Char), (∀ c ∈ cs, c ≠ ',') → ∀ (rest : List Char),
    removeTrailingCommas (cs ++ rest) = cs ++ removeTrailingCommas rest := by
  intro cs
  induction cs with
  | nil => intro _ rest; simp
  | cons c cs ih =>
    intro h rest
    rw [List.cons_append, rTC_cons_ne (h c (List.mem_cons_self _ _)),
      ih (fun x hx => h x (List.mem_cons_of_mem _ hx)) rest, List.cons_append]

theorem safeStr_mem {s : List Char} (hs : safeStr s = true) {c : Char} (hc : c ∈ s) :
    safeChar c = true := by
  rw [safeStr, List.all_eq_true] at hs
  exact hs c hc

theorem natChars_all (m : Nat) : (natChars m).all isDigitC = true := by
  unfold natChars
  split
  · decide
  · exact natDigitsGo_all m [] (by simp)

theorem intChars_ne_comma (n : Int) : ∀ c ∈ intChars n, c ≠ ',' := by
  intro c hc
  have hdig : ∀ x ∈ natChars n.toNat, (x:Char) ≠ ',' := by
    intro x hx
    have := (List.all_eq_true.mp (natChars_all n.toNat)) x hx
    exact (isDigitC_facts this).2.2.2
  have hdig2 : ∀ x ∈ natChars n.natAbs, (x:Char) ≠ ',' := by
    intro x hx
    have := (List.all_eq_true.mp (natChars_all n.natAbs)) x hx
    exact (isDigitC_facts this).2.2.2
  unfold intChars at hc
  split at hc
  · rcases List.mem_cons.mp hc with h | h
    · rw [h]
      decide
    · exact hdig2 c h
  · exact hdig c hc

theorem serTCElemsL_decomp (y : Json) (xs : List Json) :
    ∃ t2, serTCElemsL y xs = serTC y ++ t2 := by
  match xs with
  | [] => exact ⟨[], by rw [serTCElemsL, List.append_nil]⟩
  | z :: zs => exact ⟨',' :: serTCElemsL z zs, by rw [serTCElemsL]⟩

theorem serTCMembersL_head (kv : List Char × Json) (kvs : List (List Char × Json)) :
    ∃ t, serTCMembersL kv kvs = '"' :: t := by
  match kv, kvs with
  | (k, v), [] => exact ⟨jsonEscape k ++ '"' :: ':' :: serTC v, by rw [serTCMembersL]; rfl⟩
  | (k, v), kv2 :: kvs2 =>
    exact ⟨(jsonEscape k ++ '"' :: ':' :: serTC v) ++ ',' :: serTCMembersL kv2 kvs2,
      by rw [serTCMembersL]; rfl⟩

mutual
theorem rTC_through_v : ∀ (v : Json), safeJson v = true → ∀ (rest : List Char),
    removeTrailingCommas (serTC v ++ rest) = serializeL v ++ removeTrailingCommas rest
  | Json.null, _, rest => by
    rw [show serTC Json.null = ['n', 'u', 'l', 'l'] from by rw [serTC],
      show serializeL Json.null = ['n', 'u', 'l', 'l'] from by rw [serializeL]]
    exact rTC_safe_prefix _ (by decide) rest
  | Json.bool true, _, rest => by
    rw [show serTC (Json.bool true) = ['t', 'r', 'u', 'e'] from by rw [serTC],
      show serializeL (Json.bool true) = ['t', 'r', 'u', 'e'] from by rw [serializeL]]
    exact rTC_safe_prefix _ (by decide) rest
  | Json.bool false, _, rest => by
    rw [show serTC (Json.bool false) = ['f', 'a', 'l', 's', 'e'] from by rw [serTC],
      show serializeL (Json.bool false) = ['f', 'a', 'l', 's', 'e'] from by rw [serializeL]]
    exact rTC_safe_prefix _ (by decide) rest
  | Json.num n, _, rest => by
    rw [show serTC (Json.num n) = intChars n from by rw [serTC],
      show serializeL (Json.num n) = intChars n from by rw [serializeL]]
    exact rTC_safe_prefix _ (intChars_ne_comma n) rest
  | Json.str s, hs, rest => by
    rw [show serTC (Json.str s) = ('"' :: jsonEscape s) ++ ['"'] from by rw [serTC],
      show serializeL (Json.str s) = ('"' :: jsonEscape s) ++ ['"'] from by rw [serializeL]]
    have hs2 : safeStr s = true := by simpa [safeJson] using hs
    rw [jsonEscape_safe hs2]
    refine rTC_safe_prefix _ ?_ rest
    intro c hc
    rcases List.mem_append.mp hc with h | h
    · rcases List.mem_cons.mp h with h | h
      · rw [h]
        decide
      · exact safeChar_ne (safeStr_mem hs2 h) (by decide)
    · rw [List.mem_singleton.mp h]
      decide
  | Json.arr [], _, rest => by
    rw [show serTC (Json.arr []) = ['[', ']'] from by rw [serTC],
      show serializeL (Json.arr []) = ['[', ']'] from by rw [serializeL]]
    exact rTC_safe_prefix _ (by decide) rest
  | Json.arr (x :: xs), hs, rest => by
    have hsx : safeJson x = true ∧ safeArr xs = true := by
      have : safeArr (x :: xs) = true := by simpa [safeJson] using hs
      simpa [safeArr, Bool.and_eq_true] using this
    rw [show serTC (Json.arr (x :: xs)) = ('[' :: serTCElemsL x xs) ++ [',', ']'] from
        by rw [serTC],
      show serializeL (Json.arr (x :: xs)) = ('[' :: serializeElemsL x xs) ++ [']'] from
        by rw [serializeL]]
    have step1 : (('[' :: serTCElemsL x xs) ++ [',', ']']) ++ rest
        = '[' :: (serTCElemsL x xs ++ (',' :: ']' :: rest)) := by
      simp
    rw [step1, rTC_cons_ne (by decide), rTC_through_e x xs hsx.1 hsx.2 (',' :: ']' :: rest),
      rTC_comma_drop (Or.inr rfl) rest]
    simp
  | Json.obj [], _, rest => by
    rw [show serTC (Json.obj []) = ['\x7b', '\x7d'] from by rw [serTC],
      show serializeL (Json.obj []) = ['\x7b', '\x7d'] from by rw [serializeL]]
    exact rTC_safe_prefix _ (by decide) rest
  | Json.obj (kv :: kvs), hs, rest => by
    have hsx : safeObj (kv :: kvs) = true := by simpa [safeJson] using hs
    rw [show serTC (Json.obj (kv :: kvs)) = ('\x7b' :: serTCMembersL kv kvs) ++ [',', '\x7d']
        from by rw [serTC],
      show serializeL (Json.obj (kv :: kvs)) = ('\x7b' :: serializeMembersL kv kvs) ++ ['\x7d']
        from by rw [serializeL]]
    have step1 : (('\x7b' :: serTCMembersL kv kvs) ++ [',', '\x7d']) ++ rest
        = '\x7b' :: (serTCMembersL kv kvs ++ (',' :: '\x7d' :: rest)) := by
      simp
    rw [step1, rTC_cons_ne (by decide), rTC_through_m kv kvs hsx (',' :: '\x7d' :: rest),
      rTC_comma_drop (Or.inl rfl) rest]
    simp
termination_by v => sizeOf v

theorem rTC_through_e : ∀ (x : Json) (xs : List Json), safeJson x = true →
    safeArr xs = true → ∀ (rest : List Char),
    removeTrailingCommas (serTCElemsL x xs ++ rest)
      = serializeElemsL x xs ++ removeTrailingCommas rest
  | x, [], hx, _, rest => by
    rw [show serTCElemsL x [] = serTC x from by rw [serTCElemsL],
      show serializeElemsL x [] = serializeL x from by rw [serializeElemsL]]
    exact rTC_through_v x hx rest
  | x, y :: xs, hx, hys, rest => by
    have hsy : safeJson y = true ∧ safeArr xs = true := by
      simpa [safeArr, Bool.and_eq_true] using hys
    rw [show serTCElemsL x (y :: xs) = serTC x ++ ',' :: serTCElemsL y xs from
        by rw [serTCElemsL],
      show serializeElemsL x (y :: xs) = serializeL x ++ ',' :: serializeElemsL y xs from
        by rw [serializeElemsL]]
    have step1 : (serTC x ++ ',' :: serTCElemsL y xs) ++ rest
        = serTC x ++ (',' :: (serTCElemsL y xs ++ rest)) := by
      simp
    rw [step1, rTC_through_v x hx (',' :: (serTCElemsL y xs ++ rest))]
    obtain ⟨c, t, hct, f1, f2, f3, f4⟩ := serTC_head y
    obtain ⟨t2, ht2⟩ := serTCElemsL_decomp y xs
    have step2 : serTCElemsL y xs ++ rest = c :: (t ++ t2 ++ rest) := by
      rw [ht2, hct]
      simp
    rw [step2, rTC_comma_keep f1 f2 f3, ← step2,
      rTC_through_e y xs hsy.1 hsy.2 rest]
    simp
termination_by x xs => 1 + sizeOf x + sizeOf xs

theorem rTC_through_m : ∀ (kv : List Char × Json) (kvs : List (List Char × Json)),
    safeObj (kv :: kvs) = true → ∀ (rest : List Char),
    removeTrailingCommas (serTCMembersL kv kvs ++ rest)
      = serializeMembersL kv kvs ++ removeTrailingCommas rest
  | (k, v), [], hs, rest => by
    have hkv : safeStr k = true ∧ safeJson v = true := by
      have := hs
      simp only [safeObj, Bool.and_eq_true] at this
      exact ⟨this.1.1, this.1.2⟩
    rw [show serTCMembersL (k, v) [] = (('"' :: jsonEscape k) ++ ['"', ':']) ++ serTC v from
        by rw [serTCMembersL]; simp,
      show serializeMembersL (k, v) [] = (('"' :: jsonEscape k) ++ ['"', ':']) ++ serializeL v
        from by rw [serializeMembersL]; simp]
    rw [jsonEscape_safe hkv.1]
    have hpre : ∀ c ∈ ('"' :: k) ++ ['"', ':'], (c : Char) ≠ ',' := by
      intro c hc
      rcases List.mem_append.mp hc with h | h
      · rcases List.mem_cons.mp h with h | h
        · rw [h]
          decide
        · exact safeChar_ne (safeStr_mem hkv.1 h) (by decide)
      · rcases List.mem_cons.mp h with h | h
        · rw [h]
          decide
        · rw [List.mem_singleton.mp h]
          decide
    rw [List.append_assoc, rTC_safe_prefix _ hpre (serTC v ++ rest),
      rTC_through_v v hkv.2 rest]
    simp
  | (k, v), kv2 :: kvs2, hs, rest => by
    have hkv : safeStr k = true ∧ safeJson v = true := by
      simp only [safeObj, Bool.and_eq_true] at hs
      exact ⟨hs.1.1, hs.1.2⟩
    have hrest2 : safeObj (kv2 :: kvs2) = true := by
      simp only [safeObj, Bool.and_eq_true] at hs ⊢
      exact hs.2
    rw [show serTCMembersL (k, v) (kv2 :: kvs2)
        = (('"' :: jsonEscape k) ++ ['"', ':']) ++ serTC v ++ ',' :: serTCMembersL kv2 kvs2
        from by rw [serTCMembersL]; simp,
      show serializeMembersL (k, v) (kv2 :: kvs2)
        = (('"' :: jsonEscape k) ++ ['"', ':'])
            ++ serializeL v ++ ',' :: serializeMembersL kv2 kvs2
        from by rw [serializeMembersL]; simp]
    rw [jsonEscape_safe hkv.1]
    have hpre : ∀ c ∈ ('"' :: k) ++ ['"', ':'], (c : Char) ≠ ',' := by
      intro c hc
      rcases List.mem_append.mp hc with h | h
      · rcases List.mem_cons.mp h with h | h
        · rw [h]
          decide
        · exact safeChar_ne (safeStr_mem hkv.1 h) (by decide)
      · rcases List.mem_cons.mp h with h | h
        · rw [h]
          decide
        · rw [List.mem_singleton.mp h]
          decide
    have step1 : ((('"' :: k) ++ ['"', ':']) ++ serTC v ++ ',' :: serTCMembersL kv2 kvs2)
        ++ rest
        = (('"' :: k) ++ ['"', ':']) ++ (serTC v ++ (',' :: (serTCMembersL kv2 kvs2 ++ rest)))
        := by
      simp
    rw [step1, rTC_safe_prefix _ hpre, rTC_through_v v hkv.2]
    obtain ⟨t, ht⟩ := serTCMembersL_head kv2 kvs2
    have step2 : serTCMembersL kv2 kvs2 ++ rest = '"' :: (t ++ rest) := by
      rw [ht]
      simp
    rw [step2, rTC_comma_keep (by decide) (by decide) (by decide), ← step2,
      rTC_through_m kv2 kvs2 hrest2 rest]
    simp
termination_by kv kvs => 1 + sizeOf kv + sizeOf kvs
end

/-! ### The quote-repair pass is the identity on serialized safe values -/

def sepOK : List Char → Prop
  | [] => True
  | c :: _ => c = ',' ∨ c = ':' ∨ c = '\x7d' ∨ c = ']'

theorem sepOK_nil : sepOK [] := trivial

theorem sepOK_comma (t : List Char) : sepOK (',' :: t) := Or.inl rfl

theorem sepOK_colon (t : List Char) : sepOK (':' :: t) := Or.inr (Or.inl rfl)

theorem sepOK_rbrace (t : List Char) : sepOK ('\x7d' :: t) := Or.inr (Or.inr (Or.inl rfl))

theorem sepOK_rbracket (t : List Char) : sepOK (']' :: t) := Or.inr (Or.inr (Or.inr rfl))

theorem isDigitC_ne {d x : Char} (hd : isDigitC d = true) (hx : isDigitC x = false) :
    d ≠ x := by
  intro h
  rw [h] at hd
  rw [hd] at hx
  exact Bool.noConfusion hx

theorem qfMatch_cons_ne {c : Char} (hc : c ≠ '"') (t : List Char) :
    qfMatch (c :: t) = none := by
  unfold qfMatch
  split
  · rename_i rest heq
    injection heq with h1 h2
    exact absurd h1 hc
  · rfl

theorem qfMatch_sep : ∀ {rest : List Char}, sepOK rest → qfMatch rest = none := by
  intro rest h
  match rest, h with
  | [], _ => rfl
  | c :: t, h =>
    have hc : c ≠ '"' := by rcases h with h | h | h | h <;> rw [h] <;> decide
    exact qfMatch_cons_ne hc t

theorem qfMatch_quote_sep {rest : List Char} (h : sepOK rest) :
    qfMatch ('"' :: rest) = none := by
  match rest, h with
  | [], _ => rfl
  | c :: t, h =>
    have hc : isQF c = false := by rcases h with h | h | h | h <;> rw [h] <;> decide
    have hw : ¬ isQF c = true := by rw [hc]; exact Bool.noConfusion
    simp [qfMatch, List.takeWhile_cons_of_neg hw]

theorem takeWhile_all_append {p : Char → Bool} : ∀ {s : List Char},
    (∀ x ∈ s, p x = true) → ∀ {c : Char}, p c = false → ∀ (t : List Char),
    (s ++ c :: t).takeWhile p = s := by
  intro s
  induction s with
  | nil =>
    intro _ c hc t
    simp only [List.nil_append]
    exact List.takeWhile_cons_of_neg (by rw [hc]; exact Bool.noConfusion)
  | cons a s ih =>
    intro h c hc t
    rw [List.cons_append, List.takeWhile_cons_of_pos (h a (List.mem_cons_self _ _)),
      ih (fun x hx => h x (List.mem_cons_of_mem _ hx)) hc t]

theorem safeStr_tail {c : Char} {s : List Char} (hs : safeStr (c :: s) = true) :
    safeStr s = true := by
  rw [safeStr, List.all_eq_true]
  intro x hx
  exact safeStr_mem hs (List.mem_cons_of_mem _ hx)

theorem qfMatch_string {s : List Char} (hs : safeStr s = true) {after : List Char}
    (hafter : sepOK after) : qfMatch ('"' :: (s ++ '"' :: after)) = none := by
  match s with
  | [] =>
    simp only [List.nil_append]
    have hw : ¬ isQF '"' = true := by decide
    simp [qfMatch, List.takeWhile_cons_of_neg hw]
  | c :: s' =>
    have hall : ∀ x ∈ c :: s', isQF x = true := fun x hx =>
      safeChar_isQF (safeStr_mem hs hx)
    have ht : List.takeWhile isQF (c :: (s' ++ '"' :: after)) = c :: s' :=
      takeWhile_all_append hall (by decide) after
    have hdrop : List.drop (c :: s').length (c :: (s' ++ '"' :: after)) = '"' :: after :=
      List.drop_left (c :: s') _
    have hr2 : after.takeWhile isQF = [] := by
      match after, hafter with
      | [], _ => rfl
      | d :: t, ha =>
        have hd : isQF d = false := by rcases ha with h | h | h | h <;> rw [h] <;> decide
        exact List.takeWhile_cons_of_neg (by rw [hd]; exact Bool.noConfusion)
    simp only [List.cons_append]
    simp only [qfMatch, ht, hdrop, hr2]
    simp

theorem qfMatch_strred {s : List Char} (hs : safeStr s = true) {rest : List Char}
    (hrest : sepOK rest) : qfMatch (s ++ '"' :: rest) = none := by
  match s with
  | [] =>
    simp only [List.nil_append]
    exact qfMatch_quote_sep hrest
  | c :: s' =>
    rw [List.cons_append]
    exact qfMatch_cons_ne (safeChar_ne (safeStr_mem hs (List.mem_cons_self _ _)) (by decide)) _

theorem qf_cons {c : Char} (hc : c ≠ '\\') {rest : List Char}
    (hm : qfMatch rest = none) : quoteFix (c :: rest) = c :: quoteFix rest := by
  rw [quoteFix]
  rw [if_neg hc, hm]

theorem qf_plain_through : ∀ (cs : List Char), (∀ c ∈ cs, c ≠ '"' ∧ c ≠ '\\') →
    ∀ {rest : List Char}, sepOK rest → quoteFix (cs ++ rest) = cs ++ quoteFix rest := by
  intro cs
  induction cs with
  | nil => intro _ rest _; simp
  | cons a cs ih =>
    intro h rest hrest
    have ha := h a (List.mem_cons_self _ _)
    have hm : qfMatch (cs ++ rest) = none := by
      cases cs with
      | nil =>
        simpa using qfMatch_sep hrest
      | cons b cs' =>
        have hb := h b (List.mem_cons_of_mem _ (List.mem_cons_self _ _))
        rw [List.cons_append]
        exact qfMatch_cons_ne hb.1 _
    rw [List.cons_append, qf_cons ha.2 hm,
      ih (fun x hx => h x (List.mem_cons_of_mem _ hx)) hrest, List.cons_append]

theorem qf_str_body : ∀ {s : List Char}, safeStr s = true → ∀ {rest : List Char},
    sepOK rest → quoteFix (s ++ '"' :: rest) = s ++ '"' :: quoteFix rest := by
  intro s
  induction s with
  | nil =>
    intro _ rest hrest
    simp only [List.nil_append]
    exact qf_cons (by decide) (qfMatch_sep hrest)
  | cons c s' ih =>
    intro hs rest hrest
    have hc : safeChar c = true := safeStr_mem hs (List.mem_cons_self _ _)
    have hm : qfMatch (s' ++ '"' :: rest) = none := qfMatch_strred (safeStr_tail hs) hrest
    rw [List.cons_append, qf_cons (safeChar_ne hc (by decide)) hm,
      ih (safeStr_tail hs) hrest, List.cons_append]

theorem intChars_shape (n : Int) : ∃ c t, intChars n = c :: t ∧ c ≠ '"' ∧ c ≠ '\\' := by
  unfold intChars
  split
  · exact ⟨'-', natChars n.natAbs, rfl, by decide, by decide⟩
  · obtain ⟨d, t, hdt, hd⟩ := natChars_shape n.toNat
    exact ⟨d, t, hdt, isDigitC_ne hd (by decide), isDigitC_ne hd (by decide)⟩

theorem intChars_mem {n : Int} : ∀ c ∈ intChars n, c ≠ '"' ∧ c ≠ '\\' := by
  intro c hc
  have hnat : ∀ {m : Nat}, c ∈ natChars m → c ≠ '"' ∧ c ≠ '\\' := by
    intro m hm
    have := (List.all_eq_true.mp (natChars_all m)) c hm
    exact ⟨isDigitC_ne this (by decide), isDigitC_ne this (by decide)⟩
  unfold intChars at hc
  split at hc
  · rcases List.mem_cons.mp hc with h | h
    · rw [h]
      exact ⟨by decide, by decide⟩
    · exact hnat h
  · exact hnat hc

theorem serializeElemsL_decomp (y : Json) (xs : List Json) :
    ∃ t2, serializeElemsL y xs = serializeL y ++ t2 ∧ (t2 = [] ∨ ∃ u, t2 = ',' :: u) := by
  match xs with
  | [] => exact ⟨[], by rw [serializeElemsL, List.append_nil], Or.inl rfl⟩
  | z :: zs =>
    exact ⟨',' :: serializeElemsL z zs, by rw [serializeElemsL], Or.inr ⟨_, rfl⟩⟩

theorem serializeMembersL_shape (k : List Char) (v : Json)
    (kvs : List (List Char × Json)) :
    ∃ t, serializeMembersL (k, v) kvs
        = '"' :: (jsonEscape k ++ '"' :: ':' :: (serializeL v ++ t))
      ∧ (t = [] ∨ ∃ u, t = ',' :: u) := by
  match kvs with
  | [] =>
    refine ⟨[], ?_, Or.inl rfl⟩
    rw [serializeMembersL, List.append_nil]
    rfl
  | kv2 :: kvs2 =>
    refine ⟨',' :: serializeMembersL kv2 kvs2, ?_, Or.inr ⟨_, rfl⟩⟩
    rw [serializeMembersL]
    simp

theorem serializeMembersL_head (kv : List Char × Json)
    (kvs : List (List Char × Json)) : ∃ t, serializeMembersL kv kvs = '"' :: t := by
  match kv, kvs with
  | (k, v), [] =>
    exact ⟨jsonEscape k ++ '"' :: ':' :: serializeL v, by rw [serializeMembersL]; rfl⟩
  | (k, v), kv2 :: kvs2 =>
    exact ⟨(jsonEscape k ++ '"' :: ':' :: serializeL v) ++ ',' :: serializeMembersL kv2 kvs2,
      by rw [serializeMembersL]; rfl⟩

theorem qfMatch_val : ∀ (v : Json), safeJson v = true → ∀ {rest : List Char},
    sepOK rest → qfMatch (serializeL v ++ rest) = none := by
  intro v hv rest hrest
  match v with
  | Json.null =>
    rw [show serializeL Json.null = ['n', 'u', 'l', 'l'] from by rw [serializeL],
      List.cons_append]
    exact qfMatch_cons_ne (by decide) _
  | Json.bool true =>
    rw [show serializeL (Json.bool true) = ['t', 'r', 'u', 'e'] from by rw [serializeL],
      List.cons_append]
    exact qfMatch_cons_ne (by decide) _
  | Json.bool false =>
    rw [show serializeL (Json.bool false) = ['f', 'a', 'l', 's', 'e'] from
        by rw [serializeL], List.cons_append]
    exact qfMatch_cons_ne (by decide) _
  | Json.num n =>
    obtain ⟨c, t, hct, hc, -⟩ := intChars_shape n
    rw [show serializeL (Json.num n) = intChars n from by rw [serializeL], hct,
      List.cons_append]
    exact qfMatch_cons_ne hc _
  | Json.str s =>
    have hs : safeStr s = true := by simpa [safeJson] using hv
    rw [show serializeL (Json.str s) = ('"' :: jsonEscape s) ++ ['"'] from
        by rw [serializeL], jsonEscape_safe hs]
    have hshape : (('"' :: s) ++ ['"']) ++ rest = '"' :: (s ++ '"' :: rest) := by simp
    rw [hshape]
    exact qfMatch_string hs hrest
  | Json.arr [] =>
    rw [show serializeL (Json.arr []) = ['[', ']'] from by rw [serializeL],
      List.cons_append]
    exact qfMatch_cons_ne (by decide) _
  | Json.arr (x :: xs) =>
    rw [show serializeL (Json.arr (x :: xs)) = ('[' :: serializeElemsL x xs) ++ [']'] from
        by rw [serializeL], List.cons_append, List.cons_append]
    exact qfMatch_cons_ne (by decide) _
  | Json.obj [] =>
    rw [show serializeL (Json.obj []) = ['\x7b', '\x7d'] from by rw [serializeL],
      List.cons_append]
    exact qfMatch_cons_ne (by decide) _
  | Json.obj (kv :: kvs) =>
    rw [show serializeL (Json.obj (kv :: kvs))
        = ('\x7b' :: serializeMembersL kv kvs) ++ ['\x7d'] from by rw [serializeL],
      List.cons_append, List.cons_append]
    exact qfMatch_cons_ne (by decide) _

theorem qfMatch_members : ∀ (kv : List Char × Json) (kvs : List (List Char × Json)),
    safeObj (kv :: kvs) = true → ∀ (X : List Char),
    qfMatch (serializeMembersL kv kvs ++ X) = none := by
  intro kv kvs hs X
  match kv with
  | (k, v) =>
    have hk : safeStr k = true := by
      simp only [safeObj, Bool.and_eq_true] at hs
      exact hs.1.1
    obtain ⟨t, ht, -⟩ := serializeMembersL_shape k v kvs
    rw [ht, jsonEscape_safe hk]
    have hshape : ('"' :: (k ++ '"' :: ':' :: (serializeL v ++ t))) ++ X
        = '"' :: (k ++ '"' :: (':' :: (serializeL v ++ t ++ X))) := by simp
    rw [hshape]
    exact qfMatch_string hk (sepOK_colon _)

mutual
theorem qf_through_v : ∀ (v : Json), safeJson v = true → ∀ {rest : List Char},
    sepOK rest → quoteFix (serializeL v ++ rest) = serializeL v ++ quoteFix rest
  | Json.null, _, rest, hrest => by
    rw [show serializeL Json.null = ['n', 'u', 'l', 'l'] from by rw [serializeL]]
    exact qf_plain_through _ (by decide) hrest
  | Json.bool true, _, rest, hrest => by
    rw [show serializeL (Json.bool true) = ['t', 'r', 'u', 'e'] from by rw [serializeL]]
    exact qf_plain_through _ (by decide) hrest
  | Json.bool false, _, rest, hrest => by
    rw [show serializeL (Json.bool false) = ['f', 'a', 'l', 's', 'e'] from
        by rw [serializeL]]
    exact qf_plain_through _ (by decide) hrest
  | Json.num n, _, rest, hrest => by
    rw [show serializeL (Json.num n) = intChars n from by rw [serializeL]]
    exact qf_plain_through _ intChars_mem hrest
  | Json.str s, hv, rest, hrest => by
    have hs : safeStr s = true := by simpa [safeJson] using hv
    rw [show serializeL (Json.str s) = ('"' :: jsonEscape s) ++ ['"'] from
        by rw [serializeL], jsonEscape_safe hs]
    have hshape : (('"' :: s) ++ ['"']) ++ rest = '"' :: (s ++ '"' :: rest) := by simp
    rw [hshape, qf_cons (by decide) (qfMatch_strred hs hrest), qf_str_body hs hrest]
    simp
  | Json.arr [], _, rest, hrest => by
    rw [show serializeL (Json.arr []) = ['[', ']'] from by rw [serializeL]]
    exact qf_plain_through _ (by decide) hrest
  | Json.arr (x :: xs), hv, rest, hrest => by
    have hsx : safeJson x = true ∧ safeArr xs = true := by
      have : safeArr (x :: xs) = true := by simpa [safeJson] using hv
      simpa [safeArr, Bool.and_eq_true] using this
    rw [show serializeL (Json.arr (x :: xs)) = ('[' :: serializeElemsL x xs) ++ [']'] from
        by rw [serializeL]]
    have hshape : (('[' :: serializeElemsL x xs) ++ [']']) ++ rest
        = '[' :: (serializeElemsL x xs ++ (']' :: rest)) := by simp
    rw [hshape]
    have hm : qfMatch (serializeElemsL x xs ++ (']' :: rest)) = none := by
      obtain ⟨t2, ht2, hcase⟩ := serializeElemsL_decomp x xs
      rw [ht2, List.append_assoc]
      refine qfMatch_val x hsx.1 ?_
      rcases hcase with h | ⟨u, h⟩
      · rw [h]
        simp only [List.nil_append]
        exact sepOK_rbracket _
      · rw [h, List.cons_append]
        exact sepOK_comma _
    rw [qf_cons (by decide) hm, qf_through_e x xs hsx.1 hsx.2 (sepOK_rbracket rest),
      qf_cons (by decide) (qfMatch_sep hrest)]
    simp
  | Json.obj [], _, rest, hrest => by
    rw [show serializeL (Json.obj []) = ['\x7b', '\x7d'] from by rw [serializeL]]
    exact qf_plain_through _ (by decide) hrest
  | Json.obj (kv :: kvs), hv, rest, hrest => by
    have hso : safeObj (kv :: kvs) = true := by simpa [safeJson] using hv
    rw [show serializeL (Json.obj (kv :: kvs))
        = ('\x7b' :: serializeMembersL kv kvs) ++ ['\x7d'] from by rw [serializeL]]
    have hshape : (('\x7b' :: serializeMembersL kv kvs) ++ ['\x7d']) ++ rest
        = '\x7b' :: (serializeMembersL kv kvs ++ ('\x7d' :: rest)) := by simp
    rw [hshape, qf_cons (by decide) (qfMatch_members kv kvs hso _),
      qf_through_m kv kvs hso (sepOK_rbrace rest),
      qf_cons (by decide) (qfMatch_sep hrest)]
    simp
termination_by v => sizeOf v

theorem qf_through_e : ∀ (x : Json) (xs : List Json), safeJson x = true →
    safeArr xs = true → ∀ {rest : List Char}, sepOK rest →
    quoteFix (serializeElemsL x xs ++ rest) = serializeElemsL x xs ++ quoteFix rest
  | x, [], hx, _, rest, hrest => by
    rw [show serializeElemsL x [] = serializeL x from by rw [serializeElemsL]]
    exact qf_through_v x hx hrest
  | x, y :: xs, hx, hys, rest, hrest => by
    have hsy : safeJson y = true ∧ safeArr xs = true := by
      simpa [safeArr, Bool.and_eq_true] using hys
    rw [show serializeElemsL x (y :: xs) = serializeL x ++ ',' :: serializeElemsL y xs from
        by rw [serializeElemsL]]
    have hshape : (serializeL x ++ ',' :: serializeElemsL y xs) ++ rest
        = serializeL x ++ (',' :: (serializeElemsL y xs ++ rest)) := by simp
    rw [hshape, qf_through_v x hx (sepOK_comma _)]
    have hm : qfMatch (serializeElemsL y xs ++ rest) = none := by
      obtain ⟨t2, ht2, hcase⟩ := serializeElemsL_decomp y xs
      rw [ht2, List.append_assoc]
      refine qfMatch_val y hsy.1 ?_
      rcases hcase with h | ⟨u, h⟩
      · rw [h]
        simp only [List.nil_append]
        exact hrest
      · rw [h, List.cons_append]
        exact sepOK_comma _
    rw [qf_cons (by decide) hm, qf_through_e y xs hsy.1 hsy.2 hrest]
    simp
termination_by x xs => 1 + sizeOf x + sizeOf xs

theorem qf_through_m : ∀ (kv : List Char × Json) (kvs : List (List Char × Json)),
    safeObj (kv :: kvs) = true → ∀ {rest : List Char}, sepOK rest →
    quoteFix (serializeMembersL kv kvs ++ rest) = serializeMembersL kv kvs ++ quoteFix rest
  | (k, v), [], hs, rest, hrest => by
    have hk : safeStr k = true := by
      simp only [safeObj, Bool.and_eq_true] at hs
      exact hs.1.1
    have hv : safeJson v = true := by
      simp only [safeObj, Bool.and_eq_true] at hs
      exact hs.1.2
    rw [show serializeMembersL (k, v) [] = '"' :: jsonEscape k ++ '"' :: ':' :: serializeL v
        from by rw [serializeMembersL], jsonEscape_safe hk]
    have hshape : ('"' :: k ++ '"' :: ':' :: serializeL v) ++ rest
        = '"' :: (k ++ '"' :: (':' :: (serializeL v ++ rest))) := by simp
    rw [hshape, qf_cons (by decide) (qfMatch_strred hk (sepOK_colon _)),
      qf_str_body hk (sepOK_colon _),
      qf_cons (by decide) (qfMatch_val v hv hrest), qf_through_v v hv hrest]
    simp
  | (k, v), kv2 :: kvs2, hs, rest, hrest => by
    have hk : safeStr k = true := by
      simp only [safeObj, Bool.and_eq_true] at hs
      exact hs.1.1
    have hv : safeJson v = true := by
      simp only [safeObj, Bool.and_eq_true] at hs
      exact hs.1.2
    have hs2 : safeObj (kv2 :: kvs2) = true := by
      simp only [safeObj, Bool.and_eq_true] at hs ⊢
      exact hs.2
    rw [show serializeMembersL (k, v) (kv2 :: kvs2)
        = ('"' :: jsonEscape k ++ '"' :: ':' :: serializeL v)
            ++ ',' :: serializeMembersL kv2 kvs2
        from by rw [serializeMembersL], jsonEscape_safe hk]
    have hshape : (('"' :: k ++ '"' :: ':' :: serializeL v)
          ++ ',' :: serializeMembersL kv2 kvs2) ++ rest
        = '"' :: (k ++ '"' :: (':' :: (serializeL v
            ++ (',' :: (serializeMembersL kv2 kvs2 ++ rest))))) := by
      simp
    rw [hshape, qf_cons (by decide) (qfMatch_strred hk (sepOK_colon _)),
      qf_str_body hk (sepOK_colon _),
      qf_cons (by decide) (qfMatch_val v hv (sepOK_comma _)),
      qf_through_v v hv (sepOK_comma _),
      qf_cons (by decide) (qfMatch_members kv2 kvs2 hs2 _),
      qf_through_m kv2 kvs2 hs2 hrest]
    simp
termination_by kv kvs => 1 + sizeOf kv + sizeOf kvs
end

/-! ### The brace scan spans exactly the serialized object -/

theorem scan_step_other {c : Char} (hbs : c ≠ '\\') (hq : c ≠ '"') (hob : c ≠ '\x7b')
    (hcb : c ≠ '\x7d') (rest : List Char) (depth : Nat) (inString : Bool) :
    scanBody (c :: rest) depth inString false
      = (scanBody rest depth inString false).map (c :: ·) := by
  simp only [scanBody, Bool.false_eq_true, if_false]
  simp [hbs, hq, hob, hcb]

theorem scan_step_quote (rest : List Char) (depth : Nat) (inString : Bool) :
    scanBody ('"' :: rest) depth inString false
      = (scanBody rest depth (!inString) false).map ('"' :: ·) := by
  simp only [scanBody, Bool.false_eq_true, if_false]
  simp

theorem scan_step_open (rest : List Char) (depth : Nat) :
    scanBody ('\x7b' :: rest) depth false false
      = (scanBody rest (depth + 1) false false).map ('\x7b' :: ·) := by
  simp only [scanBody, Bool.false_eq_true, if_false]
  simp

theorem scan_step_close (rest : List Char) (depth : Nat) :
    scanBody ('\x7d' :: rest) depth false false
      = if depth = 1 then some ['\x7d']
        else (scanBody rest (depth - 1) false false).map ('\x7d' :: ·) := by
  simp only [scanBody, Bool.false_eq_true, if_false]
  simp

theorem scan_step_instring {c : Char} (hbs : c ≠ '\\') (hq : c ≠ '"')
    (rest : List Char) (depth : Nat) :
    scanBody (c :: rest) depth true false
      = (scanBody rest depth true false).map (c :: ·) := by
  simp only [scanBody, Bool.false_eq_true, if_false]
  simp [hbs, hq]

theorem scan_neutral_through : ∀ (cs : List Char),
    (∀ c ∈ cs, c ≠ '"' ∧ c ≠ '\\' ∧ c ≠ '\x7b' ∧ c ≠ '\x7d') →
    ∀ (rest : List Char) (depth : Nat),
    scanBody (cs ++ rest) depth false false
      = (scanBody rest depth false false).map (cs ++ ·) := by
  intro cs
  induction cs with
  | nil =>
    intro _ rest depth
    simp only [List.nil_append]
    cases scanBody rest depth false false <;> simp
  | cons c cs ih =>
    intro h rest depth
    have hc := h c (List.mem_cons_self _ _)
    rw [List.cons_append, scan_step_other hc.2.1 hc.1 hc.2.2.1 hc.2.2.2,
      ih (fun x hx => h x (List.mem_cons_of_mem _ hx)) rest depth]
    cases scanBody rest depth false false <;> simp

theorem scan_instring_run : ∀ (s : List Char), safeStr s = true →
    ∀ (rest : List Char) (depth : Nat),
    scanBody (s ++ '"' :: rest) depth true false
      = (scanBody rest depth false false).map (fun t => s ++ '"' :: t) := by
  intro s
  induction s with
  | nil =>
    intro _ rest depth
    simp only [List.nil_append]
    rw [scan_step_quote rest depth true]
    simp only [Bool.not_true]
  | cons c s' ih =>
    intro hs rest depth
    have hc : safeChar c = true := safeStr_mem hs (List.mem_cons_self _ _)
    rw [List.cons_append,
      scan_step_instring (safeChar_ne hc (by decide)) (safeChar_ne hc (by decide)),
      ih (safeStr_tail hs) rest depth]
    cases scanBody rest depth false false <;> simp

theorem scan_string_through {s : List Char} (hs : safeStr s = true)
    (rest : List Char) (depth : Nat) :
    scanBody (('"' :: s) ++ '"' :: rest) depth false false
      = (scanBody rest depth false false).map (fun t => ('"' :: s) ++ '"' :: t) := by
  rw [List.cons_append, scan_step_quote, Bool.not_false, scan_instring_run s hs rest depth]
  cases scanBody rest depth false false <;> simp

theorem intChars_mem2 {n : Int} : ∀ c ∈ intChars n,
    c ≠ '"' ∧ c ≠ '\\' ∧ c ≠ '\x7b' ∧ c ≠ '\x7d' := by
  intro c hc
  have hnat : ∀ {m : Nat}, c ∈ natChars m →
      c ≠ '"' ∧ c ≠ '\\' ∧ c ≠ '\x7b' ∧ c ≠ '\x7d' := by
    intro m hm
    have := (List.all_eq_true.mp (natChars_all m)) c hm
    exact ⟨isDigitC_ne this (by decide), isDigitC_ne this (by decide),
      isDigitC_ne this (by decide), isDigitC_ne this (by decide)⟩
  unfold intChars at hc
  split at hc
  · rcases List.mem_cons.mp hc with h | h
    · rw [h]
      refine ⟨by decide, by decide, by decide, by decide⟩
    · exact hnat h
  · exact hnat hc

mutual
theorem scan_through_v : ∀ (v : Json), safeJson v = true → ∀ (rest : List Char)
    (depth : Nat), 1 ≤ depth →
    scanBody (serTC v ++ rest) depth false false
      = (scanBody rest depth false false).map (serTC v ++ ·)
  | Json.null, _, rest, depth, _ => by
    rw [show serTC Json.null = ['n', 'u', 'l', 'l'] from by rw [serTC]]
    exact scan_neutral_through _ (by decide) rest depth
  | Json.bool true, _, rest, depth, _ => by
    rw [show serTC (Json.bool true) = ['t', 'r', 'u', 'e'] from by rw [serTC]]
    exact scan_neutral_through _ (by decide) rest depth
  | Json.bool false, _, rest, depth, _ => by
    rw [show serTC (Json.bool false) = ['f', 'a', 'l', 's', 'e'] from by rw [serTC]]
    exact scan_neutral_through _ (by decide) rest depth
  | Json.num n, _, rest, depth, _ => by
    rw [show serTC (Json.num n) = intChars n from by rw [serTC]]
    exact scan_neutral_through _ intChars_mem2 rest depth
  | Json.str s, hv, rest, depth, _ => by
    have hs : safeStr s = true := by simpa [safeJson] using hv
    rw [show serTC (Json.str s) = ('"' :: jsonEscape s) ++ ['"'] from by rw [serTC],
      jsonEscape_safe hs]
    have hshape : ((('"' :: s) ++ ['"']) ++ rest) = ('"' :: s) ++ '"' :: rest := by simp
    rw [hshape, scan_string_through hs rest depth]
    cases scanBody rest depth false false <;> simp
  | Json.arr [], _, rest, depth, _ => by
    rw [show serTC (Json.arr []) = ['[', ']'] from by rw [serTC]]
    exact scan_neutral_through _ (by decide) rest depth
  | Json.arr (x :: xs), hv, rest, depth, hd => by
    have hsx : safeJson x = true ∧ safeArr xs = true := by
      have : safeArr (x :: xs) = true := by simpa [safeJson] using hv
      simpa [safeArr, Bool.and_eq_true] using this
    rw [show serTC (Json.arr (x :: xs)) = ('[' :: serTCElemsL x xs) ++ [',', ']'] from
        by rw [serTC]]
    have hshape : ((('[' :: serTCElemsL x xs) ++ [',', ']']) ++ rest)
        = '[' :: (serTCElemsL x xs ++ (',' :: ']' :: rest)) := by simp
    rw [hshape, scan_step_other (by decide) (by decide) (by decide) (by decide),
      scan_through_e x xs hsx.1 hsx.2 _ depth hd,
      scan_step_other (by decide) (by decide) (by decide) (by decide),
      scan_step_other (by decide) (by decide) (by decide) (by decide)]
    cases scanBody rest depth false false <;> simp
  | Json.obj [], _, rest, depth, hd => by
    rw [show serTC (Json.obj []) = ['\x7b', '\x7d'] from by rw [serTC]]
    have hshape : (['\x7b', '\x7d'] ++ rest) = '\x7b' :: ('\x7d' :: rest) := by simp
    rw [hshape, scan_step_open, scan_step_close,
      if_neg (by omega), Nat.add_sub_cancel]
    cases scanBody rest depth false false <;> simp
  | Json.obj (kv :: kvs), hv, rest, depth, hd => by
    have hso : safeObj (kv :: kvs) = true := by simpa [safeJson] using hv
    rw [show serTC (Json.obj (kv :: kvs))
        = ('\x7b' :: serTCMembersL kv kvs) ++ [',', '\x7d'] from by rw [serTC]]
    have hshape : ((('\x7b' :: serTCMembersL kv kvs) ++ [',', '\x7d']) ++ rest)
        = '\x7b' :: (serTCMembersL kv kvs ++ (',' :: '\x7d' :: rest)) := by simp
    rw [hshape, scan_step_open,
      scan_through_m kv kvs hso _ (depth + 1) (by omega),
      scan_step_other (by decide) (by decide) (by decide) (by decide),
      scan_step_close, if_neg (by omega), Nat.add_sub_cancel]
    cases scanBody rest depth false false <;> simp
termination_by v => sizeOf v

theorem scan_through_e : ∀ (x : Json) (xs : List Json), safeJson x = true →
    safeArr xs = true → ∀ (rest : List Char) (depth : Nat), 1 ≤ depth →
    scanBody (serTCElemsL x xs ++ rest) depth false false
      = (scanBody rest depth false false).map (serTCElemsL x xs ++ ·)
  | x, [], hx, _, rest, depth, hd => by
    rw [show serTCElemsL x [] = serTC x from by rw [serTCElemsL]]
    exact scan_through_v x hx rest depth hd
  | x, y :: xs, hx, hys, rest, depth, hd => by
    have hsy : safeJson y = true ∧ safeArr xs = true := by
      simpa [safeArr, Bool.and_eq_true] using hys
    rw [show serTCElemsL x (y :: xs) = serTC x ++ ',' :: serTCElemsL y xs from
        by rw [serTCElemsL]]
    have hshape : ((serTC x ++ ',' :: serTCElemsL y xs) ++ rest)
        = serTC x ++ (',' :: (serTCElemsL y xs ++ rest)) := by simp
    rw [hshape, scan_through_v x hx _ depth hd,
      scan_step_other (by decide) (by decide) (by decide) (by decide),
      scan_through_e y xs hsy.1 hsy.2 rest depth hd]
    cases scanBody rest depth false false <;> simp
termination_by x xs => 1 + sizeOf x + sizeOf xs

theorem scan_through_m : ∀ (kv : List Char × Json) (kvs : List (List Char × Json)),
    safeObj (kv :: kvs) = true → ∀ (rest : List Char) (depth : Nat), 1 ≤ depth →
    scanBody (serTCMembersL kv kvs ++ rest) depth false false
      = (scanBody rest depth false false).map (serTCMembersL kv kvs ++ ·)
  | (k, v), [], hs, rest, depth, hd => by
    have hk : safeStr k = true := by
      simp only [safeObj, Bool.and_eq_true] at hs
      exact hs.1.1
    have hv : safeJson v = true := by
      simp only [safeObj, Bool.and_eq_true] at hs
      exact hs.1.2
    rw [show serTCMembersL (k, v) [] = '"' :: jsonEscape k ++ '"' :: ':' :: serTC v
        from by rw [serTCMembersL], jsonEscape_safe hk]
    have hshape : (('"' :: k ++ '"' :: ':' :: serTC v) ++ rest)
        = ('"' :: k) ++ '"' :: (':' :: (serTC v ++ rest)) := by simp
    rw [hshape, scan_string_through hk _ depth,
      scan_step_other (by decide) (by decide) (by decide) (by decide),
      scan_through_v v hv rest depth hd]
    cases scanBody rest depth false false <;> simp
  | (k, v), kv2 :: kvs2, hs, rest, depth, hd => by
    have hk : safeStr k = true := by
      simp only [safeObj, Bool.and_eq_true] at hs
      exact hs.1.1
    have hv : safeJson v = true := by
      simp only [safeObj, Bool.and_eq_true] at hs
      exact hs.1.2
    have hs2 : safeObj (kv2 :: kvs2) = true := by
      simp only [safeObj, Bool.and_eq_true] at hs ⊢
      exact hs.2
    rw [show serTCMembersL (k, v) (kv2 :: kvs2)
        = ('"' :: jsonEscape k ++ '"' :: ':' :: serTC v) ++ ',' :: serTCMembersL kv2 kvs2
        from by rw [serTCMembersL], jsonEscape_safe hk]
    have hshape : ((('"' :: k ++ '"' :: ':' :: serTC v) ++ ',' :: serTCMembersL kv2 kvs2)
          ++ rest)
        = ('"' :: k) ++ '"' :: (':' :: (serTC v
            ++ (',' :: (serTCMembersL kv2 kvs2 ++ rest)))) := by simp
    rw [hshape, scan_string_through hk _ depth,
      scan_step_other (by decide) (by decide) (by decide) (by decide),
      scan_through_v v hv _ depth hd,
      scan_step_other (by decide) (by decide) (by decide) (by decide),
      scan_through_m kv2 kvs2 hs2 rest depth hd]
    cases scanBody rest depth false false <;> simp
termination_by kv kvs => 1 + sizeOf kv + sizeOf kvs
end

/-- The brace scan started on a serialized safe object consumes exactly the
serialized object. -/
theorem scanBody_serTC_obj (kvs : List (List Char × Json))
    (hs : safeJson (Json.obj kvs) = true) :
    scanBody (serTC (Json.obj kvs)) 0 false false = some (serTC (Json.obj kvs)) := by
  match kvs with
  | [] =>
    rw [show serTC (Json.obj []) = ['\x7b', '\x7d'] from by rw [serTC]]
    rw [show (['\x7b', '\x7d'] : List Char) = '\x7b' :: ('\x7d' :: []) from rfl]
    rw [scan_step_open, scan_step_close, if_pos rfl]
    rfl
  | kv :: kvs2 =>
    have hso : safeObj (kv :: kvs2) = true := by simpa [safeJson] using hs
    rw [show serTC (Json.obj (kv :: kvs2))
        = ('\x7b' :: serTCMembersL kv kvs2) ++ [',', '\x7d'] from by rw [serTC]]
    have hshape : (('\x7b' :: serTCMembersL kv kvs2) ++ [',', '\x7d'])
        = '\x7b' :: (serTCMembersL kv kvs2 ++ (',' :: '\x7d' :: [])) := by simp
    rw [hshape, scan_step_open, scan_through_m kv kvs2 hso _ 1 (by omega),
      scan_step_other (by decide) (by decide) (by decide) (by decide),
      scan_step_close, if_pos rfl]
    simp

/-! ### Parser roundtrip: strings and numbers -/

theorem safeChar_ge32 {c : Char} (hc : safeChar c = true) : 32 ≤ c.toNat := by
  simp only [safeChar, Bool.or_eq_true, Bool.and_eq_true, decide_eq_true_eq,
    or_assoc] at hc
  rcases hc with ⟨h1, h2⟩ | ⟨h1, h2⟩ | ⟨h1, h2⟩ | h1
  · omega
  · omega
  · omega
  · rw [h1]
    decide

theorem parseStringBody_safe : ∀ {s : List Char}, safeStr s = true →
    ∀ (rest : List Char), parseStringBody (s ++ '"' :: rest) = some (s, rest) := by
  intro s
  induction s with
  | nil =>
    intro _ rest
    simp only [List.nil_append]
    rw [parseStringBody.eq_def]
    simp
  | cons c s' ih =>
    intro hs rest
    have hc : safeChar c = true := safeStr_mem hs (List.mem_cons_self _ _)
    rw [List.cons_append]
    rw [parseStringBody.eq_def]
    simp only []
    rw [if_neg (safeChar_ne hc (by decide)), if_neg (safeChar_ne hc (by decide)),
      if_neg (by have := safeChar_ge32 hc; omega), ih (safeStr_tail hs) rest]
    rfl

theorem takeWhile_all {p : Char → Bool} : ∀ {l : List Char}, (∀ x ∈ l, p x = true) →
    l.takeWhile p = l := by
  intro l
  induction l with
  | nil => intro _; rfl
  | cons c t ih =>
    intro h
    rw [List.takeWhile_cons_of_pos (h c (List.mem_cons_self _ _)),
      ih (fun x hx => h x (List.mem_cons_of_mem _ hx))]

theorem natDigitsGo_append : ∀ (n : Nat) (acc : List Char),
    natDigitsGo n acc = natDigitsGo n [] ++ acc := by
  intro n
  induction n using Nat.strong_induction_on with
  | _ n ih =>
    intro acc
    match n with
    | 0 => simp [natDigitsGo]
    | m + 1 =>
      rw [natDigitsGo, ih ((m + 1) / 10) (Nat.div_lt_self (Nat.succ_pos m) (by decide)),
        show natDigitsGo (m + 1) [] = natDigitsGo ((m + 1) / 10) [digitChar ((m + 1) % 10)]
          from by rw [natDigitsGo],
        ih ((m + 1) / 10) (Nat.div_lt_self (Nat.succ_pos m) (by decide))
          [digitChar ((m + 1) % 10)]]
      simp

theorem digitChar_toNat {d : Nat} (hd : d < 10) : (digitChar d).toNat = 48 + d := by
  interval_cases d <;> decide

theorem digsToNat_append (ds : List Char) (d : Char) :
    digsToNat (ds ++ [d]) = digsToNat ds * 10 + (d.toNat - 48) := by
  simp [digsToNat, List.foldl_append]

theorem digsToNat_natDigitsGo : ∀ (n : Nat), digsToNat (natDigitsGo n []) = n := by
  intro n
  induction n using Nat.strong_induction_on with
  | _ n ih =>
    match n with
    | 0 =>
      rw [show natDigitsGo 0 [] = [] from by rw [natDigitsGo]]
      rfl
    | m + 1 =>
      rw [show natDigitsGo (m + 1) [] = natDigitsGo ((m + 1) / 10) [digitChar ((m + 1) % 10)]
          from by rw [natDigitsGo],
        natDigitsGo_append,
        show [digitChar ((m + 1) % 10)] = [] ++ [digitChar ((m + 1) % 10)] from rfl,
        ← List.append_assoc, List.append_nil,
        digsToNat_append, ih ((m + 1) / 10) (Nat.div_lt_self (Nat.succ_pos m) (by decide)),
        digitChar_toNat (Nat.mod_lt _ (by decide))]
      omega

theorem digsToNat_natChars (m : Nat) : digsToNat (natChars m) = m := by
  unfold natChars
  split
  · rename_i h
    rw [h]
    rfl
  · exact digsToNat_natDigitsGo m

theorem parseNatNum_natChars (m : Nat) : ∀ {rest : List Char}, sepOK rest →
    parseNatNum (natChars m ++ rest) = some (m, rest) := by
  intro rest hrest
  obtain ⟨d0, t0, hshape, hd0⟩ := natChars_shape m
  have hall : ∀ x ∈ natChars m, isDigitC x = true := List.all_eq_true.mp (natChars_all m)
  have htake : (natChars m ++ rest).takeWhile isDigitC = natChars m := by
    match rest, hrest with
    | [], _ =>
      rw [List.append_nil]
      exact takeWhile_all hall
    | c :: t, h =>
      have hc : isDigitC c = false := by rcases h with h | h | h | h <;> rw [h] <;> decide
      exact takeWhile_all_append hall hc t
  have hdrop : (natChars m ++ rest).drop (natChars m).length = rest := List.drop_left _ _
  have hne : (natChars m).isEmpty = false := by
    rw [hshape]
    rfl
  simp only [parseNatNum, htake, hdrop, hne, Bool.false_eq_true, if_false]
  match rest, hrest with
  | [], _ =>
    simp only []
    rw [digsToNat_natChars]
  | c :: t, h =>
    have hcond : (decide (c = '.') || decide (c = 'e') || decide (c = 'E')) = false := by
      rcases h with h | h | h | h <;> rw [h] <;> decide
    simp only []
    rw [hcond]
    simp only [Bool.false_eq_true, if_false, digsToNat_natChars]

theorem parseNumber_int (n : Int) : ∀ {rest : List Char}, sepOK rest →
    parseNumber (intChars n ++ rest) = some (Json.num n, rest) := by
  intro rest hrest
  unfold intChars
  split
  · rename_i hn
    rw [List.cons_append]
    simp only [parseNumber]
    rw [parseNatNum_natChars n.natAbs hrest]
    simp only [Option.map_some']
    have : -((n.natAbs : Nat) : Int) = n := by omega
    rw [this]
  · rename_i hn
    obtain ⟨d0, t0, hshape, hd0⟩ := natChars_shape n.toNat
    unfold parseNumber
    split
    · rename_i rest2 heq
      rw [hshape, List.cons_append] at heq
      injection heq with h1 h2
      exact absurd h1 (isDigitC_ne hd0 (show isDigitC '-' = false by decide))
    · rw [parseNatNum_natChars n.toNat hrest]
      simp only [Option.map_some']
      have : ((n.toNat : Nat) : Int) = n := by omega
      rw [this]

theorem isDigitC_not_jsonWs {d : Char} (hd : isDigitC d = true) : isJsonWs d = false := by
  by_contra hw
  rw [Bool.not_eq_false] at hw
  have hor : d = ' ' ∨ d = '\t' ∨ d = '\n' ∨ d = '\x0d' := by
    simpa [isJsonWs, or_assoc] using hw
  rcases hor with h | h | h | h <;> rw [h] at hd <;> exact Bool.noConfusion hd

/-- Every serialized value starts with a character that is not JSON whitespace
and not a closing bracket. -/
theorem serializeL_head (v : Json) : ∃ c t, serializeL v = c :: t ∧ isJsonWs c = false
    ∧ c ≠ '\x7d' ∧ c ≠ ']' := by
  match v with
  | Json.null => exact ⟨'n', _, by rw [serializeL], by decide, by decide, by decide⟩
  | Json.bool true => exact ⟨'t', _, by rw [serializeL], by decide, by decide, by decide⟩
  | Json.bool false => exact ⟨'f', _, by rw [serializeL], by decide, by decide, by decide⟩
  | Json.num n =>
    rw [show serializeL (Json.num n) = intChars n from by rw [serializeL]]
    unfold intChars
    split
    · exact ⟨'-', _, rfl, by decide, by decide, by decide⟩
    · obtain ⟨d, t, hdt, hd⟩ := natChars_shape n.toNat
      exact ⟨d, t, hdt, isDigitC_not_jsonWs hd, (isDigitC_facts hd).2.1,
        (isDigitC_facts hd).2.2.1⟩
  | Json.str s =>
    exact ⟨'"', jsonEscape s ++ ['"'], by rw [serializeL, List.cons_append], by decide,
      by decide, by decide⟩
  | Json.arr [] => exact ⟨'[', [']'], by rw [serializeL], by decide, by decide, by decide⟩
  | Json.arr (x :: xs) =>
    exact ⟨'[', serializeElemsL x xs ++ [']'], by rw [serializeL, List.cons_append],
      by decide, by decide, by decide⟩
  | Json.obj [] =>
    exact ⟨'\x7b', ['\x7d'], by rw [serializeL], by decide, by decide, by decide⟩
  | Json.obj (kv :: kvs) =>
    exact ⟨'\x7b', serializeMembersL kv kvs ++ ['\x7d'],
      by rw [serializeL, List.cons_append], by decide, by decide, by decide⟩

/-! ### Parser roundtrip: values, members, elements (fuel induction) -/

theorem skipJsonWs_cons {c : Char} (hc : isJsonWs c = false) (t : List Char) :
    skipJsonWs (c :: t) = c :: t := by
  unfold skipJsonWs
  exact List.dropWhile_cons_of_neg (by rw [hc]; exact Bool.noConfusion)

theorem skipJsonWs_quote (t : List Char) : skipJsonWs ('"' :: t) = '"' :: t :=
  skipJsonWs_cons (by decide) t

theorem intChars_head (n : Int) : ∃ c t, intChars n = c :: t ∧ isJsonWs c = false
    ∧ c ≠ 'n' ∧ c ≠ 't' ∧ c ≠ 'f' ∧ c ≠ '"' ∧ c ≠ '\x7b' ∧ c ≠ '[' := by
  unfold intChars
  split
  · exact ⟨'-', natChars n.natAbs, rfl, by decide, by decide, by decide, by decide,
      by decide, by decide, by decide⟩
  · obtain ⟨d, t, hdt, hd⟩ := natChars_shape n.toNat
    exact ⟨d, t, hdt, isDigitC_not_jsonWs hd, isDigitC_ne hd (by decide),
      isDigitC_ne hd (by decide), isDigitC_ne hd (by decide), isDigitC_ne hd (by decide),
      isDigitC_ne hd (by decide), isDigitC_ne hd (by decide)⟩

theorem parse_roundtrip : ∀ (f : Nat),
    (∀ (v : Json), safeJson v = true → ∀ (rest : List Char), sepOK rest →
      (serializeL v).length < f → parseValue f (serializeL v ++ rest) = some (v, rest))
    ∧ (∀ (kv : List Char × Json) (kvs : List (List Char × Json)),
        safeObj (kv :: kvs) = true → ∀ (rest : List Char),
        (serializeMembersL kv kvs).length + 1 < f →
        parseMembers f (serializeMembersL kv kvs ++ '\x7d' :: rest)
          = some (kv :: kvs, rest))
    ∧ (∀ (x : Json) (xs : List Json), safeJson x = true → safeArr xs = true →
        ∀ (rest : List Char), (serializeElemsL x xs).length + 1 < f →
        parseElements f (serializeElemsL x xs ++ ']' :: rest) = some (x :: xs, rest)) := by
  intro f
  induction f with
  | zero =>
    refine ⟨?_, ?_, ?_⟩
    · intro v _ rest _ hlen
      omega
    · intro kv kvs _ rest hlen
      omega
    · intro x xs _ _ rest hlen
      omega
  | succ f ih =>
    obtain ⟨pv, pm, pe⟩ := ih
    refine ⟨?_, ?_, ?_⟩
    · intro v hs rest hsep hlen
      cases v with
      | null =>
        rw [show serializeL Json.null = ['n', 'u', 'l', 'l'] from by rw [serializeL]]
        simp only [List.cons_append, List.nil_append]
        simp only [parseValue]
        rw [skipJsonWs_cons (by decide)]
        simp only []
        rw [if_pos trivial]
        have hpre : (['u', 'l', 'l'] : List Char).isPrefixOf ('u' :: 'l' :: 'l' :: rest)
            = true := by
          simp [List.isPrefixOf]
        rw [if_pos hpre]
        simp
      | bool b =>
        cases b with
        | true =>
          rw [show serializeL (Json.bool true) = ['t', 'r', 'u', 'e'] from
              by rw [serializeL]]
          simp only [List.cons_append, List.nil_append]
          simp only [parseValue]
          rw [skipJsonWs_cons (by decide)]
          simp only []
          rw [if_neg (by decide), if_pos trivial]
          have hpre : (['r', 'u', 'e'] : List Char).isPrefixOf ('r' :: 'u' :: 'e' :: rest)
              = true := by
            simp [List.isPrefixOf]
          rw [if_pos hpre]
          simp
        | false =>
          rw [show serializeL (Json.bool false) = ['f', 'a', 'l', 's', 'e'] from
              by rw [serializeL]]
          simp only [List.cons_append, List.nil_append]
          simp only [parseValue]
          rw [skipJsonWs_cons (by decide)]
          simp only []
          rw [if_neg (by decide), if_neg (by decide), if_pos trivial]
          have hpre : (['a', 'l', 's', 'e'] : List Char).isPrefixOf
              ('a' :: 'l' :: 's' :: 'e' :: rest) = true := by
            simp [List.isPrefixOf]
          rw [if_pos hpre]
          simp
      | num n =>
        rw [show serializeL (Json.num n) = intChars n from by rw [serializeL]]
        obtain ⟨c0, t0, hct, hws, h1, h2, h3, h4, h5, h6⟩ := intChars_head n
        rw [hct, List.cons_append]
        simp only [parseValue]
        rw [skipJsonWs_cons hws]
        simp only []
        rw [if_neg h1, if_neg h2, if_neg h3, if_neg h4, if_neg h5, if_neg h6,
          ← List.cons_append, ← hct]
        exact parseNumber_int n hsep
      | str s =>
        have hs2 : safeStr s = true := by simpa [safeJson] using hs
        have hshape : serializeL (Json.str s) ++ rest = '"' :: (s ++ '"' :: rest) := by
          rw [show serializeL (Json.str s) = ('"' :: jsonEscape s) ++ ['"'] from
              by rw [serializeL], jsonEscape_safe hs2]
          simp
        rw [hshape]
        simp only [parseValue]
        rw [skipJsonWs_quote]
        simp only []
        rw [if_neg (by decide), if_neg (by decide), if_neg (by decide), if_pos trivial,
          parseStringBody_safe hs2]
      | arr xs =>
        cases xs with
        | nil =>
          rw [show serializeL (Json.arr []) = ['[', ']'] from by rw [serializeL]]
          simp only [List.cons_append, List.nil_append]
          simp only [parseValue]
          rw [skipJsonWs_cons (by decide)]
          simp only []
          rw [if_neg (by decide), if_neg (by decide), if_neg (by decide),
            if_neg (by decide), if_neg (by decide), if_pos trivial,
            skipJsonWs_cons (by decide)]
          rfl
        | cons x xs' =>
          have hsx : safeJson x = true ∧ safeArr xs' = true := by
            have : safeArr (x :: xs') = true := by simpa [safeJson] using hs
            simpa [safeArr, Bool.and_eq_true] using this
          have hshape : serializeL (Json.arr (x :: xs')) ++ rest
              = '[' :: (serializeElemsL x xs' ++ ']' :: rest) := by
            rw [show serializeL (Json.arr (x :: xs'))
                = ('[' :: serializeElemsL x xs') ++ [']'] from by rw [serializeL]]
            simp
          have e1 : (serializeL (Json.arr (x :: xs'))).length
              = (serializeElemsL x xs').length + 2 := by
            rw [show serializeL (Json.arr (x :: xs'))
                = ('[' :: serializeElemsL x xs') ++ [']'] from by rw [serializeL]]
            simp
          have hfuel : (serializeElemsL x xs').length + 1 < f := by omega
          obtain ⟨t2, ht2, -⟩ := serializeElemsL_decomp x xs'
          obtain ⟨c0, t0c, hct, hws0, hne1, hne2⟩ := serializeL_head x
          have hskE : skipJsonWs (serializeElemsL x xs' ++ ']' :: rest)
              = serializeElemsL x xs' ++ ']' :: rest := by
            rw [ht2, hct]
            simp only [List.cons_append, List.append_assoc]
            exact skipJsonWs_cons hws0 _
          rw [hshape]
          simp only [parseValue]
          rw [skipJsonWs_cons (by decide)]
          simp only []
          rw [if_neg (by decide), if_neg (by decide), if_neg (by decide),
            if_neg (by decide), if_neg (by decide), if_pos trivial, hskE]
          split
          · rename_i rest2 heq
            rw [ht2, hct] at heq
            simp only [List.cons_append, List.append_assoc] at heq
            injection heq with hh _
            exact absurd hh hne2
          · rw [pe x xs' hsx.1 hsx.2 rest hfuel]
      | obj kvs =>
        cases kvs with
        | nil =>
          have hshape : serializeL (Json.obj []) ++ rest = '\x7b' :: ('\x7d' :: rest) := by
            rw [show serializeL (Json.obj []) = ['\x7b', '\x7d'] from by rw [serializeL]]
            simp
          rw [hshape]
          simp only [parseValue]
          rw [skipJsonWs_cons (by decide)]
          simp only []
          rw [if_neg (by decide), if_neg (by decide), if_neg (by decide),
            if_neg (by decide), if_pos trivial, skipJsonWs_cons (by decide)]
          rfl
        | cons kv kvs' =>
          have hso : safeObj (kv :: kvs') = true := by simpa [safeJson] using hs
          have hshape : serializeL (Json.obj (kv :: kvs')) ++ rest
              = '\x7b' :: (serializeMembersL kv kvs' ++ '\x7d' :: rest) := by
            rw [show serializeL (Json.obj (kv :: kvs'))
                = ('\x7b' :: serializeMembersL kv kvs') ++ ['\x7d'] from by rw [serializeL]]
            simp
          have e1 : (serializeL (Json.obj (kv :: kvs'))).length
              = (serializeMembersL kv kvs').length + 2 := by
            rw [show serializeL (Json.obj (kv :: kvs'))
                = ('\x7b' :: serializeMembersL kv kvs') ++ ['\x7d'] from by rw [serializeL]]
            simp
          have hfuel : (serializeMembersL kv kvs').length + 1 < f := by omega
          obtain ⟨T, hT⟩ := serializeMembersL_head kv kvs'
          have hskM : skipJsonWs (serializeMembersL kv kvs' ++ '\x7d' :: rest)
              = serializeMembersL kv kvs' ++ '\x7d' :: rest := by
            rw [hT, List.cons_append]
            exact skipJsonWs_quote _
          rw [hshape]
          simp only [parseValue]
          rw [skipJsonWs_cons (by decide)]
          simp only []
          rw [if_neg (by decide), if_neg (by decide), if_neg (by decide),
            if_neg (by decide), if_pos trivial, hskM]
          split
          · rename_i rest2 heq
            rw [hT, List.cons_append] at heq
            injection heq with hh _
            exact absurd hh (by decide)
          · rw [pm kv kvs' hso rest hfuel]
    · intro kv kvs hso rest hfuel
      obtain ⟨k, v⟩ := kv
      have hk : safeStr k = true := by
        simp only [safeObj, Bool.and_eq_true] at hso
        exact hso.1.1
      have hv : safeJson v = true := by
        simp only [safeObj, Bool.and_eq_true] at hso
        exact hso.1.2
      cases kvs with
      | nil =>
        have hshape : serializeMembersL (k, v) [] ++ '\x7d' :: rest
            = '"' :: (k ++ '"' :: (':' :: (serializeL v ++ '\x7d' :: rest))) := by
          rw [show serializeMembersL (k, v) []
              = '"' :: jsonEscape k ++ '"' :: ':' :: serializeL v
              from by rw [serializeMembersL], jsonEscape_safe hk]
          simp
        rw [show serializeMembersL (k, v) []
            = '"' :: jsonEscape k ++ '"' :: ':' :: serializeL v
            from by rw [serializeMembersL]] at hfuel
        simp only [List.length_cons, List.length_append] at hfuel
        have hfuel2 : (serializeL v).length < f := by omega
        rw [hshape]
        simp only [parseMembers]
        rw [skipJsonWs_quote]
        simp only []
        rw [parseStringBody_safe hk]
        simp only []
        rw [skipJsonWs_cons (by decide)]
        simp only []
        rw [pv v hv ('\x7d' :: rest) (sepOK_rbrace rest) hfuel2]
        simp only []
        rw [skipJsonWs_cons (by decide)]
        rfl
      | cons kv2 kvs2 =>
        have hs2 : safeObj (kv2 :: kvs2) = true := by
          simp only [safeObj, Bool.and_eq_true] at hso ⊢
          exact hso.2
        have hshape : serializeMembersL (k, v) (kv2 :: kvs2) ++ '\x7d' :: rest
            = '"' :: (k ++ '"' :: (':' :: (serializeL v
                ++ ',' :: (serializeMembersL kv2 kvs2 ++ '\x7d' :: rest)))) := by
          rw [show serializeMembersL (k, v) (kv2 :: kvs2)
              = ('"' :: jsonEscape k ++ '"' :: ':' :: serializeL v)
                  ++ ',' :: serializeMembersL kv2 kvs2
              from by rw [serializeMembersL], jsonEscape_safe hk]
          simp
        rw [show serializeMembersL (k, v) (kv2 :: kvs2)
            = ('"' :: jsonEscape k ++ '"' :: ':' :: serializeL v)
                ++ ',' :: serializeMembersL kv2 kvs2
            from by rw [serializeMembersL]] at hfuel
        simp only [List.length_cons, List.length_append] at hfuel
        have hfuel2 : (serializeL v).length < f := by omega
        have hfuel3 : (serializeMembersL kv2 kvs2).length + 1 < f := by omega
        rw [hshape]
        simp only [parseMembers]
        rw [skipJsonWs_quote]
        simp only []
        rw [parseStringBody_safe hk]
        simp only []
        rw [skipJsonWs_cons (by decide)]
        simp only []
        rw [pv v hv (',' :: (serializeMembersL kv2 kvs2 ++ '\x7d' :: rest))
          (sepOK_comma _) hfuel2]
        simp only []
        rw [skipJsonWs_cons (by decide)]
        simp only []
        rw [pm kv2 kvs2 hs2 rest hfuel3]
    · intro x xs hx hxs rest hfuel
      cases xs with
      | nil =>
        rw [show serializeElemsL x [] = serializeL x from by rw [serializeElemsL]] at hfuel ⊢
        have hfuel2 : (serializeL x).length < f := by omega
        simp only [parseElements]
        rw [pv x hx (']' :: rest) (sepOK_rbracket rest) hfuel2]
        simp only []
        rw [skipJsonWs_cons (by decide)]
        rfl
      | cons y xs' =>
        have hsy : safeJson y = true ∧ safeArr xs' = true := by
          simpa [safeArr, Bool.and_eq_true] using hxs
        rw [show serializeElemsL x (y :: xs') = serializeL x ++ ',' :: serializeElemsL y xs'
            from by rw [serializeElemsL]] at hfuel ⊢
        simp only [List.length_cons, List.length_append] at hfuel
        have hfuel2 : (serializeL x).length < f := by omega
        have hfuel3 : (serializeElemsL y xs').length + 1 < f := by omega
        have hshape : (serializeL x ++ ',' :: serializeElemsL y xs') ++ ']' :: rest
            = serializeL x ++ (',' :: (serializeElemsL y xs' ++ ']' :: rest)) := by
          simp
        rw [hshape]
        simp only [parseElements]
        rw [pv x hx (',' :: (serializeElemsL y xs' ++ ']' :: rest)) (sepOK_comma _) hfuel2]
        simp only []
        rw [skipJsonWs_cons (by decide)]
        simp only []
        rw [pe y xs' hsy.1 hsy.2 rest hfuel3]

/-! ### Serialized safe values contain no backtick -/

theorem intChars_no_tick {n : Int} : ∀ c ∈ intChars n, c ≠ '`' := by
  intro c hc
  have hnat : ∀ {m : Nat}, c ∈ natChars m → c ≠ '`' := by
    intro m hm
    exact isDigitC_ne ((List.all_eq_true.mp (natChars_all m)) c hm) (by decide)
  unfold intChars at hc
  split at hc
  · rcases List.mem_cons.mp hc with h | h
    · rw [h]
      decide
    · exact hnat h
  · exact hnat hc

mutual
theorem serTC_no_tick : ∀ (v : Json), safeJson v = true → '`' ∉ serTC v
  | Json.null, _ => by
    rw [show serTC Json.null = ['n', 'u', 'l', 'l'] from by rw [serTC]]
    decide
  | Json.bool true, _ => by
    rw [show serTC (Json.bool true) = ['t', 'r', 'u', 'e'] from by rw [serTC]]
    decide
  | Json.bool false, _ => by
    rw [show serTC (Json.bool false) = ['f', 'a', 'l', 's', 'e'] from by rw [serTC]]
    decide
  | Json.num n, _ => by
    rw [show serTC (Json.num n) = intChars n from by rw [serTC]]
    intro hmem
    exact intChars_no_tick '`' hmem rfl
  | Json.str s, hv => by
    have hs : safeStr s = true := by simpa [safeJson] using hv
    rw [show serTC (Json.str s) = ('"' :: jsonEscape s) ++ ['"'] from by rw [serTC],
      jsonEscape_safe hs]
    intro hmem
    rcases List.mem_append.mp hmem with h | h
    · rcases List.mem_cons.mp h with h | h
      · exact absurd h (by decide)
      · exact absurd rfl (safeChar_ne (safeStr_mem hs h) (by decide)).symm
    · exact absurd (List.mem_singleton.mp h) (by decide)
  | Json.arr [], _ => by
    rw [show serTC (Json.arr []) = ['[', ']'] from by rw [serTC]]
    decide
  | Json.arr (x :: xs), hv => by
    have hsx : safeJson x = true ∧ safeArr xs = true := by
      have : safeArr (x :: xs) = true := by simpa [safeJson] using hv
      simpa [safeArr, Bool.and_eq_true] using this
    rw [show serTC (Json.arr (x :: xs)) = ('[' :: serTCElemsL x xs) ++ [',', ']'] from
        by rw [serTC]]
    intro hmem
    rcases List.mem_append.mp hmem with h | h
    · rcases List.mem_cons.mp h with h | h
      · exact absurd h (by decide)
      · exact serTCElemsL_no_tick x xs hsx.1 hsx.2 h
    · rcases List.mem_cons.mp h with h | h
      · exact absurd h (by decide)
      · exact absurd (List.mem_singleton.mp h) (by decide)
  | Json.obj [], _ => by
    rw [show serTC (Json.obj []) = ['\x7b', '\x7d'] from by rw [serTC]]
    decide
  | Json.obj (kv :: kvs), hv => by
    have hso : safeObj (kv :: kvs) = true := by simpa [safeJson] using hv
    rw [show serTC (Json.obj (kv :: kvs))
        = ('\x7b' :: serTCMembersL kv kvs) ++ [',', '\x7d'] from by rw [serTC]]
    intro hmem
    rcases List.mem_append.mp hmem with h | h
    · rcases List.mem_cons.mp h with h | h
      · exact absurd h (by decide)
      · exact serTCMembersL_no_tick kv kvs hso h
    · rcases List.mem_cons.mp h with h | h
      · exact absurd h (by decide)
      · exact absurd (List.mem_singleton.mp h) (by decide)
termination_by v => sizeOf v

theorem serTCElemsL_no_tick : ∀ (x : Json) (xs : List Json), safeJson x = true →
    safeArr xs = true → '`' ∉ serTCElemsL x xs
  | x, [], hx, _ => by
    rw [show serTCElemsL x [] = serTC x from by rw [serTCElemsL]]
    exact serTC_no_tick x hx
  | x, y :: xs, hx, hys => by
    have hsy : safeJson y = true ∧ safeArr xs = true := by
      simpa [safeArr, Bool.and_eq_true] using hys
    rw [show serTCElemsL x (y :: xs) = serTC x ++ ',' :: serTCElemsL y xs from
        by rw [serTCElemsL]]
    intro hmem
    rcases List.mem_append.mp hmem with h | h
    · exact serTC_no_tick x hx h
    · rcases List.mem_cons.mp h with h | h
      · exact absurd h (by decide)
      · exact serTCElemsL_no_tick y xs hsy.1 hsy.2 h
termination_by x xs => 1 + sizeOf x + sizeOf xs

theorem serTCMembersL_no_tick : ∀ (kv : List Char × Json)
    (kvs : List (List Char × Json)), safeObj (kv :: kvs) = true →
    '`' ∉ serTCMembersL kv kvs
  | (k, v), [], hs => by
    have hk : safeStr k = true := by
      simp only [safeObj, Bool.and_eq_true] at hs
      exact hs.1.1
    have hv : safeJson v = true := by
      simp only [safeObj, Bool.and_eq_true] at hs
      exact hs.1.2
    rw [show serTCMembersL (k, v) [] = '"' :: jsonEscape k ++ '"' :: ':' :: serTC v
        from by rw [serTCMembersL], jsonEscape_safe hk]
    intro hmem
    rcases List.mem_append.mp hmem with h | h
    · rcases List.mem_cons.mp h with h | h
      · exact absurd h (by decide)
      · exact absurd rfl (safeChar_ne (safeStr_mem hk h) (by decide)).symm
    · rcases List.mem_cons.mp h with h | h
      · exact absurd h (by decide)
      · rcases List.mem_cons.mp h with h | h
        · exact absurd h (by decide)
        · exact serTC_no_tick v hv h
  | (k, v), kv2 :: kvs2, hs => by
    have hk : safeStr k = true := by
      simp only [safeObj, Bool.and_eq_true] at hs
      exact hs.1.1
    have hv : safeJson v = true := by
      simp only [safeObj, Bool.and_eq_true] at hs
      exact hs.1.2
    have hs2 : safeObj (kv2 :: kvs2) = true := by
      simp only [safeObj, Bool.and_eq_true] at hs ⊢
      exact hs.2
    rw [show serTCMembersL (k, v) (kv2 :: kvs2)
        = ('"' :: jsonEscape k ++ '"' :: ':' :: serTC v) ++ ',' :: serTCMembersL kv2 kvs2
        from by rw [serTCMembersL], jsonEscape_safe hk]
    intro hmem
    rcases List.mem_append.mp hmem with h | h
    · rcases List.mem_append.mp h with h | h
      · rcases List.mem_cons.mp h with h | h
        · exact absurd h (by decide)
        · exact absurd rfl (safeChar_ne (safeStr_mem hk h) (by decide)).symm
      · rcases List.mem_cons.mp h with h | h
        · exact absurd h (by decide)
        · rcases List.mem_cons.mp h with h | h
          · exact absurd h (by decide)
          · exact serTC_no_tick v hv h
    · rcases List.mem_cons.mp h with h | h
      · exact absurd h (by decide)
      · exact serTCMembersL_no_tick kv2 kvs2 hs2 h
termination_by kv kvs => 1 + sizeOf kv + sizeOf kvs
end

/-! ### `JSON.parse` of a serialized safe value -/

theorem jsonParse_serializeL (v : Json) (hs : safeJson v = true) :
    jsonParse (serializeL v) = some v := by
  unfold jsonParse
  have h := (parse_roundtrip ((serializeL v).length + 1)).1 v hs [] sepOK_nil (by omega)
  rw [List.append_nil] at h
  rw [h]
  rfl

/-! ### Fence extraction on a wrapped body -/

theorem findSub_at : ∀ (pre : List Char) (pat rest : List Char),
    (∃ t, pat = '`' :: t) → '`' ∉ pre →
    findSub pat (pre ++ (pat ++ rest)) = some pre.length := by
  intro pre
  induction pre with
  | nil =>
    intro pat rest hp _
    obtain ⟨t, ht⟩ := hp
    simp only [List.nil_append]
    rw [ht, List.cons_append]
    rw [show findSub ('`' :: t) ('`' :: (t ++ rest))
        = if ('`' :: t).isPrefixOf ('`' :: (t ++ rest)) then some 0
          else (findSub ('`' :: t) (t ++ rest)).map (· + 1) from by rw [findSub]]
    rw [if_pos (by
      rw [List.isPrefixOf_iff_prefix]
      exact ⟨rest, by simp⟩)]
    rfl
  | cons c pre' ih =>
    intro pat rest hp hb
    obtain ⟨t, ht⟩ := hp
    have hc : c ≠ '`' := fun h => hb (h ▸ List.mem_cons_self _ _)
    rw [List.cons_append]
    rw [show findSub pat (c :: (pre' ++ (pat ++ rest)))
        = if pat.isPrefixOf (c :: (pre' ++ (pat ++ rest))) then some 0
          else (findSub pat (pre' ++ (pat ++ rest))).map (· + 1) from by rw [findSub]]
    rw [if_neg (by
      rw [ht, List.isPrefixOf_iff_prefix]
      intro hpre
      obtain ⟨u, hu⟩ := hpre
      rw [List.cons_append] at hu
      injection hu with h1 h2
      exact hc h1.symm)]
    rw [ih pat rest ⟨t, ht⟩ (fun h => hb (List.mem_cons_of_mem _ h))]
    rfl

/-! ### Trimming around the braced body -/

theorem trimChars_body (mid : List Char) :
    trimChars ('\x7b' :: (mid ++ ['\x7d', '\n'])) = '\x7b' :: (mid ++ ['\x7d']) := by
  unfold trimChars
  rw [List.dropWhile_cons_of_neg (by decide)]
  have h1 : ('\x7b' :: (mid ++ ['\x7d', '\n'])).reverse
      = '\n' :: ('\x7d' :: (mid.reverse ++ ['\x7b'])) := by
    simp
  rw [h1, List.dropWhile_cons_of_pos (by decide), List.dropWhile_cons_of_neg (by decide)]
  simp

theorem trimChars_noop_braces (mid : List Char) :
    trimChars ('\x7b' :: (mid ++ ['\x7d'])) = '\x7b' :: (mid ++ ['\x7d']) := by
  unfold trimChars
  rw [List.dropWhile_cons_of_neg (by decide)]
  have h1 : ('\x7b' :: (mid ++ ['\x7d'])).reverse = '\x7d' :: (mid.reverse ++ ['\x7b']) := by
    simp
  rw [h1, List.dropWhile_cons_of_neg (by decide)]
  simp

theorem serTC_obj_shape (kvs : List (List Char × Json)) :
    ∃ mid, serTC (Json.obj kvs) = '\x7b' :: (mid ++ ['\x7d']) := by
  match kvs with
  | [] =>
    exact ⟨[], by rw [serTC]; rfl⟩
  | kv :: kvs2 =>
    refine ⟨serTCMembersL kv kvs2 ++ [','], ?_⟩
    rw [serTC]
    simp

theorem serializeL_obj_shape (kvs : List (List Char × Json)) :
    ∃ mid, serializeL (Json.obj kvs) = '\x7b' :: (mid ++ ['\x7d']) := by
  match kvs with
  | [] =>
    exact ⟨[], by rw [serializeL]; rfl⟩
  | kv :: kvs2 =>
    refine ⟨serializeMembersL kv kvs2, ?_⟩
    rw [serializeL]
    simp

/-! ### Fence extraction of the wrapped body -/

theorem extractFence_wrap {body : List Char} (prose1 prose2 : List Char)
    (hb1 : '`' ∉ prose1) (hbody : '`' ∉ body) {mid : List Char}
    (hmid : body = '\x7b' :: (mid ++ ['\x7d'])) :
    extractFence (prose1 ++ (fencePat ++ ('\n' :: (body ++ ('\n' :: (ticks ++ prose2))))))
      = some body := by
  have hfind1 : findSub fencePat (prose1 ++ (fencePat
      ++ ('\n' :: (body ++ ('\n' :: (ticks ++ prose2)))))) = some prose1.length :=
    findSub_at prose1 fencePat _ ⟨"``json".data, by decide⟩ hb1
  have hdrop1 : (prose1 ++ (fencePat
      ++ ('\n' :: (body ++ ('\n' :: (ticks ++ prose2)))))).drop
      (prose1.length + fencePat.length)
      = '\n' :: (body ++ ('\n' :: (ticks ++ prose2))) := by
    rw [show prose1 ++ (fencePat ++ ('\n' :: (body ++ ('\n' :: (ticks ++ prose2)))))
        = (prose1 ++ fencePat) ++ ('\n' :: (body ++ ('\n' :: (ticks ++ prose2))))
        from by simp,
      show prose1.length + fencePat.length = (prose1 ++ fencePat).length from
        (List.length_append _ _).symm, List.drop_left]
  simp only [extractFence, hfind1, hdrop1]
  rw [List.dropWhile_cons_of_pos (by decide), hmid]
  rw [show ('\x7b' :: (mid ++ ['\x7d'])) ++ ('\n' :: (ticks ++ prose2))
      = '\x7b' :: ((mid ++ ['\x7d']) ++ ('\n' :: (ticks ++ prose2))) from rfl]
  rw [List.dropWhile_cons_of_neg (by decide)]
  have hmidmem : '`' ∉ ('\x7b' :: (mid ++ ['\x7d', '\n'])) := by
    intro h
    rcases List.mem_cons.mp h with h | h
    · exact absurd h (by decide)
    rcases List.mem_append.mp h with h | h
    · refine hbody ?_
      rw [hmid]
      exact List.mem_cons_of_mem _ (List.mem_append.mpr (Or.inl h))
    · rcases List.mem_cons.mp h with h | h
      · exact absurd h (by decide)
      · rcases List.mem_cons.mp h with h | h
        · exact absurd h (by decide)
        · exact absurd h (List.not_mem_nil _)
  have hfind2 : findSub ticks ('\x7b' :: ((mid ++ ['\x7d']) ++ ('\n' :: (ticks ++ prose2))))
      = some ('\x7b' :: (mid ++ ['\x7d', '\n'])).length := by
    rw [show '\x7b' :: ((mid ++ ['\x7d']) ++ ('\n' :: (ticks ++ prose2)))
        = ('\x7b' :: (mid ++ ['\x7d', '\n'])) ++ (ticks ++ prose2) from by simp]
    exact findSub_at _ ticks prose2 ⟨"``".data, by decide⟩ hmidmem
  rw [hfind2]
  simp only []
  have htake : ('\x7b' :: ((mid ++ ['\x7d']) ++ ('\n' :: (ticks ++ prose2)))).take
      ('\x7b' :: (mid ++ ['\x7d', '\n'])).length = '\x7b' :: (mid ++ ['\x7d', '\n']) := by
    rw [show '\x7b' :: ((mid ++ ['\x7d']) ++ ('\n' :: (ticks ++ prose2)))
        = ('\x7b' :: (mid ++ ['\x7d', '\n'])) ++ (ticks ++ prose2) from by simp]
    exact List.take_left _ _
  rw [htake, trimChars_body]
  rw [if_neg (by simp)]

/-! ### `cleanJson` recovers the serialization of the wrapped object -/

theorem cleanJsonL_wrap (kvs : List (List Char × Json))
    (hs : safeJson (Json.obj kvs) = true) (prose1 prose2 : List Char)
    (hb1 : '`' ∉ prose1) :
    cleanJsonL (prose1 ++ (fencePat ++ ('\n' :: (serTC (Json.obj kvs)
      ++ ('\n' :: (ticks ++ prose2)))))) = serializeL (Json.obj kvs) := by
  obtain ⟨mid, hmid⟩ := serTC_obj_shape kvs
  have hbody : '`' ∉ serTC (Json.obj kvs) := serTC_no_tick _ hs
  have hfence := extractFence_wrap prose1 prose2 hb1 hbody hmid
  simp only [cleanJsonL, hfence]
  rw [hmid]
  rw [List.dropWhile_cons_of_neg (by decide)]
  simp only []
  rw [← hmid, scanBody_serTC_obj kvs hs]
  simp only []
  have hrtc : removeTrailingCommas (serTC (Json.obj kvs)) = serializeL (Json.obj kvs) := by
    have h := rTC_through_v (Json.obj kvs) hs []
    rw [List.append_nil, show removeTrailingCommas [] = [] from by rw [removeTrailingCommas],
      List.append_nil] at h
    exact h
  have hqf : quoteFix (serializeL (Json.obj kvs)) = serializeL (Json.obj kvs) := by
    have h := qf_through_v (Json.obj kvs) hs sepOK_nil
    rw [List.append_nil, show quoteFix [] = [] from by rw [quoteFix],
      List.append_nil] at h
    exact h
  rw [hrtc, hqf]
  obtain ⟨mid2, hmid2⟩ := serializeL_obj_shape kvs
  rw [hmid2, trimChars_noop_braces]

/-- The codec recovers a safe object wrapped in prose and fences, with
trailing commas inserted before every closing bracket. -/
theorem safeJsonParse_wrap (kvs : List (List Char × Json))
    (hs : safeJson (Json.obj kvs) = true) (prose1 prose2 : List Char)
    (hb1 : '`' ∉ prose1) :
    safeJsonParseL (prose1 ++ (fencePat ++ ('\n' :: (serTC (Json.obj kvs)
      ++ ('\n' :: (ticks ++ prose2)))))) = some (Json.obj kvs) := by
  unfold safeJsonParseL
  rw [cleanJsonL_wrap kvs hs prose1 prose2 hb1, jsonParse_serializeL _ hs]

/-! ### Character-preservation lemmas: the cleaning passes introduce no `{` -/

theorem mem_trimChars {x : Char} {cs : List Char} (hx : x ∈ trimChars cs) : x ∈ cs := by
  unfold trimChars at hx
  rw [List.mem_reverse] at hx
  have h1 := (List.dropWhile_sublist isJsWhitespace).mem hx
  rw [List.mem_reverse] at h1
  exact (List.dropWhile_sublist isJsWhitespace).mem h1

theorem mem_extractFence {x : Char} {text cap : List Char}
    (h : extractFence text = some cap) (hx : x ∈ cap) : x ∈ text := by
  simp only [extractFence] at h
  split at h
  · simp at h
  · split at h
    · simp at h
    · split at h
      · simp at h
      · simp only [Option.some.injEq] at h
        subst h
        have h1 := mem_trimChars hx
        have h2 := (List.take_sublist _ _).mem h1
        have h3 := (List.dropWhile_sublist isJsWhitespace).mem h2
        exact (List.drop_sublist _ _).mem h3

theorem mem_removeFenceJson {x : Char} : ∀ (cs : List Char),
    x ∈ removeFenceJson cs → x ∈ cs
  | [] => by simp [removeFenceJson]
  | c :: rest => fun hx => by
    simp only [removeFenceJson] at hx
    split at hx
    · have h1 := mem_removeFenceJson _ hx
      have h2 := (List.dropWhile_sublist isJsWhitespace).mem h1
      exact List.mem_cons_of_mem c ((List.drop_sublist _ _).mem h2)
    · rcases List.mem_cons.mp hx with h | h
      · rw [h]
        exact List.mem_cons_self _ _
      · exact List.mem_cons_of_mem c (mem_removeFenceJson rest h)
termination_by cs => cs.length
decreasing_by
  all_goals
    first
    | (simp
       done)
    | (have h1 : (List.dropWhile isJsWhitespace (List.drop 6 rest)).length
           ≤ (List.drop 6 rest).length :=
         List.Sublist.length_le (List.dropWhile_sublist _)
       have h2 : (List.drop 6 rest).length ≤ rest.length :=
         List.Sublist.length_le (List.drop_sublist _ _)
       exact Nat.lt_succ_of_le (Nat.le_trans h1 h2))

theorem mem_removeFence {x : Char} : ∀ (cs : List Char),
    x ∈ removeFence cs → x ∈ cs
  | [] => by simp [removeFence]
  | c :: rest => fun hx => by
    simp only [removeFence] at hx
    split at hx
    · have h1 := mem_removeFence _ hx
      have h2 := (List.dropWhile_sublist isJsWhitespace).mem h1
      exact List.mem_cons_of_mem c ((List.drop_sublist _ _).mem h2)
    · rcases List.mem_cons.mp hx with h | h
      · rw [h]
        exact List.mem_cons_self _ _
      · exact List.mem_cons_of_mem c (mem_removeFence rest h)
termination_by cs => cs.length
decreasing_by
  all_goals
    first
    | (simp
       done)
    | (have h1 : (List.dropWhile isJsWhitespace (List.drop 2 rest)).length
           ≤ (List.drop 2 rest).length :=
         List.Sublist.length_le (List.dropWhile_sublist _)
       have h2 : (List.drop 2 rest).length ≤ rest.length :=
         List.Sublist.length_le (List.drop_sublist _ _)
       exact Nat.lt_succ_of_le (Nat.le_trans h1 h2))

theorem mem_extractBraceSpan {x : Char} {cs : List Char}
    (hx : x ∈ extractBraceSpan cs) : x ∈ cs := by
  simp only [extractBraceSpan] at hx
  split at hx
  · exact hx
  · split at hx
    · exact hx
    · have h1 := (List.take_sublist _ _).mem hx
      exact (List.dropWhile_sublist _).mem h1

theorem mem_removeTrailingCommas {x : Char} : ∀ (cs : List Char),
    x ∈ removeTrailingCommas cs → x ∈ cs
  | [] => by simp [removeTrailingCommas]
  | c :: rest => fun hx => by
    simp only [removeTrailingCommas] at hx
    split at hx
    · rename_i hc
      split at hx
      · rename_i b btail heq
        split at hx
        · rcases List.mem_append.mp hx with h | h
          · exact List.mem_cons_of_mem c ((List.takeWhile_sublist _).mem h)
          · rcases List.mem_cons.mp h with h | h
            · have hb : b ∈ rest.drop (rest.takeWhile isJsWhitespace).length := by
                rw [heq]
                exact List.mem_cons_self _ _
              rw [h]
              exact List.mem_cons_of_mem c ((List.drop_sublist _ _).mem hb)
            · exact List.mem_cons_of_mem c ((List.drop_sublist _ _).mem
                (mem_removeTrailingCommas _ h))
        · rcases List.mem_cons.mp hx with h | h
          · rw [h, hc]
            exact List.mem_cons_self _ _
          · exact List.mem_cons_of_mem c (mem_removeTrailingCommas rest h)
      · rcases List.mem_cons.mp hx with h | h
        · rw [h, hc]
          exact List.mem_cons_self _ _
        · exact List.mem_cons_of_mem c (mem_removeTrailingCommas rest h)
    · rcases List.mem_cons.mp hx with h | h
      · rw [h]
        exact List.mem_cons_self _ _
      · exact List.mem_cons_of_mem c (mem_removeTrailingCommas rest h)
termination_by cs => cs.length
decreasing_by
  all_goals simp only [List.length_cons, List.length_drop]
  all_goals omega

theorem nlfMatch_mem {x : Char} {rest repl : List Char} {n : Nat}
    (h : nlfMatch rest = some (repl, n)) (hx : x ∈ repl) :
    x ∈ rest ∨ x = ':' ∨ x = ' ' := by
  simp only [nlfMatch] at h
  split at h
  · rename_i rest3 heq1
    split at h
    · rename_i q2 rest5 heq2
      split at h
      · rename_i hq2
        split at h
        · rename_i q3 t5 heq3
          split at h
          · rename_i runA runB heq4
            simp only [Option.some.injEq, Prod.mk.injEq] at h
            obtain ⟨hrepl, -⟩ := h
            subst hrepl
            have hmem3 : ∀ y : Char, y ∈ (':' :: rest3) → y ∈ rest := by
              intro y hy
              rw [← heq1] at hy
              exact (List.drop_sublist _ _).mem hy
            have hmem5 : ∀ y : Char, y ∈ (q2 :: rest5) → y ∈ rest := by
              intro y hy
              rw [← heq2] at hy
              exact hmem3 y (List.mem_cons_of_mem _ ((List.drop_sublist _ _).mem hy))
            have hq3 : q3 ∈ rest := by
              have hq : q3 ∈ q3 :: t5 := List.mem_cons_self _ _
              rw [← heq3] at hq
              exact hmem5 q3 (List.mem_cons_of_mem _ ((List.drop_sublist _ _).mem hq))
            have hrun : ∀ y : Char,
                y ∈ rest5.takeWhile (fun c => !(isQuoteJs c)) → y ∈ rest := by
              intro y hy
              exact hmem5 y (List.mem_cons_of_mem _ ((List.takeWhile_sublist _).mem hy))
            have hAB : ∀ y : Char, y ∈ runA ++ runB →
                y ∈ rest5.takeWhile (fun c => !(isQuoteJs c)) := by
              simp only [lastNewlineSplit] at heq4
              split at heq4
              · exact absurd heq4 (by simp)
              · simp only [Option.some.injEq, Prod.mk.injEq] at heq4
                obtain ⟨hA, hB⟩ := heq4
                intro y hy
                rcases List.mem_append.mp hy with h1 | h1
                · rw [← hA] at h1
                  exact (List.take_sublist _ _).mem h1
                · rw [← hB] at h1
                  rw [List.mem_reverse] at h1
                  have h2 := (List.takeWhile_sublist _).mem h1
                  rwa [List.mem_reverse] at h2
            rcases List.mem_cons.mp hx with h1 | hx2
            · exact Or.inr (Or.inl h1)
            rcases List.mem_cons.mp hx2 with h1 | hx3
            · exact Or.inr (Or.inr h1)
            rcases List.mem_cons.mp hx3 with h1 | hx4
            · refine Or.inl (hmem5 x ?_)
              rw [h1]
              exact List.mem_cons_self _ _
            rcases List.mem_append.mp hx4 with h1 | h1
            · exact Or.inl (hrun x (hAB x h1))
            · rw [List.mem_singleton] at h1
              subst h1
              exact Or.inl hq3
          · simp at h
        · simp at h
      · simp at h
    · simp at h
  · simp at h

theorem mem_newlineFix {x : Char} : ∀ (cs : List Char),
    x ∈ newlineFix cs → x ∈ cs ∨ x = ':' ∨ x = ' '
  | [] => by simp [newlineFix]
  | c :: rest => fun hx => by
    simp only [newlineFix] at hx
    split at hx
    · split at hx
      · rename_i repl n heq
        rcases List.mem_cons.mp hx with h1 | hx2
        · refine Or.inl ?_
          rw [h1]
          exact List.mem_cons_self _ _
        · rcases List.mem_append.mp hx2 with h1 | h1
          · rcases nlfMatch_mem heq h1 with h2 | h2
            · exact Or.inl (List.mem_cons_of_mem _ h2)
            · exact Or.inr h2
          · rcases mem_newlineFix _ h1 with h2 | h2
            · exact Or.inl (List.mem_cons_of_mem _ ((List.drop_sublist _ _).mem h2))
            · exact Or.inr h2
      · rcases List.mem_cons.mp hx with h1 | hx2
        · refine Or.inl ?_
          rw [h1]
          exact List.mem_cons_self _ _
        · rcases mem_newlineFix rest hx2 with h2 | h2
          · exact Or.inl (List.mem_cons_of_mem _ h2)
          · exact Or.inr h2
    · rcases List.mem_cons.mp hx with h1 | hx2
      · refine Or.inl ?_
        rw [h1]
        exact List.mem_cons_self _ _
      · rcases mem_newlineFix rest hx2 with h2 | h2
        · exact Or.inl (List.mem_cons_of_mem _ h2)
        · exact Or.inr h2
termination_by cs => cs.length
decreasing_by
  all_goals simp only [List.length_cons, List.length_drop]
  all_goals omega

/-! ### A parsed object needs an opening brace in the input -/

theorem parseValue_obj_brace {f : Nat} {cs rest : List Char}
    {kvs : List (List Char × Json)}
    (h : parseValue f cs = some (Json.obj kvs, rest)) : '\x7b' ∈ cs := by
  match f with
  | 0 => simp [parseValue] at h
  | f + 1 =>
    unfold parseValue at h
    split at h
    · simp at h
    · rename_i c rest1 heq
      have hmem : ∀ y : Char, y ∈ c :: rest1 → y ∈ cs := by
        intro y hy
        rw [← heq] at hy
        exact (List.dropWhile_sublist _).mem hy
      split at h
      · split at h <;> simp at h
      · split at h
        · split at h <;> simp at h
        · split at h
          · split at h <;> simp at h
          · split at h
            · split at h <;> simp at h
            · split at h
              · rename_i hcb
                refine hmem '\x7b' ?_
                rw [← hcb]
                exact List.mem_cons_self _ _
              · split at h
                · split at h
                  · simp at h
                  · split at h <;> simp at h
                · unfold parseNumber at h
                  split at h <;>
                  · simp only [Option.map_eq_some'] at h
                    obtain ⟨pr, -, hpr⟩ := h
                    simp at hpr

theorem jsonParse_obj_brace {cs : List Char} {j : Json}
    (h : jsonParse cs = some j) (hobj : j.isObj = true) : '\x7b' ∈ cs := by
  unfold jsonParse at h
  split at h
  · rename_i v rest heq
    split at h
    · simp only [Option.some.injEq] at h
      subst h
      cases v
      case obj kvs => exact parseValue_obj_brace heq
      all_goals simp [Json.isObj] at hobj
    · simp at h
  · simp at h

/-! ### Brace-free inputs never produce an object -/

theorem cleanJsonL_no_brace {text0 : List Char} (h : '\x7b' ∉ text0) :
    '\x7b' ∉ cleanJsonL text0 := by
  intro hx
  simp only [cleanJsonL] at hx
  have hmemtext : ∀ y : Char, y ∈ (match extractFence text0 with
      | some cap => cap
      | none => text0) → y ∈ text0 := by
    intro y hy
    split at hy
    · rename_i cap heq
      exact mem_extractFence heq hy
    · exact hy
  generalize hT : (match extractFence text0 with
      | some cap => cap
      | none => text0) = T at hx hmemtext
  have hnb : '\x7b' ∉ T := fun hc => h (hmemtext _ hc)
  have hdrop : T.dropWhile (fun c => c ≠ '\x7b') = [] := by
    rw [List.dropWhile_eq_nil_iff]
    intro y hy
    simp only [ne_eq, decide_eq_true_eq]
    intro hc
    exact hnb (hc ▸ hy)
  rw [hdrop] at hx
  exact hnb (mem_trimChars hx)

theorem aggressiveClean_no_brace {cs : List Char} (h : '\x7b' ∉ cs) :
    '\x7b' ∉ aggressiveClean cs := by
  intro hx
  unfold aggressiveClean at hx
  have h1 := mem_trimChars hx
  rcases mem_newlineFix _ h1 with h2 | h2 | h2
  · exact h (mem_removeFenceJson _ (mem_removeFence _ (mem_extractBraceSpan
      (mem_removeTrailingCommas _ h2))))
  · exact absurd h2 (by decide)
  · exact absurd h2 (by decide)

theorem safeJsonParseL_no_brace {text : List Char} (h : '\x7b' ∉ text) {j : Json}
    (hj : safeJsonParseL text = some j) : j.isObj = false := by
  unfold safeJsonParseL at hj
  split at hj
  · rename_i v heq
    simp only [Option.some.injEq] at hj
    subst hj
    by_contra hobj
    rw [Bool.not_eq_false] at hobj
    exact cleanJsonL_no_brace h (jsonParse_obj_brace heq hobj)
  · by_contra hobj
    rw [Bool.not_eq_false] at hobj
    exact aggressiveClean_no_brace h (jsonParse_obj_brace hj hobj)

/-- Claim C3 counterexample: the codec neither returns every well-formed fenced
object intact nor fails on every text without a balanced brace span.
(a) For the object whose single field "a" holds the string ",\x7d", the
trailing-comma serialization wrapped in fences and prose comes back as a
DIFFERENT object: `cleanJson`'s trailing-comma regex also fires inside the
string literal, so the recovered field holds "\x7d".  (b) The brace-free text
"42" parses successfully to the number 42 instead of failing. -/
theorem claim3_counterexample :
    serTC (Json.obj [("a".data, Json.str ",\x7d".data)]) =
        "\x7b\"a\":\",\x7d\",\x7d".data
    ∧ safeJsonParse "Sure! ```json\n\x7b\"a\":\",\x7d\",\x7d\n``` Done." =
        some (Json.obj [("a".data, Json.str "\x7d".data)])
    ∧ some (Json.obj [("a".data, Json.str "\x7d".data)]) ≠
        some (Json.obj [("a".data, Json.str ",\x7d".data)])
    ∧ '\x7b' ∉ "42".data
    ∧ safeJsonParse "42" = some (Json.num 42) := by
  refine ⟨?_, ?_, ?_, ?_, ?_⟩
  · simp [serTC, serTCMembersL, jsonEscape, escapeChar]
  · have hstep : cleanJsonL "Sure! ```json\n\x7b\"a\":\",\x7d\",\x7d\n``` Done.".data
        = trimChars (quoteFix (removeTrailingCommas "\x7b\"a\":\",\x7d\",\x7d".data)) := rfl
    have hrtc : removeTrailingCommas "\x7b\"a\":\",\x7d\",\x7d".data
        = "\x7b\"a\":\"\x7d\"\x7d".data := by
      simp [removeTrailingCommas, isJsWhitespace]
    have hqf : quoteFix "\x7b\"a\":\"\x7d\"\x7d".data = "\x7b\"a\":\"\x7d\"\x7d".data := by
      simp [quoteFix, qfMatch, isQF]
    have hc : cleanJsonL "Sure! ```json\n\x7b\"a\":\",\x7d\",\x7d\n``` Done.".data
        = "\x7b\"a\":\"\x7d\"\x7d".data := by
      rw [hstep, hrtc, hqf]
      rfl
    show safeJsonParseL _ = _
    unfold safeJsonParseL
    rw [hc]
    rfl
  · simp
  · decide
  · rfl

/-- Claim C3 amended: (a) for every object built from safe strings (ASCII
letters, digits and spaces), the codec applied to its serialization with
trailing commas inserted before every closing bracket, wrapped in ```json
fences with arbitrary backtick-free prose before and arbitrary prose after,
returns exactly that object; (b) on a text containing no `\x7b` at all (hence
no balanced brace span) the codec either throws (`none`) or returns a
non-object value — it does not fabricate an object, but it need not throw. -/
theorem claim3_amended :
    (∀ (kvs : List (List Char × Json)) (prose1 prose2 : List Char),
      safeJson (Json.obj kvs) = true → '`' ∉ prose1 →
      safeJsonParseL (prose1 ++ "```json\n".data ++ serTC (Json.obj kvs)
        ++ "\n```".data ++ prose2) = some (Json.obj kvs))
    ∧ (∀ s : List Char, '\x7b' ∉ s →
        safeJsonParseL s = none ∨ ∃ j, safeJsonParseL s = some j ∧ j.isObj = false) := by
  constructor
  · intro kvs prose1 prose2 hs hb1
    have htext : prose1 ++ "```json\n".data ++ serTC (Json.obj kvs)
        ++ "\n```".data ++ prose2
        = prose1 ++ (fencePat ++ ('\n' :: (serTC (Json.obj kvs)
            ++ ('\n' :: (ticks ++ prose2))))) := by
      rw [show "```json\n".data = fencePat ++ ['\n'] from by decide,
        show "\n```".data = '\n' :: ticks from by decide]
      simp
    rw [htext]
    exact safeJsonParse_wrap kvs hs prose1 prose2 hb1
  · intro s hnb
    cases hj : safeJsonParseL s with
    | none => exact Or.inl rfl
    | some j => exact Or.inr ⟨j, rfl, safeJsonParseL_no_brace hnb hj⟩

/-- Claim C3 amended witness: the object with field "a" holding "b", wrapped
in prose and fences, comes back intact; the brace-free "42" yields a
non-object. -/
theorem claim3_witness :
    safeJson (Json.obj [("a".data, Json.str "b".data)]) = true
    ∧ '`' ∉ "Sure! ".data
    ∧ safeJsonParseL ("Sure! ".data ++ "```json\n".data
        ++ serTC (Json.obj [("a".data, Json.str "b".data)]) ++ "\n```".data
        ++ " Done.".data)
      = some (Json.obj [("a".data, Json.str "b".data)])
    ∧ '\x7b' ∉ "42".data
    ∧ (safeJsonParseL "42".data = none
        ∨ ∃ j, safeJsonParseL "42".data = some j ∧ j.isObj = false) := by
  have h1 : safeJson (Json.obj [("a".data, Json.str "b".data)]) = true := by
    simp [safeJson, safeObj, safeStr, safeChar]
  refine ⟨h1, by decide, claim3_amended.1 _ _ _ h1 (by decide), by decide,
    claim3_amended.2 _ (by decide)⟩

end CourseGenius
